import Mathlib

/-!
# Read/write context classification of racy variables

A shallow embedding of `internal/analyzer/analyzer.go`: the rule tables
`isReadOnlyContext` and `isWriteContext`, the ancestor climb `isWritten`, the
visitor driven by `ast.Walk`, and `AnalyzeFile`.

The syntax tree is the one of Go's `go/ast`.  Every node carries the address
`ptr` it lives at: the analyzer compares nodes with `==` on interface values
holding pointers, i.e. by address, and the embedding compares the `ptr` fields.
Fields that only carry source positions are left out, except `Ident.NamePos`,
which is what `Ident.Pos()` returns.
-/

namespace Drfix

/-! ## `go/token` -/

/-- The tokens of `go/token`. -/
inductive Token where
  | ILLEGAL | EOF | COMMENT
  | IDENT | INT | FLOAT | IMAG | CHAR | STRING
  | ADD | SUB | MUL | QUO | REM
  | AND | OR | XOR | SHL | SHR | AND_NOT
  | ADD_ASSIGN | SUB_ASSIGN | MUL_ASSIGN | QUO_ASSIGN | REM_ASSIGN
  | AND_ASSIGN | OR_ASSIGN | XOR_ASSIGN | SHL_ASSIGN | SHR_ASSIGN | AND_NOT_ASSIGN
  | LAND | LOR | ARROW | INC | DEC
  | EQL | LSS | GTR | ASSIGN | NOT
  | NEQ | LEQ | GEQ | DEFINE | ELLIPSIS
  | LPAREN | LBRACK | LBRACE | COMMA | PERIOD
  | RPAREN | RBRACK | RBRACE | SEMICOLON | COLON
  | BREAK | CASE | CHAN | CONST | CONTINUE
  | DEFAULT | DEFER | ELSE | FALLTHROUGH | FOR
  | FUNC | GO | GOTO | IF | IMPORT_
  | INTERFACE | MAP | PACKAGE | RANGE | RETURN
  | SELECT | STRUCT | SWITCH | TYPE | VAR
  | TILDE
  deriving DecidableEq, Repr

/-- A `token.Pos`: a compact encoding of a source position. -/
abbrev Pos := Nat

/-- A `token.Position`: the file name, byte offset, line and column. -/
structure Position where
  Filename : String
  Offset : Int
  Line : Int
  Column : Int
  deriving DecidableEq, Repr

/-- The zero value of `token.Position`. -/
def Position.zero : Position := ⟨"", 0, 0, 0⟩

/-- A `token.FileSet`, seen through its one method used here, `Position`. -/
abbrev FileSet := Pos → Position

/-! ## `go/ast` -/

/-- An `*ast.Ident`. -/
structure Ident where
  ptr : Nat
  NamePos : Pos
  Name : String
  deriving DecidableEq, Repr

/-- An `*ast.BasicLit`. -/
structure BasicLit where
  ptr : Nat
  Kind : Token
  Value : String
  deriving DecidableEq, Repr

/-- An `*ast.Comment`. -/
structure Comment where
  ptr : Nat
  Text : String
  deriving DecidableEq, Repr

/-- An `*ast.CommentGroup`. -/
structure CommentGroup where
  ptr : Nat
  List_ : List Comment
  deriving DecidableEq, Repr

mutual

/-- An `*ast.Field`. -/
inductive Field where
  | mk (ptr : Nat) (Doc : Option CommentGroup) (Names : List Ident) (Typ : Option Expr)
      (Tag : Option BasicLit) (Comment : Option CommentGroup)

/-- An `*ast.FieldList`. -/
inductive FieldList where
  | mk (ptr : Nat) (List_ : List Field)

/-- An `*ast.FuncType`. -/
inductive FuncType where
  | mk (ptr : Nat) (TypeParams : Option FieldList) (Params : Option FieldList)
      (Results : Option FieldList)

/-- An `*ast.BlockStmt`. -/
inductive BlockStmt where
  | mk (ptr : Nat) (List_ : List Stmt)

/-- An `*ast.CallExpr`. -/
inductive CallExpr where
  | mk (ptr : Nat) (Fun : Expr) (Args : List Expr)

/-- The node types implementing `ast.Expr`. -/
inductive Expr where
  | BadExpr (ptr : Nat)
  | Ident (i : Ident)
  | Ellipsis (ptr : Nat) (Elt : Option Expr)
  | BasicLit (b : BasicLit)
  | FuncLit (ptr : Nat) (Typ : FuncType) (Body : BlockStmt)
  | CompositeLit (ptr : Nat) (Typ : Option Expr) (Elts : List Expr)
  | ParenExpr (ptr : Nat) (X : Expr)
  | SelectorExpr (ptr : Nat) (X : Expr) (Sel : Ident)
  | IndexExpr (ptr : Nat) (X : Expr) (Index : Expr)
  | IndexListExpr (ptr : Nat) (X : Expr) (Indices : List Expr)
  | SliceExpr (ptr : Nat) (X : Expr) (Low : Option Expr) (High : Option Expr)
      (Max : Option Expr)
  | TypeAssertExpr (ptr : Nat) (X : Expr) (Typ : Option Expr)
  | CallExpr (c : CallExpr)
  | StarExpr (ptr : Nat) (X : Expr)
  | UnaryExpr (ptr : Nat) (Op : Token) (X : Expr)
  | BinaryExpr (ptr : Nat) (X : Expr) (Op : Token) (Y : Expr)
  | KeyValueExpr (ptr : Nat) (Key : Expr) (Value : Expr)
  | ArrayType (ptr : Nat) (Len : Option Expr) (Elt : Expr)
  | StructType (ptr : Nat) (Fields : FieldList)
  | FuncType (f : FuncType)
  | InterfaceType (ptr : Nat) (Methods : FieldList)
  | MapType (ptr : Nat) (Key : Expr) (Value : Expr)
  | ChanType (ptr : Nat) (Value : Expr)

/-- The node types implementing `ast.Stmt`. -/
inductive Stmt where
  | BadStmt (ptr : Nat)
  | DeclStmt (ptr : Nat) (Decl : Decl)
  | EmptyStmt (ptr : Nat)
  | LabeledStmt (ptr : Nat) (Label : Ident) (Stmt : Stmt)
  | ExprStmt (ptr : Nat) (X : Expr)
  | SendStmt (ptr : Nat) (Chan : Expr) (Value : Expr)
  | IncDecStmt (ptr : Nat) (X : Expr) (Tok : Token)
  | AssignStmt (ptr : Nat) (Lhs : List Expr) (Tok : Token) (Rhs : List Expr)
  | GoStmt (ptr : Nat) (Call : CallExpr)
  | DeferStmt (ptr : Nat) (Call : CallExpr)
  | ReturnStmt (ptr : Nat) (Results : List Expr)
  | BranchStmt (ptr : Nat) (Tok : Token) (Label : Option Ident)
  | BlockStmt (b : BlockStmt)
  | IfStmt (ptr : Nat) (Init : Option Stmt) (Cond : Expr) (Body : BlockStmt)
      (Else : Option Stmt)
  | CaseClause (ptr : Nat) (List_ : List Expr) (Body : List Stmt)
  | SwitchStmt (ptr : Nat) (Init : Option Stmt) (Tag : Option Expr) (Body : BlockStmt)
  | TypeSwitchStmt (ptr : Nat) (Init : Option Stmt) (Assign : Stmt) (Body : BlockStmt)
  | CommClause (ptr : Nat) (Comm : Option Stmt) (Body : List Stmt)
  | SelectStmt (ptr : Nat) (Body : BlockStmt)
  | ForStmt (ptr : Nat) (Init : Option Stmt) (Cond : Option Expr) (Post : Option Stmt)
      (Body : BlockStmt)
  | RangeStmt (ptr : Nat) (Key : Option Expr) (Value : Option Expr) (Tok : Token)
      (X : Expr) (Body : BlockStmt)

/-- The node types implementing `ast.Spec`. -/
inductive Spec where
  | ImportSpec (ptr : Nat) (Doc : Option CommentGroup) (Name : Option Ident)
      (Path : BasicLit) (Comment : Option CommentGroup)
  | ValueSpec (ptr : Nat) (Doc : Option CommentGroup) (Names : List Ident)
      (Typ : Option Expr) (Values : List Expr) (Comment : Option CommentGroup)
  | TypeSpec (ptr : Nat) (Doc : Option CommentGroup) (Name : Ident)
      (TypeParams : Option FieldList) (Typ : Expr) (Comment : Option CommentGroup)

/-- The node types implementing `ast.Decl`. -/
inductive Decl where
  | BadDecl (ptr : Nat)
  | GenDecl (ptr : Nat) (Doc : Option CommentGroup) (Tok : Token) (Specs : List Spec)
  | FuncDecl (ptr : Nat) (Doc : Option CommentGroup) (Recv : Option FieldList)
      (Name : Ident) (Typ : FuncType) (Body : Option BlockStmt)

end

/-- An `*ast.File`, with the fields `ast.Walk` descends into. -/
structure File where
  ptr : Nat
  Doc : Option CommentGroup
  Name : Ident
  Decls : List Decl

/-- An `*ast.Package`. -/
structure Package where
  ptr : Nat
  Name : String
  Files : List File

/-- An `ast.Node`: a value of any of the node types. -/
inductive Node where
  | expr (e : Expr)
  | stmt (s : Stmt)
  | spec (s : Spec)
  | decl (d : Decl)
  | Comment (c : Comment)
  | CommentGroup (g : CommentGroup)
  | Field (f : Field)
  | FieldList (l : FieldList)
  | File (f : File)
  | Package (p : Package)

/-- The address of a field. -/
def Field.ptr : Field → Nat
  | .mk p _ _ _ _ _ => p

/-- The names a field declares. -/
def Field.Names : Field → List Ident
  | .mk _ _ names _ _ _ => names

/-- The fields of a field list. -/
def FieldList.List_ : FieldList → List Field
  | .mk _ l => l

/-- The address of a field list. -/
def FieldList.ptr : FieldList → Nat
  | .mk p _ => p

/-- The address of a function type. -/
def FuncType.ptr : FuncType → Nat
  | .mk p _ _ _ => p

/-- The result list of a function type; `none` is Go's nil. -/
def FuncType.Results : FuncType → Option FieldList
  | .mk _ _ _ r => r

/-- The address of a block. -/
def BlockStmt.ptr : BlockStmt → Nat
  | .mk p _ => p

/-- The address of a call. -/
def CallExpr.ptr : CallExpr → Nat
  | .mk p _ _ => p

/-- The arguments of a call. -/
def CallExpr.Args : CallExpr → List Expr
  | .mk _ _ args => args

/-- The address held by an `ast.Expr` interface value. -/
def Expr.ptr : Expr → Nat
  | .BadExpr p => p
  | .Ident i => i.ptr
  | .Ellipsis p _ => p
  | .BasicLit b => b.ptr
  | .FuncLit p _ _ => p
  | .CompositeLit p _ _ => p
  | .ParenExpr p _ => p
  | .SelectorExpr p _ _ => p
  | .IndexExpr p _ _ => p
  | .IndexListExpr p _ _ => p
  | .SliceExpr p _ _ _ _ => p
  | .TypeAssertExpr p _ _ => p
  | .CallExpr c => c.ptr
  | .StarExpr p _ => p
  | .UnaryExpr p _ _ => p
  | .BinaryExpr p _ _ _ => p
  | .KeyValueExpr p _ _ => p
  | .ArrayType p _ _ => p
  | .StructType p _ => p
  | .FuncType f => f.ptr
  | .InterfaceType p _ => p
  | .MapType p _ _ => p
  | .ChanType p _ => p

/-- Interface equality `e == child` of two non-nil `ast.Expr` values: the same
address. -/
def sameExpr (e child : Expr) : Bool :=
  e.ptr == child.ptr

/-- Interface equality `e == child` where `e` may be nil and `child` is not. -/
def sameExprOpt (e : Option Expr) (child : Expr) : Bool :=
  match e with
  | none => false
  | some x => sameExpr x child

/-- The comparison `name == child` of an `*ast.Ident` with an `ast.Expr`. -/
def sameIdent (name : Ident) (child : Expr) : Bool :=
  name.ptr == child.ptr

/-! ## `internal/analyzer/analyzer.go` -/

/-- Go's `strings.HasPrefix`, on the characters of the two strings. -/
def HasPrefix_ (s pre : String) : Bool :=
  pre.toList.isPrefixOf s.toList

/-- The function `isRacyVarWrite`: `strings.HasPrefix(ident.Name, "racyVar")`. -/
def isRacyVarWrite (ident : Ident) : Bool :=
  HasPrefix_ ident.Name "racyVar"

/-- The function `isReadOnlyContext`: whether `node` puts `child` in a read-only
context. -/
def isReadOnlyContext (node : Node) (child : Expr) : Bool :=
  match node with
  | .expr (.SelectorExpr _ X _) => sameExpr X child
  | .expr (.IndexExpr _ _ Index) => sameExpr Index child
  | .expr (.SliceExpr _ _ Low High Max) =>
      sameExprOpt Low child || sameExprOpt High child || sameExprOpt Max child
  | .expr (.CallExpr c) => c.Args.any (fun arg => sameExpr arg child)
  | .expr (.KeyValueExpr _ Key Value) => sameExpr Key child || sameExpr Value child
  | .expr (.TypeAssertExpr _ _ _) => true
  | .expr (.UnaryExpr _ _ X) => sameExpr X child
  | .expr (.BinaryExpr _ X _ Y) => sameExpr X child || sameExpr Y child
  | .stmt (.ReturnStmt _ Results) => Results.any (fun result => sameExpr result child)
  | .stmt (.SendStmt _ Chan Value) => sameExpr Chan child || sameExpr Value child
  | .stmt (.CommClause _ _ _) => true
  | .spec (.TypeSpec _ _ _ _ _ _) => true
  | .expr (.StructType _ _) => true
  | .expr (.InterfaceType _ _) => true
  | .expr (.FuncType _) => true
  | .expr (.MapType _ _ _) => true
  | .expr (.ChanType _ _) => true
  | .expr (.ArrayType _ _ _) => true
  | .stmt (.BlockStmt _) => true
  | .stmt (.SwitchStmt _ _ _ _) => true
  | .stmt (.IfStmt _ _ _ _ _) => true
  | .stmt (.ForStmt _ _ _ _ _) => true
  | .stmt (.DeferStmt _ _) => true
  | .stmt (.GoStmt _ _) => true
  | .stmt (.SelectStmt _ _) => true
  | .stmt (.CaseClause _ _ _) => true
  | _ => false

/-- The function `isWriteContext`: whether `node` puts `child` in a write
context. -/
def isWriteContext (node : Node) (child : Expr) : Bool :=
  match node with
  | .stmt (.AssignStmt _ Lhs Tok _) =>
      if Tok ≠ Token.DEFINE then Lhs.any (fun lhs => sameExpr lhs child) else false
  | .stmt (.IncDecStmt _ X _) => sameExpr X child
  | .stmt (.RangeStmt _ Key Value Tok _ _) =>
      if Tok = Token.DEFINE ∨ Tok = Token.ASSIGN then
        sameExprOpt Key child || sameExprOpt Value child
      else false
  | .decl (.FuncDecl _ _ _ _ Typ _) =>
      match Typ.Results with
      | some results =>
          results.List_.any (fun field => field.Names.any (fun name => sameIdent name child))
      | none => false
  | _ => false

/-- The loop of `isWritten`, run over the stack entries from the top down:
`parents` lists `stack[i], stack[i-1], ..., stack[0]`. -/
def isWrittenLoop (child : Expr) : List Node → Bool
  | [] => false
  | parent :: rest =>
      if isReadOnlyContext parent child then false
      else if isWriteContext parent child then true
      else
        match parent with
        | .expr e => isWrittenLoop e rest
        | _ => false

/-- The function `isWritten`: climbs the stack from its last entry to its first,
starting with `child = ident`. -/
def isWritten (ident : Ident) (stack : List Node) : Bool :=
  isWrittenLoop (Expr.Ident ident) stack.reverse

/-! ## `ast.Walk` -/

/-- The node for a field that may be nil: `ast.Walk` descends into it only when
it is not nil. -/
def optNode {α : Type} (f : α → Node) : Option α → List Node
  | none => []
  | some a => [f a]

/-- An identifier as a node. -/
def identNode (i : Ident) : Node := Node.expr (Expr.Ident i)

/-- A function type as a node. -/
def funcTypeNode (f : FuncType) : Node := Node.expr (Expr.FuncType f)

/-- A block as a node. -/
def blockNode (b : BlockStmt) : Node := Node.stmt (Stmt.BlockStmt b)

/-- A call as a node. -/
def callNode (c : CallExpr) : Node := Node.expr (Expr.CallExpr c)

/-- A literal as a node. -/
def litNode (b : BasicLit) : Node := Node.expr (Expr.BasicLit b)

/-- The nodes `ast.Walk` descends into from a call, in its order. -/
def CallExpr.children : CallExpr → List Node
  | .mk _ Fun Args => Node.expr Fun :: Args.map Node.expr

/-- The nodes `ast.Walk` descends into from a function type, in its order. -/
def FuncType.children : FuncType → List Node
  | .mk _ TypeParams Params Results =>
      optNode Node.FieldList TypeParams ++ optNode Node.FieldList Params
        ++ optNode Node.FieldList Results

/-- The nodes `ast.Walk` descends into from a block, in its order. -/
def BlockStmt.children : BlockStmt → List Node
  | .mk _ List_ => List_.map Node.stmt

/-- The nodes `ast.Walk` descends into from an expression, in its order. -/
def Expr.children : Expr → List Node
  | .BadExpr _ => []
  | .Ident _ => []
  | .BasicLit _ => []
  | .Ellipsis _ Elt => optNode Node.expr Elt
  | .FuncLit _ Typ Body => [funcTypeNode Typ, blockNode Body]
  | .CompositeLit _ Typ Elts => optNode Node.expr Typ ++ Elts.map Node.expr
  | .ParenExpr _ X => [Node.expr X]
  | .SelectorExpr _ X Sel => [Node.expr X, identNode Sel]
  | .IndexExpr _ X Index => [Node.expr X, Node.expr Index]
  | .IndexListExpr _ X Indices => Node.expr X :: Indices.map Node.expr
  | .SliceExpr _ X Low High Max =>
      Node.expr X :: (optNode Node.expr Low ++ optNode Node.expr High ++ optNode Node.expr Max)
  | .TypeAssertExpr _ X Typ => Node.expr X :: optNode Node.expr Typ
  | .CallExpr c => c.children
  | .StarExpr _ X => [Node.expr X]
  | .UnaryExpr _ _ X => [Node.expr X]
  | .BinaryExpr _ X _ Y => [Node.expr X, Node.expr Y]
  | .KeyValueExpr _ Key Value => [Node.expr Key, Node.expr Value]
  | .ArrayType _ Len Elt => optNode Node.expr Len ++ [Node.expr Elt]
  | .StructType _ Fields => [Node.FieldList Fields]
  | .FuncType f => f.children
  | .InterfaceType _ Methods => [Node.FieldList Methods]
  | .MapType _ Key Value => [Node.expr Key, Node.expr Value]
  | .ChanType _ Value => [Node.expr Value]

/-- The nodes `ast.Walk` descends into from a statement, in its order. -/
def Stmt.children : Stmt → List Node
  | .BadStmt _ => []
  | .DeclStmt _ Decl => [Node.decl Decl]
  | .EmptyStmt _ => []
  | .LabeledStmt _ Label Stmt => [identNode Label, Node.stmt Stmt]
  | .ExprStmt _ X => [Node.expr X]
  | .SendStmt _ Chan Value => [Node.expr Chan, Node.expr Value]
  | .IncDecStmt _ X _ => [Node.expr X]
  | .AssignStmt _ Lhs _ Rhs => Lhs.map Node.expr ++ Rhs.map Node.expr
  | .GoStmt _ Call => [callNode Call]
  | .DeferStmt _ Call => [callNode Call]
  | .ReturnStmt _ Results => Results.map Node.expr
  | .BranchStmt _ _ Label => optNode identNode Label
  | .BlockStmt b => b.children
  | .IfStmt _ Init Cond Body Else =>
      optNode Node.stmt Init ++ [Node.expr Cond, blockNode Body] ++ optNode Node.stmt Else
  | .CaseClause _ List_ Body => List_.map Node.expr ++ Body.map Node.stmt
  | .SwitchStmt _ Init Tag Body =>
      optNode Node.stmt Init ++ optNode Node.expr Tag ++ [blockNode Body]
  | .TypeSwitchStmt _ Init Assign Body =>
      optNode Node.stmt Init ++ [Node.stmt Assign, blockNode Body]
  | .CommClause _ Comm Body => optNode Node.stmt Comm ++ Body.map Node.stmt
  | .SelectStmt _ Body => [blockNode Body]
  | .ForStmt _ Init Cond Post Body =>
      optNode Node.stmt Init ++ optNode Node.expr Cond ++ optNode Node.stmt Post
        ++ [blockNode Body]
  | .RangeStmt _ Key Value _ X Body =>
      optNode Node.expr Key ++ optNode Node.expr Value ++ [Node.expr X, blockNode Body]

/-- The nodes `ast.Walk` descends into from a spec, in its order. -/
def Spec.children : Spec → List Node
  | .ImportSpec _ Doc Name Path Comment =>
      optNode Node.CommentGroup Doc ++ optNode identNode Name ++ [litNode Path]
        ++ optNode Node.CommentGroup Comment
  | .ValueSpec _ Doc Names Typ Values Comment =>
      optNode Node.CommentGroup Doc ++ Names.map identNode ++ optNode Node.expr Typ
        ++ Values.map Node.expr ++ optNode Node.CommentGroup Comment
  | .TypeSpec _ Doc Name TypeParams Typ Comment =>
      optNode Node.CommentGroup Doc ++ [identNode Name] ++ optNode Node.FieldList TypeParams
        ++ [Node.expr Typ] ++ optNode Node.CommentGroup Comment

/-- The nodes `ast.Walk` descends into from a declaration, in its order. -/
def Decl.children : Decl → List Node
  | .BadDecl _ => []
  | .GenDecl _ Doc _ Specs => optNode Node.CommentGroup Doc ++ Specs.map Node.spec
  | .FuncDecl _ Doc Recv Name Typ Body =>
      optNode Node.CommentGroup Doc ++ optNode Node.FieldList Recv
        ++ [identNode Name, funcTypeNode Typ] ++ optNode blockNode Body

/-- The nodes `ast.Walk` descends into from `node`, in the order it walks them:
the cases of the type switch of `ast.Walk`, nil fields skipped.  (The comment
list of a file is not walked, and the files of a package are taken in list
order.) -/
def children : Node → List Node
  | .expr e => e.children
  | .stmt s => s.children
  | .spec s => s.children
  | .decl d => d.children
  | .Comment _ => []
  | .CommentGroup g => g.List_.map Node.Comment
  | .Field (.mk _ Doc Names Typ Tag Comment) =>
      optNode Node.CommentGroup Doc ++ Names.map identNode ++ optNode Node.expr Typ
        ++ optNode litNode Tag ++ optNode Node.CommentGroup Comment
  | .FieldList (.mk _ List_) => List_.map Node.Field
  | .File f => optNode Node.CommentGroup f.Doc ++ [identNode f.Name] ++ f.Decls.map Node.decl
  | .Package p => p.Files.map Node.File


/-! ### Termination of the walk -/

/-- Part of the termination measure of `Walk`: `0` for a node that is a typed
pointer seen as an expression or statement (it may be as large as its
parent), `1` for the others. -/
def Node.bonus : Node → Nat
  | .expr (.Ident _) => 0
  | .expr (.BasicLit _) => 0
  | .expr (.CallExpr _) => 0
  | .expr (.FuncType _) => 0
  | .stmt (.BlockStmt _) => 0
  | _ => 1

theorem Node.bonus_le (n : Node) : n.bonus ≤ 1 := by
  unfold Node.bonus
  split <;> omega

/-- A way `f` of making a node from a field: the node is at most two
constructors larger than the field. -/
class Wraps {α : Type} [SizeOf α] (f : α → Node) : Prop where
  le : ∀ a, 2 * sizeOf (f a) + (f a).bonus ≤ 2 * sizeOf a + 4

instance : Wraps Node.expr where
  le a := by have := Node.bonus_le (Node.expr a); simp; omega

instance : Wraps Node.stmt where
  le a := by have := Node.bonus_le (Node.stmt a); simp; omega

instance : Wraps Node.spec where
  le a := by have := Node.bonus_le (Node.spec a); simp; omega

instance : Wraps Node.decl where
  le a := by have := Node.bonus_le (Node.decl a); simp; omega

instance : Wraps Node.Comment where
  le a := by have := Node.bonus_le (Node.Comment a); simp; omega

instance : Wraps Node.CommentGroup where
  le a := by have := Node.bonus_le (Node.CommentGroup a); simp; omega

instance : Wraps Node.Field where
  le a := by have := Node.bonus_le (Node.Field a); simp; omega

instance : Wraps Node.FieldList where
  le a := by have := Node.bonus_le (Node.FieldList a); simp; omega

instance : Wraps Node.File where
  le a := by have := Node.bonus_le (Node.File a); simp; omega

instance : Wraps identNode where
  le a := by simp [identNode, Node.bonus]; omega

instance : Wraps litNode where
  le a := by simp [litNode, Node.bonus]; omega

instance : Wraps callNode where
  le a := by simp [callNode, Node.bonus]; omega

instance : Wraps funcTypeNode where
  le a := by simp [funcTypeNode, Node.bonus]; omega

instance : Wraps blockNode where
  le a := by simp [blockNode, Node.bonus]; omega

theorem optNode_rank {α : Type} [SizeOf α] (f : α → Node) [Wraps f] (o : Option α)
    (c : Node) (hc : c ∈ optNode f o) : 2 * sizeOf c + c.bonus < 2 * sizeOf o + 4 := by
  cases o with
  | none => simp [optNode] at hc
  | some a =>
    simp [optNode] at hc
    subst hc
    have := Wraps.le (f := f) a
    simp
    omega

theorem map_rank {α : Type} [SizeOf α] (f : α → Node) [Wraps f] (l : List α) (c : Node)
    (hc : c ∈ l.map f) : 2 * sizeOf c + c.bonus < 2 * sizeOf l + 4 := by
  simp at hc
  obtain ⟨a, ha, rfl⟩ := hc
  have := Wraps.le (f := f) a
  have := List.sizeOf_lt_of_mem ha
  omega

theorem one_rank {α : Type} [SizeOf α] (f : α → Node) [Wraps f] (a : α) (c : Node)
    (hc : c = f a) : 2 * sizeOf c + c.bonus < 2 * sizeOf a + 5 := by
  subst hc
  have := Wraps.le (f := f) a
  omega

theorem callExpr_children_rank (x : CallExpr) (c : Node) (hc : c ∈ x.children) :
    2 * sizeOf c + c.bonus < 2 * sizeOf x + 4 := by
  cases x
  simp only [CallExpr.children, List.mem_cons] at hc
  rcases hc with hc | hc
  · have := one_rank _ _ _ hc; simp; omega
  · have := map_rank _ _ _ hc; simp; omega

theorem funcType_children_rank (x : FuncType) (c : Node) (hc : c ∈ x.children) :
    2 * sizeOf c + c.bonus < 2 * sizeOf x + 4 := by
  cases x
  simp only [FuncType.children, List.mem_append] at hc
  rcases hc with (hc | hc) | hc <;>
  · have := optNode_rank _ _ _ hc; simp; omega

theorem blockStmt_children_rank (x : BlockStmt) (c : Node) (hc : c ∈ x.children) :
    2 * sizeOf c + c.bonus < 2 * sizeOf x + 4 := by
  cases x
  simp only [BlockStmt.children] at hc
  have := map_rank _ _ _ hc; simp; omega

set_option maxHeartbeats 4000000 in
/-- Every node `ast.Walk` descends into is smaller than its parent. -/
theorem children_rank_lt (n c : Node) (hc : c ∈ children n) :
    2 * sizeOf c + c.bonus < 2 * sizeOf n + n.bonus := by
  cases n <;> rename_i x <;> cases x
  all_goals
    simp only [children, Expr.children, Stmt.children, Spec.children, Decl.children,
        List.mem_append, List.mem_cons, List.mem_singleton, List.not_mem_nil, or_false,
        false_or] at hc
  all_goals try casesm* _ ∨ _
  all_goals
    first
    | refine Nat.lt_of_lt_of_le (optNode_rank _ _ _ (by assumption)) ?_
    | refine Nat.lt_of_lt_of_le (map_rank _ _ _ (by assumption)) ?_
    | refine Nat.lt_of_lt_of_le (one_rank _ _ _ (by assumption)) ?_
    | refine Nat.lt_of_lt_of_le (callExpr_children_rank _ _ (by assumption)) ?_
    | refine Nat.lt_of_lt_of_le (funcType_children_rank _ _ (by assumption)) ?_
    | refine Nat.lt_of_lt_of_le (blockStmt_children_rank _ _ (by assumption)) ?_
  all_goals (simp [Node.bonus]; omega)

/-! ## The visitor -/

/-- The struct `visitor`. -/
structure visitor where
  hasRacyWrite : Bool
  fset : FileSet
  stack : List Node
  writePos : Position

/-- The method `Visit`.  The result is the receiver after the call, paired with
whether the returned `ast.Visitor` is non-nil; the code returns the receiver
itself on both paths. -/
def visitor.Visit (v : visitor) (node : Option Node) : visitor × Bool :=
  match node with
  | none =>
      if v.stack.length > 0 then
        ({ v with stack := v.stack.take (v.stack.length - 1) }, true)
      else (v, true)
  | some node =>
      let v1 := { v with stack := v.stack ++ [node] }
      match node with
      | .expr (.Ident n) =>
          if isRacyVarWrite n && isWritten n v1.stack then
            ({ v1 with hasRacyWrite := true, writePos := v1.fset n.NamePos }, true)
          else (v1, true)
      | _ => (v1, true)

/-- The function `ast.Walk`, for the analyzer's visitor: visit `node`; unless
the returned visitor is nil, walk the children in order, then visit nil. -/
def Walk (v : visitor) (node : Node) : visitor :=
  let r := v.Visit (some node)
  if r.2 = false then r.1
  else
    let w := (children node).attach.foldl (fun acc c => Walk acc c.1) r.1
    (w.Visit none).1
termination_by 2 * sizeOf node + node.bonus
decreasing_by exact children_rank_lt _ _ c.2

/-- Walking a list of sibling nodes in order. -/
def walkList (v : visitor) (nodes : List Node) : visitor :=
  nodes.foldl Walk v

theorem Walk_eq (v : visitor) (node : Node) :
    Walk v node =
      if (v.Visit (some node)).2 = false then (v.Visit (some node)).1
      else ((walkList (v.Visit (some node)).1 (children node)).Visit none).1 := by
  rw [Walk]
  simp only [walkList, List.foldl_attach]

/-! ## `AnalyzeFile` -/

/-- The struct `AnalysisResult`. -/
structure AnalysisResult where
  File : String
  HasWrite : Bool
  LineNumber : Int
  LineContent : String
  Error : String
  deriving DecidableEq, Repr

/-- Go's `unicode.IsSpace`. -/
def isSpace (c : Char) : Bool :=
  c = '\t' || c = '\n' || c = '\x0b' || c = '\x0c' || c = '\r' || c = ' '
    || c.toNat = 0x85 || c.toNat = 0xA0 || c.toNat = 0x1680
    || (0x2000 ≤ c.toNat && c.toNat ≤ 0x200a)
    || c.toNat = 0x2028 || c.toNat = 0x2029 || c.toNat = 0x202f || c.toNat = 0x205f
    || c.toNat = 0x3000

/-- The pieces of a text between its newline characters. -/
def splitLines : List Char → List (List Char)
  | [] => [[]]
  | c :: cs =>
      if c = '\n' then [] :: splitLines cs
      else
        match splitLines cs with
        | l :: ls => (c :: l) :: ls
        | [] => [[c]]

/-- Go's `strings.Split(s, "\n")`. -/
def Split (s : String) : List String :=
  (splitLines s.toList).map String.mk

/-- Go's `strings.TrimSpace`: the string without its leading and trailing white
space. -/
def TrimSpace (s : String) : String :=
  String.mk ((s.toList.dropWhile isSpace).reverse.dropWhile isSpace).reverse

/-- The value of a Go `int` (64 bits wide) after an arithmetic operation whose
mathematical result is `x`: the result wraps around into the range from
`-2^63` to `2^63 - 1`. -/
def wrapInt (x : Int) : Int :=
  (x + 2 ^ 63) % 2 ^ 64 - 2 ^ 63

/-- The function `AnalyzeFile`.  `ParseFile` stands for `parser.ParseFile` on a
fresh file set (the file set it filled and the tree, or the error), `ReadFile`
for `os.ReadFile`; an error is its message.  The subtraction `Line-1` is that of
a Go `int`, so it wraps around at the least `int`.  The result is the returned
pair `(result, err)`, or `none` when the code panics on `lines[Line-1]` with a
negative index. -/
def AnalyzeFile (ParseFile : String → Except String (FileSet × File))
    (ReadFile : String → Except String String) (filename : String) :
    Option (AnalysisResult × Option String) :=
  let result : AnalysisResult :=
    { File := filename, HasWrite := false, LineNumber := 0, LineContent := "", Error := "" }
  match ParseFile filename with
  | .error err => some ({ result with Error := "error parsing file: " ++ err }, some err)
  | .ok (fset, node) =>
      let v : visitor :=
        { hasRacyWrite := false, fset := fset, stack := [], writePos := Position.zero }
      let v := Walk v (Node.File node)
      if v.hasRacyWrite then
        let result := { result with HasWrite := true, LineNumber := v.writePos.Line }
        match ReadFile filename with
        | .error err => some ({ result with Error := "error reading file: " ++ err }, some err)
        | .ok content =>
            let lines := Split content
            if wrapInt (v.writePos.Line - 1) < (lines.length : Int) then
              if wrapInt (v.writePos.Line - 1) < 0 then none
              else
                some ({ result with
                        LineContent :=
                          TrimSpace (lines.getD (wrapInt (v.writePos.Line - 1)).toNat "") },
                      none)
            else some (result, none)
      else some (result, none)

/-! ## The tree seen from the walker -/

/-- The stacks that the walk of `node` started on `stack` builds, in the order
it builds them: `stack` with the path down to each node of the tree, in
pre-order. -/
def preorder (stack : List Node) (node : Node) : List (List Node) :=
  (stack ++ [node]) ::
    (children node).attach.flatMap (fun c => preorder (stack ++ [node]) c.1)
termination_by 2 * sizeOf node + node.bonus
decreasing_by exact children_rank_lt _ _ c.2

theorem preorder_eq (stack : List Node) (node : Node) :
    preorder stack node =
      (stack ++ [node]) :: (children node).flatMap (preorder (stack ++ [node])) := by
  rw [preorder]
  simp [List.flatMap, List.attach_map_coe]

/-- The identifier on top of `stack` when it is a candidate that `isWritten`
classifies as written on that stack. -/
def writeAt (stack : List Node) : Option Ident :=
  match stack.getLast? with
  | some (.expr (.Ident n)) => if isRacyVarWrite n && isWritten n stack then some n else none
  | _ => none

/-- The candidate identifiers classified as written during the walk of `node`
started on `stack`, in pre-order. -/
def writesIn (stack : List Node) (node : Node) : List Ident :=
  (preorder stack node).filterMap writeAt

/-- The visitor after recording the writes `ws` in order. -/
def visitor.record (v : visitor) (ws : List Ident) : visitor :=
  match ws.getLast? with
  | none => v
  | some n => { v with hasRacyWrite := true, writePos := v.fset n.NamePos }

/-! ### What the walk computes -/

theorem visitor.record_stack (v : visitor) (ws : List Ident) :
    (v.record ws).stack = v.stack := by
  unfold visitor.record
  split <;> rfl

theorem visitor.record_fset (v : visitor) (ws : List Ident) :
    (v.record ws).fset = v.fset := by
  unfold visitor.record
  split <;> rfl

theorem visitor.record_record (v : visitor) (a b : List Ident) :
    (v.record a).record b = v.record (a ++ b) := by
  simp only [visitor.record, List.getLast?_append]
  cases b.getLast? <;> cases a.getLast? <;> simp [Option.or]

theorem visitor.Visit_some (v : visitor) (node : Node) :
    v.Visit (some node) =
      (({ v with stack := v.stack ++ [node] } : visitor).record
          (writeAt (v.stack ++ [node])).toList, true) := by
  simp only [visitor.Visit, writeAt, List.getLast?_concat]
  split
  · rename_i n
    by_cases hw : (isRacyVarWrite n && isWritten n (v.stack ++ [Node.expr (Expr.Ident n)])) = true
    · simp [visitor.record, hw]
    · simp [visitor.record, hw]
  · rename_i h
    split
    · rename_i n heq
      simp at heq
      exact absurd heq (h n)
    · simp [visitor.record]

theorem visitor.Visit_none_record (v : visitor) (node : Node) (ws : List Ident) :
    (((({ v with stack := v.stack ++ [node] } : visitor).record ws).Visit none)).1 =
      v.record ws := by
  unfold visitor.record
  cases ws.getLast? <;> simp [visitor.Visit]

theorem walkList_spec (cs : List Node)
    (ih : ∀ c ∈ cs, ∀ v : visitor, Walk v c = v.record (writesIn v.stack c)) (v : visitor) :
    walkList v cs = v.record ((cs.flatMap (preorder v.stack)).filterMap writeAt) := by
  induction cs generalizing v with
  | nil => simp [walkList, visitor.record]
  | cons c cs ihcs =>
    have h1 := ih c (List.mem_cons_self _ _) v
    have h2 := ihcs (fun c' hc' => ih c' (List.mem_cons_of_mem _ hc')) (Walk v c)
    simp only [walkList, List.foldl_cons] at h2 ⊢
    rw [h2, h1, visitor.record_stack, visitor.record_record]
    simp [writesIn]

/-- The walk of a tree leaves the stack as it found it and records, in
pre-order, the candidates classified as written. -/
theorem Walk_spec (v : visitor) (node : Node) :
    Walk v node = v.record (writesIn v.stack node) := by
  generalize h : 2 * sizeOf node + node.bonus = k
  induction k using Nat.strong_induction_on generalizing node v with
  | _ k ih =>
    subst h
    have hcs := walkList_spec (children node)
      (fun c hc v' => ih _ (children_rank_lt _ _ hc) v' c rfl)
    rw [Walk_eq, visitor.Visit_some]
    simp only [Bool.true_eq_false, if_false, reduceIte]
    rw [hcs, visitor.record_record, visitor.record_stack]
    rw [visitor.Visit_none_record]
    simp only [writesIn, preorder_eq _ node, List.filterMap_cons]
    cases writeAt (v.stack ++ [node]) <;> rfl

/-! ## The classifier on one statement -/

theorem ptr_Ident (i : Ident) : (Expr.Ident i).ptr = i.ptr := rfl

theorem isWritten_snoc_ident (O : Ident) (stack : List Node) :
    isWritten O (stack ++ [Node.expr (Expr.Ident O)]) =
      isWrittenLoop (Expr.Ident O) stack.reverse := by
  simp [isWritten, isWrittenLoop, isReadOnlyContext, isWriteContext]

theorem isWritten_snoc_snoc (O : Ident) (pre : List Node) (parent : Node) :
    isWritten O (pre ++ [parent, Node.expr (Expr.Ident O)]) =
      isWrittenLoop (Expr.Ident O) (parent :: pre.reverse) := by
  have h : pre ++ [parent, Node.expr (Expr.Ident O)]
      = (pre ++ [parent]) ++ [Node.expr (Expr.Ident O)] := by simp
  rw [h, isWritten_snoc_ident]
  simp

/-- C1: for every assignment whose operator is not `:=`, every identifier `O`
that is one of its left-hand-side targets (some `Lhs` entry is the node `O`,
i.e. has its address) and every stack prefix, `isWritten` returns true on
`pre ++ [assignment, O]`. -/
theorem isWritten_assign_target (pre : List Node) (p : Nat) (Lhs Rhs : List Expr)
    (Tok : Token) (O : Ident) (hTok : Tok ≠ Token.DEFINE)
    (hO : ∃ lhs ∈ Lhs, lhs.ptr = O.ptr) :
    isWritten O (pre ++ [Node.stmt (Stmt.AssignStmt p Lhs Tok Rhs),
      Node.expr (Expr.Ident O)]) = true := by
  obtain ⟨lhs, hmem, hptr⟩ := hO
  rw [isWritten_snoc_snoc]
  have : Lhs.any (fun lhs => sameExpr lhs (Expr.Ident O)) = true :=
    List.any_eq_true.mpr ⟨lhs, hmem, by simp [sameExpr, hptr, ptr_Ident]⟩
  simp [isWrittenLoop, isReadOnlyContext, isWriteContext, hTok, this]

theorem isWritten_assign_target_witness :
    isWritten ⟨1, 10, "racyVar0"⟩
      ([] ++ [Node.stmt (Stmt.AssignStmt 2 [Expr.Ident ⟨1, 10, "racyVar0"⟩] Token.ASSIGN
          [Expr.BasicLit ⟨3, Token.INT, "1"⟩]),
        Node.expr (Expr.Ident ⟨1, 10, "racyVar0"⟩)]) = true :=
  isWritten_assign_target [] 2 [Expr.Ident ⟨1, 10, "racyVar0"⟩]
    [Expr.BasicLit ⟨3, Token.INT, "1"⟩] Token.ASSIGN ⟨1, 10, "racyVar0"⟩ (by decide)
    ⟨Expr.Ident ⟨1, 10, "racyVar0"⟩, by simp, rfl⟩

/-- C2: for every increment/decrement statement whose operand is the node `O`
and every stack prefix, `isWritten` returns true on `pre ++ [incdec, O]`. -/
theorem isWritten_incdec_operand (pre : List Node) (p : Nat) (X : Expr) (Tok : Token)
    (O : Ident) (hO : X.ptr = O.ptr) :
    isWritten O (pre ++ [Node.stmt (Stmt.IncDecStmt p X Tok),
      Node.expr (Expr.Ident O)]) = true := by
  rw [isWritten_snoc_snoc]
  simp [isWrittenLoop, isReadOnlyContext, isWriteContext, sameExpr, hO, ptr_Ident]

theorem isWritten_incdec_operand_witness :
    isWritten ⟨1, 10, "racyVar0"⟩
      ([] ++ [Node.stmt (Stmt.IncDecStmt 2 (Expr.Ident ⟨1, 10, "racyVar0"⟩) Token.INC),
        Node.expr (Expr.Ident ⟨1, 10, "racyVar0"⟩)]) = true :=
  isWritten_incdec_operand [] 2 (Expr.Ident ⟨1, 10, "racyVar0"⟩) Token.INC
    ⟨1, 10, "racyVar0"⟩ rfl

/-- C3: for every assignment using `:=`, an identifier `O` that is one of its
left-hand-side targets is not classified as written, whatever the stack prefix:
`isWritten` returns false on `pre ++ [assignment, O]`. -/
theorem isWritten_define_target (pre : List Node) (p : Nat) (Lhs Rhs : List Expr)
    (O : Ident) (_hO : ∃ lhs ∈ Lhs, lhs.ptr = O.ptr) :
    isWritten O (pre ++ [Node.stmt (Stmt.AssignStmt p Lhs Token.DEFINE Rhs),
      Node.expr (Expr.Ident O)]) = false := by
  rw [isWritten_snoc_snoc]
  simp [isWrittenLoop, isReadOnlyContext, isWriteContext]

theorem isWritten_define_target_witness :
    isWritten ⟨1, 10, "racyVar0"⟩
      ([] ++ [Node.stmt (Stmt.AssignStmt 2 [Expr.Ident ⟨1, 10, "racyVar0"⟩] Token.DEFINE
          [Expr.BasicLit ⟨3, Token.INT, "1"⟩]),
        Node.expr (Expr.Ident ⟨1, 10, "racyVar0"⟩)]) = false :=
  isWritten_define_target [] 2 [Expr.Ident ⟨1, 10, "racyVar0"⟩]
    [Expr.BasicLit ⟨3, Token.INT, "1"⟩] ⟨1, 10, "racyVar0"⟩
    ⟨Expr.Ident ⟨1, 10, "racyVar0"⟩, by simp, rfl⟩

/-- C4: for every selector whose base `X` is the node `O`, `isWritten` returns
false on `pre ++ [selector, O]` for every stack prefix `pre`; the prefix may end
with a non-declaring assignment to the selector or an increment of it. -/
theorem isWritten_selector_base (pre : List Node) (p : Nat) (X : Expr) (Sel : Ident)
    (O : Ident) (hO : X.ptr = O.ptr) :
    isWritten O (pre ++ [Node.expr (Expr.SelectorExpr p X Sel),
      Node.expr (Expr.Ident O)]) = false := by
  rw [isWritten_snoc_snoc]
  simp [isWrittenLoop, isReadOnlyContext, sameExpr, hO, ptr_Ident]

theorem isWritten_selector_base_witness :
    isWritten ⟨1, 10, "racyVar0"⟩
      ([Node.stmt (Stmt.AssignStmt 4
          [Expr.SelectorExpr 2 (Expr.Ident ⟨1, 10, "racyVar0"⟩) ⟨3, 19, "f"⟩] Token.ASSIGN
          [Expr.BasicLit ⟨5, Token.INT, "1"⟩])] ++
        [Node.expr (Expr.SelectorExpr 2 (Expr.Ident ⟨1, 10, "racyVar0"⟩) ⟨3, 19, "f"⟩),
         Node.expr (Expr.Ident ⟨1, 10, "racyVar0"⟩)]) = false :=
  isWritten_selector_base _ 2 (Expr.Ident ⟨1, 10, "racyVar0"⟩) ⟨3, 19, "f"⟩
    ⟨1, 10, "racyVar0"⟩ rfl

/-- C5: for every range loop directly enclosing `O`, `isWritten` returns true
on `pre ++ [rangeStmt, O]` if and only if the loop's key or value is the node
`O` and the loop's token is `:=` or `=`. -/
theorem isWritten_range_binding (pre : List Node) (p : Nat) (Key Value : Option Expr)
    (Tok : Token) (X : Expr) (Body : BlockStmt) (O : Ident) :
    isWritten O (pre ++ [Node.stmt (Stmt.RangeStmt p Key Value Tok X Body),
      Node.expr (Expr.Ident O)]) = true ↔
      ((∃ k, Key = some k ∧ k.ptr = O.ptr) ∨ (∃ v, Value = some v ∧ v.ptr = O.ptr)) ∧
        (Tok = Token.DEFINE ∨ Tok = Token.ASSIGN) := by
  rw [isWritten_snoc_snoc]
  simp only [isWrittenLoop, isReadOnlyContext, isWriteContext]
  by_cases hTok : Tok = Token.DEFINE ∨ Tok = Token.ASSIGN
  · cases Key <;> cases Value <;> simp [hTok, sameExprOpt, sameExpr, ptr_Ident]
  · simp [hTok]

/-! ## The walk over a file -/

/-- The identifier on top of `stack`, with the stack, when the top is an
identifier. -/
def identAt (stack : List Node) : Option (Ident × List Node) :=
  match stack.getLast? with
  | some (.expr (.Ident n)) => some (n, stack)
  | _ => none

/-- The identifier nodes of the tree `root`, each with its ancestor stack (the
path from `root` down to the identifier itself), in pre-order. -/
def occurrences (root : Node) : List (Ident × List Node) :=
  (preorder [] root).filterMap identAt

/-- The occurrences that are candidates classified as written. -/
def writeOccurrences (root : Node) : List (Ident × List Node) :=
  (occurrences root).filter (fun o => isRacyVarWrite o.1 && isWritten o.1 o.2)

theorem writeAt_eq (stack : List Node) :
    writeAt stack =
      (identAt stack).bind
        (fun o => if isRacyVarWrite o.1 && isWritten o.1 o.2 then some o.1 else none) := by
  unfold writeAt identAt
  split <;> simp_all

theorem writesIn_eq (root : Node) :
    writesIn [] root = (writeOccurrences root).map (fun o => o.1) := by
  unfold writesIn writeOccurrences occurrences
  induction preorder [] root with
  | nil => rfl
  | cons st rest ih =>
    simp only [List.filterMap_cons, writeAt_eq st]
    cases h : identAt st with
    | none => simpa using ih
    | some o =>
      by_cases hw : (isRacyVarWrite o.1 && isWritten o.1 o.2) = true
      · have hw2 : isRacyVarWrite o.1 = true ∧ isWritten o.1 o.2 = true := by simpa using hw
        simp [List.filter_cons, hw, hw2, ih]
      · have hw2 : ¬ (isRacyVarWrite o.1 = true ∧ isWritten o.1 o.2 = true) := by
          simpa using hw
        simp [List.filter_cons, hw, hw2, ih]

/-- The visitor `AnalyzeFile` starts the walk with. -/
def visitor.init (fset : FileSet) : visitor :=
  { hasRacyWrite := false, fset := fset, stack := [], writePos := Position.zero }

theorem Walk_init (fset : FileSet) (root : Node) :
    Walk (visitor.init fset) root =
      (visitor.init fset).record ((writeOccurrences root).map (fun o => o.1)) := by
  rw [Walk_spec, ← writesIn_eq]
  rfl

theorem Walk_init_hasRacyWrite (fset : FileSet) (root : Node) :
    (Walk (visitor.init fset) root).hasRacyWrite = !(writeOccurrences root).isEmpty := by
  rw [Walk_init]
  unfold visitor.record
  cases h : (writeOccurrences root) using List.reverseRecOn with
  | nil => simp [visitor.init]
  | append_singleton l a _ => simp

theorem Walk_init_writePos (fset : FileSet) (root : Node) (last : Ident × List Node)
    (h : (writeOccurrences root).getLast? = some last) :
    (Walk (visitor.init fset) root).writePos = fset last.1.NamePos := by
  rw [Walk_init]
  unfold visitor.record
  simp [List.getLast?_map, h, visitor.init]

theorem AnalyzeFile_parsed (ParseFile : String → Except String (FileSet × File))
    (ReadFile : String → Except String String) (filename : String) (fset : FileSet)
    (file : File) (hparse : ParseFile filename = .ok (fset, file)) :
    AnalyzeFile ParseFile ReadFile filename =
      (let v := Walk (visitor.init fset) (Node.File file)
       let result : AnalysisResult :=
        { File := filename, HasWrite := false, LineNumber := 0, LineContent := "",
          Error := "" }
       if v.hasRacyWrite then
        let result := { result with HasWrite := true, LineNumber := v.writePos.Line }
        match ReadFile filename with
        | .error err => some ({ result with Error := "error reading file: " ++ err }, some err)
        | .ok content =>
            if wrapInt (v.writePos.Line - 1) < ((Split content).length : Int) then
              if wrapInt (v.writePos.Line - 1) < 0 then none
              else
                some ({ result with
                        LineContent :=
                          TrimSpace
                            ((Split content).getD (wrapInt (v.writePos.Line - 1)).toNat "") },
                      none)
            else some (result, none)
       else some (result, none)) := by
  simp only [AnalyzeFile, hparse]
  rfl

theorem hasRacyWrite_iff_ne_nil (fset : FileSet) (root : Node) :
    (Walk (visitor.init fset) root).hasRacyWrite = true ↔ writeOccurrences root ≠ [] := by
  rw [Walk_init_hasRacyWrite]
  cases writeOccurrences root <;> simp

theorem getLast?_of_ne_nil {α : Type} (l : List α) (h : l ≠ []) :
    ∃ last, l.getLast? = some last := by
  cases hl : l.getLast? with
  | none => exact absurd (List.getLast?_eq_none_iff.mp hl) h
  | some a => exact ⟨a, rfl⟩

/-- Whenever `AnalyzeFile` returns after a successful parse, the record's
`HasWrite` and `LineNumber` are those of the visitor after the walk. -/
theorem AnalyzeFile_of_some (ParseFile : String → Except String (FileSet × File))
    (ReadFile : String → Except String String) (filename : String) (fset : FileSet)
    (file : File) (hparse : ParseFile filename = .ok (fset, file))
    (res : AnalysisResult) (err : Option String)
    (h : AnalyzeFile ParseFile ReadFile filename = some (res, err)) :
    res.HasWrite = (Walk (visitor.init fset) (Node.File file)).hasRacyWrite ∧
      ((Walk (visitor.init fset) (Node.File file)).hasRacyWrite = true →
        res.LineNumber = (Walk (visitor.init fset) (Node.File file)).writePos.Line) := by
  rw [AnalyzeFile_parsed ParseFile ReadFile filename fset file hparse] at h
  by_cases hw : (Walk (visitor.init fset) (Node.File file)).hasRacyWrite = true
  · simp only [hw, if_true, reduceIte] at h
    cases hread : ReadFile filename with
    | error e =>
      simp only [hread, Option.some.injEq, Prod.mk.injEq] at h
      obtain ⟨h1, _⟩ := h
      subst h1
      exact ⟨hw.symm, fun _ => rfl⟩
    | ok content =>
      simp only [hread] at h
      split at h
      · split at h
        · exact absurd h (by simp)
        · simp only [Option.some.injEq, Prod.mk.injEq] at h
          obtain ⟨h1, _⟩ := h
          subst h1
          exact ⟨hw.symm, fun _ => rfl⟩
      · simp only [Option.some.injEq, Prod.mk.injEq] at h
        obtain ⟨h1, _⟩ := h
        subst h1
        exact ⟨hw.symm, fun _ => rfl⟩
  · simp only [hw, Bool.false_eq_true, if_false, reduceIte, Option.some.injEq,
      Prod.mk.injEq] at h
    obtain ⟨h1, _⟩ := h
    subst h1
    refine ⟨?_, fun h => absurd h hw⟩
    simp only [Bool.not_eq_true] at hw
    exact hw.symm

/-- After a successful parse, `AnalyzeFile` panics exactly when the walk found
a write, the file was read, and the index `Line - 1` is negative. -/
theorem AnalyzeFile_none_iff (ParseFile : String → Except String (FileSet × File))
    (ReadFile : String → Except String String) (filename : String) (fset : FileSet)
    (file : File) (hparse : ParseFile filename = .ok (fset, file)) :
    AnalyzeFile ParseFile ReadFile filename = none ↔
      ((Walk (visitor.init fset) (Node.File file)).hasRacyWrite = true ∧
        (∃ content, ReadFile filename = .ok content) ∧
        wrapInt ((Walk (visitor.init fset) (Node.File file)).writePos.Line - 1) < 0) := by
  rw [AnalyzeFile_parsed ParseFile ReadFile filename fset file hparse]
  by_cases hw : (Walk (visitor.init fset) (Node.File file)).hasRacyWrite = true
  · simp only [hw, if_true, reduceIte, true_and]
    cases hread : ReadFile filename with
    | error e => simp
    | ok content =>
      simp only [Except.ok.injEq, exists_eq', true_and]
      by_cases hneg :
          wrapInt ((Walk (visitor.init fset) (Node.File file)).writePos.Line - 1) < 0
      · have hlen : wrapInt ((Walk (visitor.init fset) (Node.File file)).writePos.Line - 1) <
            ((Split content).length : Int) := by omega
        simp [hneg, hlen]
      · by_cases hlen : wrapInt ((Walk (visitor.init fset) (Node.File file)).writePos.Line - 1) <
            ((Split content).length : Int)
        · simp [hneg, hlen]
        · simp [hneg, hlen]
  · simp [hw]

theorem wrapInt_of_range (x : Int) (h1 : -2 ^ 63 ≤ x) (h2 : x < 2 ^ 63) : wrapInt x = x := by
  unfold wrapInt
  omega

/-! ## Named results -/

/-- The identifier `racyVar0` of `func f() (racyVar0 int) { return }`. -/
def namedResultIdent : Ident := ⟨6, 21, "racyVar0"⟩

/-- The field `racyVar0 int` of the result list. -/
def namedResultField : Field :=
  Field.mk 5 none [namedResultIdent] (some (Expr.Ident ⟨7, 30, "int"⟩)) none none

/-- The result list `(racyVar0 int)`. -/
def namedResultList : FieldList := FieldList.mk 4 [namedResultField]

/-- The signature `func() (racyVar0 int)`. -/
def namedResultType : FuncType :=
  FuncType.mk 3 none (some (FieldList.mk 8 [])) (some namedResultList)

/-- The declaration `func f() (racyVar0 int) { return }`. -/
def namedResultDecl : Decl :=
  Decl.FuncDecl 2 none none ⟨9, 16, "f"⟩ namedResultType
    (some (BlockStmt.mk 10 [Stmt.ReturnStmt 11 []]))

/-- The file `package p`, `func f() (racyVar0 int) { return }`. -/
def namedResultFile : File := ⟨1, none, ⟨12, 9, "p"⟩, [namedResultDecl]⟩

/-- The path from the file down to the named result. -/
def namedResultStack : List Node :=
  [Node.File namedResultFile, Node.decl namedResultDecl, funcTypeNode namedResultType,
    Node.FieldList namedResultList, Node.Field namedResultField, identNode namedResultIdent]

/-- C6, at `func f() (racyVar0 int) { return }`: the named result is a
candidate, the function-declaration rule of `isWriteContext` holds for it, the
walker visits it with the stack file, declaration, function type, field list,
field, identifier, and yet `isWritten` returns false on that stack and
`AnalyzeFile` reports no write. -/
theorem namedResult_not_written :
    isRacyVarWrite namedResultIdent = true ∧
    isWriteContext (Node.decl namedResultDecl) (Expr.Ident namedResultIdent) = true ∧
    (namedResultIdent, namedResultStack) ∈ occurrences (Node.File namedResultFile) ∧
    isWritten namedResultIdent namedResultStack = false ∧
    AnalyzeFile (fun _ => .ok (fun _ => ⟨"f.go", 0, 1, 1⟩, namedResultFile))
        (fun _ => .ok "package p\nfunc f() (racyVar0 int) \x7b return \x7d\n") "f.go" =
      some ({ File := "f.go", HasWrite := false, LineNumber := 0, LineContent := "",
              Error := "" }, none) := by
  refine ⟨by decide, by decide, ?_, by decide, ?_⟩
  · simp [occurrences, identAt, preorder_eq, children, Decl.children, Expr.children,
      Stmt.children, FuncType.children, BlockStmt.children, optNode, namedResultFile,
      namedResultDecl, namedResultType, namedResultList, namedResultField, identNode,
      funcTypeNode, blockNode, namedResultStack]
  · have hw : writeOccurrences (Node.File namedResultFile) = [] := by
      simp [writeOccurrences, occurrences, identAt, preorder_eq, children, Decl.children,
        Expr.children, Stmt.children, FuncType.children, BlockStmt.children, optNode,
        namedResultFile, namedResultDecl, namedResultType, namedResultList,
        namedResultField, identNode, funcTypeNode, blockNode]
      decide
    rw [AnalyzeFile_parsed _ _ _ _ _ rfl]
    simp [Walk_init_hasRacyWrite, hw]

/-! ## The finding of `AnalyzeFile` -/

/-- The file set of the source text of `twoWritesFile`, 48 bytes in five
lines, added as the file `w.go` with base 1: the position `p` from 1 to 49 is
the byte at offset `p - 1`; `token.NoPos` and the positions beyond the file
have the zero position. -/
def twoWritesFset : FileSet := fun p =>
  if p = 0 ∨ 49 < p then Position.zero
  else if p - 1 < 10 then ⟨"w.go", (p - 1 : Nat), 1, (p - 1 + 1 : Nat)⟩
  else if p - 1 < 21 then ⟨"w.go", (p - 1 : Nat), 2, (p - 1 - 10 + 1 : Nat)⟩
  else if p - 1 < 35 then ⟨"w.go", (p - 1 : Nat), 3, (p - 1 - 21 + 1 : Nat)⟩
  else if p - 1 < 47 then ⟨"w.go", (p - 1 : Nat), 4, (p - 1 - 35 + 1 : Nat)⟩
  else ⟨"w.go", (p - 1 : Nat), 5, (p - 1 - 47 + 1 : Nat)⟩

/-- The source text of `twoWritesFile`. -/
def twoWritesText : String := "package p\nfunc f() \x7b\n\tracyVar0 = 1\n\tracyVar1++\n\x7d"

/-- The tree of `twoWritesText`. -/
def twoWritesFile : File :=
  ⟨1, none, ⟨2, 9, "p"⟩,
    [Decl.FuncDecl 3 none none ⟨4, 16, "f"⟩ (FuncType.mk 5 none (some (FieldList.mk 6 [])) none)
      (some (BlockStmt.mk 7
        [Stmt.AssignStmt 8 [Expr.Ident ⟨9, 23, "racyVar0"⟩] Token.ASSIGN
            [Expr.BasicLit ⟨10, Token.INT, "1"⟩],
          Stmt.IncDecStmt 11 (Expr.Ident ⟨12, 37, "racyVar1"⟩) Token.INC]))]⟩

/-- The tree of the source text `package p`. -/
def emptyFile : File := ⟨1, none, ⟨2, 9, "p"⟩, []⟩

theorem twoWrites_writeOccurrences :
    (writeOccurrences (Node.File twoWritesFile)).map (fun o => o.1) =
      [⟨9, 23, "racyVar0"⟩, ⟨12, 37, "racyVar1"⟩] := by
  simp [writeOccurrences, occurrences, identAt, preorder_eq, children, Decl.children,
    Expr.children, Stmt.children, FuncType.children, BlockStmt.children, optNode,
    twoWritesFile, identNode, funcTypeNode, blockNode]
  decide

theorem twoWrites_getLast :
    ∃ st, (writeOccurrences (Node.File twoWritesFile)).getLast? =
      some ((⟨12, 37, "racyVar1"⟩ : Ident), st) := by
  have h := congrArg List.getLast? twoWrites_writeOccurrences
  rw [List.getLast?_map] at h
  cases hl : (writeOccurrences (Node.File twoWritesFile)).getLast? with
  | none =>
    rw [hl] at h
    exact absurd h (by simp)
  | some o =>
    rw [hl] at h
    simp only [Option.map_some', List.getLast?_cons_cons, List.getLast?_singleton,
      Option.some.injEq] at h
    obtain ⟨i, st⟩ := o
    simp only at h
    subst h
    exact ⟨st, rfl⟩

/-- After a successful parse that found a write, with the file read back:
what `AnalyzeFile` does at the line lookup, in terms of the position of the last
write found. -/
theorem AnalyzeFile_found (ParseFile : String → Except String (FileSet × File))
    (ReadFile : String → Except String String) (filename : String) (fset : FileSet)
    (file : File) (content : String) (last : Ident × List Node)
    (hparse : ParseFile filename = .ok (fset, file))
    (hlast : (writeOccurrences (Node.File file)).getLast? = some last)
    (hread : ReadFile filename = .ok content) :
    AnalyzeFile ParseFile ReadFile filename =
      (if wrapInt ((fset last.1.NamePos).Line - 1) < ((Split content).length : Int) then
        if wrapInt ((fset last.1.NamePos).Line - 1) < 0 then none
        else
          some ({ File := filename, HasWrite := true,
                  LineNumber := (fset last.1.NamePos).Line,
                  LineContent :=
                    TrimSpace
                      ((Split content).getD (wrapInt ((fset last.1.NamePos).Line - 1)).toNat ""),
                  Error := "" }, none)
       else
          some ({ File := filename, HasWrite := true,
                  LineNumber := (fset last.1.NamePos).Line, LineContent := "",
                  Error := "" }, none)) := by
  have hne : writeOccurrences (Node.File file) ≠ [] := by
    intro h
    rw [h] at hlast
    simp at hlast
  have hrw := (hasRacyWrite_iff_ne_nil fset (Node.File file)).mpr hne
  rw [AnalyzeFile_parsed ParseFile ReadFile filename fset file hparse]
  simp only [hrw, if_true, reduceIte, hread, Walk_init_writePos fset _ last hlast]

theorem wrapInt_three : wrapInt (4 - 1) = 3 := by
  unfold wrapInt
  norm_num

theorem twoWrites_Split : Split twoWritesText =
    ["package p", "func f() \x7b", "\tracyVar0 = 1", "\tracyVar1++", "\x7d"] := by decide

/-- The run of `AnalyzeFile` on `twoWritesText`: the last write is `racyVar1`
on line 4, whose text is `racyVar1++` after the tab is trimmed. -/
theorem twoWrites_AnalyzeFile :
    AnalyzeFile (fun _ => .ok (twoWritesFset, twoWritesFile)) (fun _ => .ok twoWritesText)
        "w.go" =
      some ({ File := "w.go", HasWrite := true, LineNumber := 4,
              LineContent := "racyVar1++", Error := "" }, none) := by
  obtain ⟨st, hlast⟩ := twoWrites_getLast
  rw [AnalyzeFile_found (fun _ => .ok (twoWritesFset, twoWritesFile)) (fun _ => .ok twoWritesText)
    "w.go" twoWritesFset twoWritesFile twoWritesText _ rfl hlast rfl]
  have hline : (twoWritesFset 37).Line = 4 := by decide
  simp only [hline, wrapInt_three, twoWrites_Split]
  decide

/-- C7: for every successfully parsed file, the walk ends with `hasRacyWrite`
true if and only if the tree contains an identifier that satisfies the
candidate predicate and that `isWritten` classifies as written on its
root-to-identifier stack, so the other identifiers play no part; whenever
`AnalyzeFile` returns a record, its `HasWrite` is that flag; and `AnalyzeFile`
returns unless a write was found, the file was read back and the index
`Line - 1` of the line lookup is negative, where the code panics. -/
theorem AnalyzeFile_hasWrite_iff (ParseFile : String → Except String (FileSet × File))
    (ReadFile : String → Except String String) (filename : String) (fset : FileSet)
    (file : File) (hparse : ParseFile filename = .ok (fset, file)) :
    ((Walk (visitor.init fset) (Node.File file)).hasRacyWrite = true ↔
        ∃ o ∈ occurrences (Node.File file),
          isRacyVarWrite o.1 = true ∧ isWritten o.1 o.2 = true) ∧
      (∀ res err, AnalyzeFile ParseFile ReadFile filename = some (res, err) →
        res.HasWrite = (Walk (visitor.init fset) (Node.File file)).hasRacyWrite ∧
        (res.HasWrite = true ↔
          ∃ o ∈ occurrences (Node.File file),
            isRacyVarWrite o.1 = true ∧ isWritten o.1 o.2 = true)) ∧
      (AnalyzeFile ParseFile ReadFile filename = none ↔
        ((Walk (visitor.init fset) (Node.File file)).hasRacyWrite = true ∧
          (∃ content, ReadFile filename = .ok content) ∧
          wrapInt ((Walk (visitor.init fset) (Node.File file)).writePos.Line - 1) < 0)) := by
  have hiff : (Walk (visitor.init fset) (Node.File file)).hasRacyWrite = true ↔
      ∃ o ∈ occurrences (Node.File file),
        isRacyVarWrite o.1 = true ∧ isWritten o.1 o.2 = true := by
    rw [hasRacyWrite_iff_ne_nil]
    unfold writeOccurrences
    constructor
    · intro hne
      obtain ⟨o, ho⟩ := List.exists_mem_of_ne_nil _ hne
      rw [List.mem_filter] at ho
      exact ⟨o, ho.1, by simpa using ho.2⟩
    · rintro ⟨o, ho, h1, h2⟩ hnil
      have : o ∈ List.filter (fun o => isRacyVarWrite o.1 && isWritten o.1 o.2)
          (occurrences (Node.File file)) := by
        simp [List.mem_filter, ho, h1, h2]
      rw [hnil] at this
      simp at this
  refine ⟨hiff, fun res err h => ?_,
    AnalyzeFile_none_iff ParseFile ReadFile filename fset file hparse⟩
  have hw := (AnalyzeFile_of_some ParseFile ReadFile filename fset file hparse res err h).1
  exact ⟨hw, by rw [hw]; exact hiff⟩

theorem AnalyzeFile_hasWrite_iff_witness :
    (fun _ => Except.ok (twoWritesFset, twoWritesFile) :
        String → Except String (FileSet × File)) "w.go" = .ok (twoWritesFset, twoWritesFile) ∧
    AnalyzeFile (fun _ => .ok (twoWritesFset, twoWritesFile)) (fun _ => .ok twoWritesText)
        "w.go" =
      some ({ File := "w.go", HasWrite := true, LineNumber := 4,
              LineContent := "racyVar1++", Error := "" }, none) ∧
    ((Walk (visitor.init twoWritesFset) (Node.File twoWritesFile)).hasRacyWrite = true ↔
        ∃ o ∈ occurrences (Node.File twoWritesFile),
          isRacyVarWrite o.1 = true ∧ isWritten o.1 o.2 = true) ∧
      (∀ res err,
        AnalyzeFile (fun _ => .ok (twoWritesFset, twoWritesFile)) (fun _ => .ok twoWritesText)
          "w.go" = some (res, err) →
        res.HasWrite = (Walk (visitor.init twoWritesFset) (Node.File twoWritesFile)).hasRacyWrite ∧
        (res.HasWrite = true ↔
          ∃ o ∈ occurrences (Node.File twoWritesFile),
            isRacyVarWrite o.1 = true ∧ isWritten o.1 o.2 = true)) ∧
      (AnalyzeFile (fun _ => .ok (twoWritesFset, twoWritesFile)) (fun _ => .ok twoWritesText)
          "w.go" = none ↔
        ((Walk (visitor.init twoWritesFset) (Node.File twoWritesFile)).hasRacyWrite = true ∧
          (∃ content, (fun _ => Except.ok twoWritesText : String → Except String String) "w.go" =
            .ok content) ∧
          wrapInt ((Walk (visitor.init twoWritesFset)
            (Node.File twoWritesFile)).writePos.Line - 1) < 0)) :=
  ⟨rfl, twoWrites_AnalyzeFile,
    AnalyzeFile_hasWrite_iff _ _ "w.go" twoWritesFset twoWritesFile rfl⟩

/-- C8: when two or more candidate occurrences of a parsed file are classified
as written, the walk ends with `writePos` at the position of the identifier of
the last of them in the walker's pre-order; whenever `AnalyzeFile` returns a
record, its `HasWrite` is true and its `LineNumber` is the line of that
identifier; and `AnalyzeFile` returns unless the file was read back and the
index `Line - 1` of the line lookup is negative, where the code panics. -/
theorem AnalyzeFile_lineNumber_last (ParseFile : String → Except String (FileSet × File))
    (ReadFile : String → Except String String) (filename : String) (fset : FileSet)
    (file : File) (hparse : ParseFile filename = .ok (fset, file))
    (h2 : 2 ≤ (writeOccurrences (Node.File file)).length) :
    ∃ last, (writeOccurrences (Node.File file)).getLast? = some last ∧
      (Walk (visitor.init fset) (Node.File file)).writePos = fset last.1.NamePos ∧
      (∀ res err, AnalyzeFile ParseFile ReadFile filename = some (res, err) →
        res.HasWrite = true ∧ res.LineNumber = (fset last.1.NamePos).Line) ∧
      (AnalyzeFile ParseFile ReadFile filename = none ↔
        ((∃ content, ReadFile filename = .ok content) ∧
          wrapInt ((fset last.1.NamePos).Line - 1) < 0)) := by
  have hne : writeOccurrences (Node.File file) ≠ [] := by
    intro h
    rw [h] at h2
    simp at h2
  obtain ⟨last, hlast⟩ := getLast?_of_ne_nil _ hne
  have hrw := (hasRacyWrite_iff_ne_nil fset (Node.File file)).mpr hne
  have hp := Walk_init_writePos fset _ last hlast
  refine ⟨last, hlast, hp, fun res err h => ?_, ?_⟩
  · obtain ⟨hw, hline⟩ :=
      AnalyzeFile_of_some ParseFile ReadFile filename fset file hparse res err h
    exact ⟨by rw [hw, hrw], by rw [hline hrw, hp]⟩
  · rw [AnalyzeFile_none_iff ParseFile ReadFile filename fset file hparse, hp]
    simp [hrw]

theorem AnalyzeFile_lineNumber_last_witness :
    (fun _ => Except.ok (twoWritesFset, twoWritesFile) :
        String → Except String (FileSet × File)) "w.go" = .ok (twoWritesFset, twoWritesFile) ∧
    2 ≤ (writeOccurrences (Node.File twoWritesFile)).length ∧
    (writeOccurrences (Node.File twoWritesFile)).map (fun o => (o.1, (twoWritesFset o.1.NamePos).Line)) =
      [(⟨9, 23, "racyVar0"⟩, 3), (⟨12, 37, "racyVar1"⟩, 4)] ∧
    AnalyzeFile (fun _ => .ok (twoWritesFset, twoWritesFile)) (fun _ => .ok twoWritesText)
        "w.go" =
      some ({ File := "w.go", HasWrite := true, LineNumber := 4,
              LineContent := "racyVar1++", Error := "" }, none) ∧
    ∃ last, (writeOccurrences (Node.File twoWritesFile)).getLast? = some last ∧
      (Walk (visitor.init twoWritesFset) (Node.File twoWritesFile)).writePos =
        twoWritesFset last.1.NamePos ∧
      (∀ res err,
        AnalyzeFile (fun _ => .ok (twoWritesFset, twoWritesFile)) (fun _ => .ok twoWritesText)
          "w.go" = some (res, err) →
        res.HasWrite = true ∧ res.LineNumber = (twoWritesFset last.1.NamePos).Line) ∧
      (AnalyzeFile (fun _ => .ok (twoWritesFset, twoWritesFile)) (fun _ => .ok twoWritesText)
          "w.go" = none ↔
        ((∃ content, (fun _ => Except.ok twoWritesText : String → Except String String) "w.go" =
            .ok content) ∧
          wrapInt ((twoWritesFset last.1.NamePos).Line - 1) < 0)) :=
  have h2 : 2 ≤ (writeOccurrences (Node.File twoWritesFile)).length := by
    have h := congrArg List.length twoWrites_writeOccurrences
    simp at h
    omega
  have hlines : (writeOccurrences (Node.File twoWritesFile)).map
      (fun o => (o.1, (twoWritesFset o.1.NamePos).Line)) =
      [(⟨9, 23, "racyVar0"⟩, 3), (⟨12, 37, "racyVar1"⟩, 4)] := by
    have h := congrArg (List.map (fun i : Ident => (i, (twoWritesFset i.NamePos).Line)))
      twoWrites_writeOccurrences
    rw [List.map_map] at h
    exact h.trans (by decide)
  ⟨rfl, h2, hlines, twoWrites_AnalyzeFile,
    AnalyzeFile_lineNumber_last _ _ "w.go" twoWritesFset twoWritesFile rfl h2⟩

/-- C9: for every successfully parsed file without an identifier satisfying
the candidate predicate, `AnalyzeFile` returns the record with `HasWrite`
false, `LineNumber` 0, empty `LineContent` and `Error`, and a nil error. -/
theorem AnalyzeFile_no_candidate (ParseFile : String → Except String (FileSet × File))
    (ReadFile : String → Except String String) (filename : String) (fset : FileSet)
    (file : File) (hparse : ParseFile filename = .ok (fset, file))
    (hnone : ∀ o ∈ occurrences (Node.File file), isRacyVarWrite o.1 = false) :
    AnalyzeFile ParseFile ReadFile filename =
      some ({ File := filename, HasWrite := false, LineNumber := 0, LineContent := "",
              Error := "" }, none) := by
  have hw : writeOccurrences (Node.File file) = [] := by
    unfold writeOccurrences
    rw [List.filter_eq_nil_iff]
    intro o ho
    simp [hnone o ho]
  rw [AnalyzeFile_parsed ParseFile ReadFile filename fset file hparse]
  simp [Walk_init_hasRacyWrite, hw]

theorem AnalyzeFile_no_candidate_witness :
    (fun _ => Except.ok (twoWritesFset, emptyFile) :
        String → Except String (FileSet × File)) "e.go" = .ok (twoWritesFset, emptyFile) ∧
    (∀ o ∈ occurrences (Node.File emptyFile), isRacyVarWrite o.1 = false) ∧
    AnalyzeFile (fun _ => .ok (twoWritesFset, emptyFile)) (fun _ => .ok "package p") "e.go" =
      some ({ File := "e.go", HasWrite := false, LineNumber := 0, LineContent := "",
              Error := "" }, none) :=
  have hocc : occurrences (Node.File emptyFile) =
      [(⟨2, 9, "p"⟩, [Node.File emptyFile, identNode ⟨2, 9, "p"⟩])] := by
    simp [occurrences, identAt, preorder_eq, children, Expr.children, optNode, emptyFile,
      identNode]
  have hnone : ∀ o ∈ occurrences (Node.File emptyFile), isRacyVarWrite o.1 = false := by
    rw [hocc]
    intro o ho
    simp only [List.mem_singleton] at ho
    subst ho
    decide
  ⟨rfl, hnone, AnalyzeFile_no_candidate _ _ "e.go" twoWritesFset emptyFile rfl hnone⟩

/-! ## Occurrences below type syntax -/

/-- The node kinds of the type-syntax case of `isReadOnlyContext`: type
declaration, struct, interface, function, map, channel and array type. -/
def isTypeSyntax : Node → Bool
  | .spec (.TypeSpec _ _ _ _ _ _) => true
  | .expr (.StructType _ _) => true
  | .expr (.InterfaceType _ _) => true
  | .expr (.FuncType _) => true
  | .expr (.MapType _ _ _) => true
  | .expr (.ChanType _ _) => true
  | .expr (.ArrayType _ _ _) => true
  | _ => false

/-- The node kinds that have a case in `isWriteContext`: assignment,
increment/decrement, range statement and function declaration. -/
def isWriteKind : Node → Bool
  | .stmt (.AssignStmt _ _ _ _) => true
  | .stmt (.IncDecStmt _ _ _) => true
  | .stmt (.RangeStmt _ _ _ _ _ _) => true
  | .decl (.FuncDecl _ _ _ _ _ _) => true
  | _ => false

/-- The identifier `racyVar0` of `racyVar0++` in the array length of
`arrayLenFile`. -/
def arrayLenIdent : Ident := ⟨10, 45, "racyVar0"⟩

/-- The statement `racyVar0++`. -/
def arrayLenIncDec : Stmt := Stmt.IncDecStmt 9 (Expr.Ident arrayLenIdent) Token.INC

/-- The body `{ racyVar0++; return 0 }`. -/
def arrayLenBody : BlockStmt :=
  BlockStmt.mk 8 [arrayLenIncDec, Stmt.ReturnStmt 11 [Expr.BasicLit ⟨12, Token.INT, "0"⟩]]

/-- The function literal `func() int { racyVar0++; return 0 }`. -/
def arrayLenFuncLit : Expr :=
  Expr.FuncLit 7
    (FuncType.mk 13 none (some (FieldList.mk 14 []))
      (some (FieldList.mk 15 [Field.mk 16 none [] (some (Expr.Ident ⟨17, 39, "int"⟩)) none none])))
    arrayLenBody

/-- The call `func() int { racyVar0++; return 0 }()`. -/
def arrayLenCall : CallExpr := CallExpr.mk 6 arrayLenFuncLit []

/-- The call `unsafe.Sizeof(func() int { racyVar0++; return 0 }())`. -/
def arrayLenSizeof : CallExpr :=
  CallExpr.mk 5 (Expr.SelectorExpr 18 (Expr.Ident ⟨19, 18, "unsafe"⟩) ⟨20, 25, "Sizeof"⟩)
    [Expr.CallExpr arrayLenCall]

/-- The type `[unsafe.Sizeof(func() int { racyVar0++; return 0 }())]int`. -/
def arrayLenType : Expr :=
  Expr.ArrayType 4 (some (Expr.CallExpr arrayLenSizeof)) (Expr.Ident ⟨21, 71, "int"⟩)

/-- The spec `_ [unsafe.Sizeof(func() int { racyVar0++; return 0 }())]int`. -/
def arrayLenSpec : Spec := Spec.ValueSpec 3 none [⟨22, 15, "_"⟩] (some arrayLenType) [] none

/-- The declaration `var _ [unsafe.Sizeof(func() int { racyVar0++; return 0 }())]int`. -/
def arrayLenDecl : Decl := Decl.GenDecl 2 none Token.VAR [arrayLenSpec]

/-- The file `package p`,
`var _ [unsafe.Sizeof(func() int { racyVar0++; return 0 }())]int`. -/
def arrayLenFile : File := ⟨1, none, ⟨23, 9, "p"⟩, [arrayLenDecl]⟩

/-- The path from the file down to `racyVar0`. -/
def arrayLenStack : List Node :=
  [Node.File arrayLenFile, Node.decl arrayLenDecl, Node.spec arrayLenSpec,
    Node.expr arrayLenType, callNode arrayLenSizeof, callNode arrayLenCall,
    Node.expr arrayLenFuncLit, blockNode arrayLenBody, Node.stmt arrayLenIncDec,
    identNode arrayLenIdent]

/-- The identifier `racyVar0` of `type T struct { racyVar0 int }`. -/
def structFieldIdent : Ident := ⟨7, 27, "racyVar0"⟩

/-- The field `racyVar0 int`. -/
def structField : Field :=
  Field.mk 6 none [structFieldIdent] (some (Expr.Ident ⟨8, 36, "int"⟩)) none none

/-- The field list `{ racyVar0 int }`. -/
def structFields : FieldList := FieldList.mk 5 [structField]

/-- The spec `T struct { racyVar0 int }`. -/
def structSpec : Spec :=
  Spec.TypeSpec 3 none ⟨9, 16, "T"⟩ none (Expr.StructType 4 structFields) none

theorem isReadOnlyContext_of_isTypeSyntax (T : Node) (child : Expr)
    (hT : isTypeSyntax T = true) : isReadOnlyContext T child = true := by
  unfold isTypeSyntax at hT
  split at hT <;> simp_all [isReadOnlyContext]

theorem isWriteContext_of_not_isWriteKind (m : Node) (child : Expr)
    (hm : isWriteKind m = false) : isWriteContext m child = false := by
  unfold isWriteKind at hm
  split at hm <;> simp_all [isWriteContext]

theorem isWrittenLoop_typeSyntax (T : Node) (hT : isTypeSyntax T = true) (rest : List Node)
    (l : List Node) (hl : ∀ m ∈ l, isWriteKind m = false) (child : Expr) :
    isWrittenLoop child (l ++ T :: rest) = false := by
  induction l generalizing child with
  | nil => simp [isWrittenLoop, isReadOnlyContext_of_isTypeSyntax T child hT]
  | cons m l ih =>
    have hm : isWriteContext m child = false :=
      isWriteContext_of_not_isWriteKind m child (hl m (List.mem_cons_self _ _))
    have ih2 := ih (fun m' hm' => hl m' (List.mem_cons_of_mem _ hm'))
    simp only [List.cons_append, isWrittenLoop, hm]
    split
    · rfl
    · simp only [Bool.false_eq_true, if_false, reduceIte]
      split
      · exact ih2 _
      · rfl

/-- C10, as stated, fails: in `var _ [unsafe.Sizeof(func() int { racyVar0++;
return 0 }())]int` the identifier `racyVar0` is visited with an array-type node
on its ancestor stack, and `isWritten` returns true. -/
theorem isWritten_inside_arrayType :
    (∃ n ∈ arrayLenStack, isTypeSyntax n = true) ∧
    (arrayLenIdent, arrayLenStack) ∈ occurrences (Node.File arrayLenFile) ∧
    isWritten arrayLenIdent arrayLenStack = true := by
  refine ⟨⟨Node.expr arrayLenType, by simp [arrayLenStack], by decide⟩, ?_, by decide⟩
  simp [occurrences, identAt, preorder_eq, children, Decl.children, Spec.children,
    Expr.children, Stmt.children, FuncType.children, BlockStmt.children, CallExpr.children,
    optNode, arrayLenFile, arrayLenDecl, arrayLenSpec, arrayLenType, arrayLenSizeof,
    arrayLenCall, arrayLenFuncLit, arrayLenBody, arrayLenIncDec, identNode, funcTypeNode,
    blockNode, callNode, arrayLenStack]

/-- C10, amended: `isWritten` returns false for every identifier whose stack
has a type-syntax node `T` (type declaration, struct, interface, function, map,
channel or array type) with no assignment, increment/decrement, range statement
or function declaration among the entries `mid` nested below it. -/
theorem isWritten_below_typeSyntax (O : Ident) (pre mid : List Node) (T : Node)
    (hT : isTypeSyntax T = true) (hmid : ∀ m ∈ mid, isWriteKind m = false) :
    isWritten O (pre ++ T :: mid) = false := by
  unfold isWritten
  rw [List.reverse_append, List.reverse_cons, List.append_assoc]
  exact isWrittenLoop_typeSyntax T hT pre.reverse mid.reverse
    (fun m hm => hmid m (List.mem_reverse.mp hm)) _

theorem isWritten_below_typeSyntax_witness :
    isTypeSyntax (Node.expr (Expr.StructType 4 structFields)) = true ∧
    (∀ m ∈ [Node.FieldList structFields, Node.Field structField, identNode structFieldIdent],
      isWriteKind m = false) ∧
    isWritten structFieldIdent
      ([Node.spec structSpec] ++ Node.expr (Expr.StructType 4 structFields) ::
        [Node.FieldList structFields, Node.Field structField, identNode structFieldIdent])
      = false :=
  have hmid : ∀ m ∈ [Node.FieldList structFields, Node.Field structField,
      identNode structFieldIdent], isWriteKind m = false := by
    intro m hm
    simp only [List.mem_cons, List.mem_singleton, List.not_mem_nil, or_false] at hm
    rcases hm with rfl | rfl | rfl <;> rfl
  ⟨rfl, hmid, isWritten_below_typeSyntax structFieldIdent [Node.spec structSpec] _ _ rfl hmid⟩

/-! ## The two rule tables -/

/-- No node satisfies a read-only rule and a write rule for the same child. -/
theorem isReadOnlyContext_isWriteContext (A : Node) (c : Expr) :
    ¬ (isReadOnlyContext A c = true ∧ isWriteContext A c = true) := by
  rcases A with e | s | sp | d | _ | _ | _ | _ | _ | _
  · cases e <;> simp [isReadOnlyContext, isWriteContext]
  · cases s <;> simp [isReadOnlyContext, isWriteContext]
  · cases sp <;> simp [isReadOnlyContext, isWriteContext]
  · cases d <;> simp [isReadOnlyContext, isWriteContext]
  all_goals simp [isReadOnlyContext, isWriteContext]

/-- The loop of `isWritten` with the two tests of each step exchanged: the write
rules are consulted before the read-only rules. -/
def isWrittenLoopWriteFirst (child : Expr) : List Node → Bool
  | [] => false
  | parent :: rest =>
      if isWriteContext parent child then true
      else if isReadOnlyContext parent child then false
      else
        match parent with
        | .expr e => isWrittenLoopWriteFirst e rest
        | _ => false

/-- The classifier that consults the write rules first. -/
def isWrittenWriteFirst (ident : Ident) (stack : List Node) : Bool :=
  isWrittenLoopWriteFirst (Expr.Ident ident) stack.reverse

theorem isWrittenLoopWriteFirst_eq (parents : List Node) (child : Expr) :
    isWrittenLoopWriteFirst child parents = isWrittenLoop child parents := by
  induction parents generalizing child with
  | nil => rfl
  | cons parent rest ih =>
    have hd := isReadOnlyContext_isWriteContext parent child
    unfold isWrittenLoopWriteFirst isWrittenLoop
    by_cases hr : isReadOnlyContext parent child = true
    · by_cases hw : isWriteContext parent child = true
      · exact absurd ⟨hr, hw⟩ hd
      · simp [hr, hw]
    · by_cases hw : isWriteContext parent child = true
      · simp [hr, hw]
      · simp only [hr, hw, if_false, Bool.false_eq_true]
        cases parent <;> simp [ih]

/-- C11: no node `A` and child `c` satisfy both `isReadOnlyContext` and
`isWriteContext`; and the classifier that tests the write rules before the
read-only rules at every step returns what `isWritten` returns, for every
identifier and stack. -/
theorem isWritten_rule_order :
    (∀ (A : Node) (c : Expr), ¬ (isReadOnlyContext A c = true ∧ isWriteContext A c = true)) ∧
      ∀ (ident : Ident) (stack : List Node),
        isWrittenWriteFirst ident stack = isWritten ident stack :=
  ⟨isReadOnlyContext_isWriteContext,
    fun ident stack => isWrittenLoopWriteFirst_eq stack.reverse (Expr.Ident ident)⟩

/-! ## The loop of `isWritten`, by index -/

/-- An `*ast.FuncType` as the Go types allow it, with what `isWriteContext`
reads of it: the pointer `Results` may be nil, and each entry of
`Results.List` may be a nil `*ast.Field`. -/
structure FuncTypeValue where
  Results : Option (List (Option Field))

/-- An `*ast.FuncDecl` as the Go types allow it, with what `isWriteContext`
reads of it: the pointer `Type` may be nil. -/
structure FuncDeclValue where
  ptr : Nat
  Typ : Option FuncTypeValue

/-- A value of the slice `stack []ast.Node` as the Go types allow it: the nil
interface, a node built as `go/ast` documents it (the pointers documented as
present are not nil), or a function declaration whose `Type` and result fields
may be nil. -/
inductive StackEntry where
  | nilNode
  | node (n : Node)
  | FuncDecl (d : FuncDeclValue)

/-- The function `isReadOnlyContext` on a stack value: the nil interface and
the function declaration match no case. -/
def isReadOnlyContextValue (entry : StackEntry) (child : Expr) : Bool :=
  match entry with
  | .node n => isReadOnlyContext n child
  | _ => false

/-- The loops over `n.Type.Results.List` and `field.Names` of the
function-declaration case of `isWriteContext`; `none` is the nil-pointer
dereference `field.Names` of a nil field. -/
def resultNamesLoop (child : Expr) : List (Option Field) → Option Bool
  | [] => some false
  | none :: _ => none
  | some field :: rest =>
      if field.Names.any (fun name => sameIdent name child) then some true
      else resultNamesLoop child rest

/-- The function `isWriteContext` on a stack value; `none` is a nil-pointer
dereference: `n.Type.Results` when `n.Type` is nil, or `field.Names` when
`field` is nil. -/
def isWriteContextValue (entry : StackEntry) (child : Expr) : Option Bool :=
  match entry with
  | .nilNode => some false
  | .node n => some (isWriteContext n child)
  | .FuncDecl d =>
      match d.Typ with
      | none => none
      | some t =>
          match t.Results with
          | none => some false
          | some fields => resultNamesLoop child fields

/-- The loop of `isWritten` as the code runs it, by index into `stack`: the
counter `k` is `i + 1` for the loop variable `i`, so `k = 0` is the exit `i < 0`
followed by `return false`.  The result `none` is a run-time panic: `stack[i]`
for an index out of range, or a nil-pointer dereference in `isWriteContext`. -/
def isWrittenIndexed (stack : List StackEntry) : Nat → Expr → Option Bool
  | 0, _ => some false
  | i + 1, child =>
      match stack[i]? with
      | none => none
      | some parent =>
          if isReadOnlyContextValue parent child then some false
          else
            match isWriteContextValue parent child with
            | none => none
            | some true => some true
            | some false =>
                match parent with
                | .node (.expr e) => isWrittenIndexed stack i e
                | _ => some false

/-- The function `isWritten` on Go values: `ident` may be the nil pointer, and
then `ident.Name`, evaluated for the first call of `debug`, is a nil-pointer
dereference. -/
def isWrittenValue (ident : Option Ident) (stack : List StackEntry) : Option Bool :=
  match ident with
  | none => none
  | some ident => isWrittenIndexed stack stack.length (Expr.Ident ident)

theorem isWrittenIndexed_eq (stack : List Node) (k : Nat) (hk : k ≤ stack.length)
    (child : Expr) :
    isWrittenIndexed (stack.map StackEntry.node) k child =
      some (isWrittenLoop child (stack.take k).reverse) := by
  induction k generalizing child with
  | zero => simp [isWrittenIndexed, isWrittenLoop]
  | succ i ih =>
    have hi : i < stack.length := hk
    have hget : stack[i]? = some stack[i] := List.getElem?_eq_getElem hi
    have htake : (stack.take (i + 1)).reverse = stack[i] :: (stack.take i).reverse := by
      rw [List.take_succ, hget]
      simp
    rw [htake]
    unfold isWrittenIndexed isWrittenLoop
    simp only [List.getElem?_map, hget, Option.map_some', isReadOnlyContextValue,
      isWriteContextValue]
    by_cases hr : isReadOnlyContext stack[i] child = true
    · simp [hr]
    · by_cases hw : isWriteContext stack[i] child = true
      · simp [hr, hw]
      · simp only [hr, hw, if_false, Bool.false_eq_true]
        cases hp : stack[i] with
        | expr e => simp [ih (Nat.le_of_lt hi)]
        | _ => simp

theorem resultNamesLoop_none (child : Expr) (fields : List (Option Field))
    (h : resultNamesLoop child fields = none) : none ∈ fields := by
  induction fields with
  | nil => simp [resultNamesLoop] at h
  | cons f rest ih =>
    cases f with
    | none => simp
    | some field =>
      unfold resultNamesLoop at h
      split at h
      · exact absurd h (by simp)
      · exact List.mem_cons_of_mem _ (ih h)

theorem isWrittenIndexed_none (stack : List StackEntry) (k : Nat) (hk : k ≤ stack.length)
    (child : Expr) (h : isWrittenIndexed stack k child = none) :
    ∃ d, StackEntry.FuncDecl d ∈ stack ∧
      (d.Typ = none ∨ ∃ t fields, d.Typ = some t ∧ t.Results = some fields ∧ none ∈ fields) := by
  induction k generalizing child with
  | zero => simp [isWrittenIndexed] at h
  | succ i ih =>
    have hi : i < stack.length := hk
    have hget : stack[i]? = some stack[i] := List.getElem?_eq_getElem hi
    have hmem : stack[i] ∈ stack := List.getElem_mem hi
    unfold isWrittenIndexed at h
    simp only [hget] at h
    split at h
    · exact absurd h (by simp)
    · cases hp : stack[i] with
      | nilNode =>
        rw [hp] at h
        simp [isWriteContextValue] at h
      | node n =>
        rw [hp] at h
        simp only [isWriteContextValue] at h
        cases hw : isWriteContext n child with
        | true =>
          rw [hw] at h
          exact absurd h (by simp)
        | false =>
          rw [hw] at h
          cases n with
          | expr e => exact ih (Nat.le_of_lt hi) e h
          | _ => exact absurd h (by simp)
      | FuncDecl d =>
        rw [hp] at h hmem
        refine ⟨d, hmem, ?_⟩
        simp only [isWriteContextValue] at h
        obtain ⟨p, typ⟩ := d
        cases typ with
        | none => exact Or.inl rfl
        | some t =>
          obtain ⟨results⟩ := t
          cases results with
          | none => exact absurd h (by simp)
          | some fields =>
            simp only at h
            cases hl : resultNamesLoop child fields with
            | none =>
              exact Or.inr ⟨⟨some fields⟩, fields, rfl, rfl,
                resultNamesLoop_none child fields hl⟩
            | some b =>
              rw [hl] at h
              cases b <;> exact absurd h (by simp)

/-- C12, counterexample: on the stack that holds a function declaration whose
`Type` is nil, below it or not the identifier itself, `isWriteContext`
dereferences the nil `Type` and `isWritten` fails instead of returning a
verdict. -/
theorem isWritten_nil_funcType :
    isWrittenValue (some ⟨3, 6, "racyVar0"⟩) [StackEntry.FuncDecl ⟨2, none⟩] = none ∧
      isWrittenValue (some ⟨3, 6, "racyVar0"⟩)
        [StackEntry.node (Node.File emptyFile), StackEntry.FuncDecl ⟨2, none⟩,
          StackEntry.node (identNode ⟨3, 6, "racyVar0"⟩)] = none := by
  constructor <;> decide

/-- C12, amended: for every identifier and every stack of nodes built as
`go/ast` documents them (a function declaration has its `Type`, whose `Results`
may be nil), the loop of `isWritten`, run by index from `len(stack) - 1` down
to `0`, never indexes out of range, dereferences no nil pointer, ends, and
returns a boolean, the value of `isWritten`; on the empty stack that value is
false; on a stack of arbitrary values a run of `isWritten` on an identifier can
fail only if the stack holds a function declaration whose `Type` is nil or
whose result list has a nil field; and a run on the nil identifier fails. -/
theorem isWritten_total :
    (∀ (ident : Ident) (stack : List Node),
        isWrittenValue (some ident) (stack.map StackEntry.node) =
          some (isWritten ident stack)) ∧
      (∀ ident : Ident, isWrittenValue (some ident) [] = some false ∧
        isWritten ident [] = false) ∧
      (∀ (ident : Ident) (stack : List StackEntry),
        isWrittenValue (some ident) stack = none →
        ∃ d, StackEntry.FuncDecl d ∈ stack ∧
          (d.Typ = none ∨
            ∃ t fields, d.Typ = some t ∧ t.Results = some fields ∧ none ∈ fields)) ∧
      ∀ stack : List StackEntry, isWrittenValue none stack = none := by
  refine ⟨fun ident stack => ?_, fun ident => ⟨rfl, rfl⟩, fun ident stack h => ?_,
    fun stack => rfl⟩
  · simp only [isWrittenValue, List.length_map]
    rw [isWrittenIndexed_eq stack stack.length (Nat.le_refl _)]
    simp [isWritten]
  · exact isWrittenIndexed_none stack stack.length (Nat.le_refl _) _ h

/-! ## Unary operators and the pointer dereference -/

/-- The identifier `racyVar0` of `*racyVar0 = v`. -/
def derefIdent : Ident := ⟨6, 31, "racyVar0"⟩

/-- The dereference `*racyVar0`, an `*ast.StarExpr`. -/
def derefStar : Expr := Expr.StarExpr 5 (Expr.Ident derefIdent)

/-- The statement `*racyVar0 = v`. -/
def derefAssign : Stmt :=
  Stmt.AssignStmt 4 [derefStar] Token.ASSIGN [Expr.Ident ⟨7, 42, "v"⟩]

/-- The body `{ *racyVar0 = v }`. -/
def derefBody : BlockStmt := BlockStmt.mk 3 [derefAssign]

/-- The declaration `func f() { *racyVar0 = v }`. -/
def derefDecl : Decl :=
  Decl.FuncDecl 2 none none ⟨8, 16, "f"⟩ (FuncType.mk 9 none (some (FieldList.mk 10 [])) none)
    (some derefBody)

/-- The file `package p; func f() { *racyVar0 = v }`. -/
def derefFile : File := ⟨1, none, ⟨11, 9, "p"⟩, [derefDecl]⟩

/-- The ancestor stack of `racyVar0` in `derefFile`. -/
def derefStack : List Node :=
  [Node.File derefFile, Node.decl derefDecl, Node.stmt (Stmt.BlockStmt derefBody),
   Node.stmt derefAssign, Node.expr derefStar, Node.expr (Expr.Ident derefIdent)]

theorem isWritten_snoc_snoc_snoc (O : Ident) (pre : List Node) (grand parent : Node) :
    isWritten O (pre ++ [grand, parent, Node.expr (Expr.Ident O)]) =
      isWrittenLoop (Expr.Ident O) (parent :: grand :: pre.reverse) := by
  have h : pre ++ [grand, parent, Node.expr (Expr.Ident O)]
      = (pre ++ [grand, parent]) ++ [Node.expr (Expr.Ident O)] := by simp
  rw [h, isWritten_snoc_ident]
  simp

/-- C13, counterexample: in `*racyVar0 = v` the candidate `racyVar0` is the
operand of the dereference, the dereference is the target of a plain
assignment, and `isWritten` returns true. -/
theorem isWritten_deref_assign :
    derefStack.getLast? = some (Node.expr (Expr.Ident derefIdent)) ∧
      isRacyVarWrite derefIdent = true ∧
      isWritten derefIdent derefStack = true :=
  ⟨rfl, by decide, by decide⟩

/-- C13, amended: for every `ast.UnaryExpr` (negation, address-of, receive and
the other unary operators) whose operand `X` is the node `O`, `isWritten`
returns false on `pre ++ [unary, O]`; a dereference is an `ast.StarExpr`, which
no rule mentions, so for a dereference `star` of `O` that is a target of an
assignment `assign` other than `:=`, `isWritten` returns true on
`pre ++ [assign, star, O]`. -/
theorem isWritten_unary_operand (pre : List Node) (p : Nat) (Op : Token) (X : Expr)
    (O : Ident) (a q : Nat) (Lhs Rhs : List Expr) (Tok : Token) (hO : X.ptr = O.ptr)
    (hTok : Tok ≠ Token.DEFINE) (hl : ∃ l ∈ Lhs, l.ptr = q) :
    isWritten O (pre ++ [Node.expr (Expr.UnaryExpr p Op X), Node.expr (Expr.Ident O)]) = false ∧
      isWritten O (pre ++ [Node.stmt (Stmt.AssignStmt a Lhs Tok Rhs),
        Node.expr (Expr.StarExpr q X), Node.expr (Expr.Ident O)]) = true := by
  constructor
  · rw [isWritten_snoc_snoc]
    simp [isWrittenLoop, isReadOnlyContext, sameExpr, hO, ptr_Ident]
  · rw [isWritten_snoc_snoc_snoc]
    obtain ⟨l, hl, hq⟩ := hl
    simp only [isWrittenLoop, isReadOnlyContext, isWriteContext]
    simp only [Bool.false_eq_true, if_false, hTok, ne_eq, not_false_eq_true, if_true]
    have : Lhs.any (fun lhs => sameExpr lhs (Expr.StarExpr q X)) = true := by
      rw [List.any_eq_true]
      refine ⟨l, hl, ?_⟩
      show (l.ptr == q) = true
      simp [hq]
    simp [this]

theorem isWritten_unary_operand_witness :
    isWritten ⟨1, 10, "racyVar0"⟩
        ([] ++ [Node.expr (Expr.UnaryExpr 2 Token.SUB (Expr.Ident ⟨1, 10, "racyVar0"⟩)),
          Node.expr (Expr.Ident ⟨1, 10, "racyVar0"⟩)]) = false ∧
      isWritten ⟨1, 10, "racyVar0"⟩
        ([] ++ [Node.stmt (Stmt.AssignStmt 4
            [Expr.StarExpr 5 (Expr.Ident ⟨1, 10, "racyVar0"⟩)] Token.ASSIGN
            [Expr.BasicLit ⟨3, Token.INT, "1"⟩]),
          Node.expr (Expr.StarExpr 5 (Expr.Ident ⟨1, 10, "racyVar0"⟩)),
          Node.expr (Expr.Ident ⟨1, 10, "racyVar0"⟩)]) = true :=
  isWritten_unary_operand [] 2 Token.SUB (Expr.Ident ⟨1, 10, "racyVar0"⟩)
    ⟨1, 10, "racyVar0"⟩ 4 5 [Expr.StarExpr 5 (Expr.Ident ⟨1, 10, "racyVar0"⟩)]
    [Expr.BasicLit ⟨3, Token.INT, "1"⟩] Token.ASSIGN rfl (by decide)
    ⟨Expr.StarExpr 5 (Expr.Ident ⟨1, 10, "racyVar0"⟩), by simp, rfl⟩

/-! ## The position-sensitive read-only rules -/

/-- C14: for each position-sensitive kind, `isReadOnlyContext` is true exactly
when the child is the node in the named position: the base of a selector, the
index of an index expression, the low, high or max bound of a slice, an
argument of a call, the key or the value of a key/value pair, the operand of a
unary operator, an operand of a binary operator, a result of a return, the
channel or the value of a send. -/
theorem isReadOnlyContext_position (c : Expr) :
    (∀ p X Sel, isReadOnlyContext (Node.expr (Expr.SelectorExpr p X Sel)) c = true ↔
        X.ptr = c.ptr) ∧
    (∀ p X Index, isReadOnlyContext (Node.expr (Expr.IndexExpr p X Index)) c = true ↔
        Index.ptr = c.ptr) ∧
    (∀ p X Low High Max,
        isReadOnlyContext (Node.expr (Expr.SliceExpr p X Low High Max)) c = true ↔
          (∃ e, (Low = some e ∨ High = some e ∨ Max = some e) ∧ e.ptr = c.ptr)) ∧
    (∀ p Fun Args, isReadOnlyContext (Node.expr (Expr.CallExpr (CallExpr.mk p Fun Args))) c = true ↔
        ∃ arg ∈ Args, arg.ptr = c.ptr) ∧
    (∀ p Key Value, isReadOnlyContext (Node.expr (Expr.KeyValueExpr p Key Value)) c = true ↔
        (Key.ptr = c.ptr ∨ Value.ptr = c.ptr)) ∧
    (∀ p Op X, isReadOnlyContext (Node.expr (Expr.UnaryExpr p Op X)) c = true ↔
        X.ptr = c.ptr) ∧
    (∀ p X Op Y, isReadOnlyContext (Node.expr (Expr.BinaryExpr p X Op Y)) c = true ↔
        (X.ptr = c.ptr ∨ Y.ptr = c.ptr)) ∧
    (∀ p Results, isReadOnlyContext (Node.stmt (Stmt.ReturnStmt p Results)) c = true ↔
        ∃ result ∈ Results, result.ptr = c.ptr) ∧
    (∀ p Chan Value, isReadOnlyContext (Node.stmt (Stmt.SendStmt p Chan Value)) c = true ↔
        (Chan.ptr = c.ptr ∨ Value.ptr = c.ptr)) := by
  refine ⟨?_, ?_, ?_, ?_, ?_, ?_, ?_, ?_, ?_⟩
  · intro p X Sel; simp [isReadOnlyContext, sameExpr]
  · intro p X Index; simp [isReadOnlyContext, sameExpr]
  · intro p X Low High Max
    cases Low <;> cases High <;> cases Max <;>
      simp [isReadOnlyContext, sameExpr, sameExprOpt, or_and_right, exists_or, or_assoc]
  · intro p Fun Args; simp [isReadOnlyContext, sameExpr, CallExpr.Args]
  · intro p Key Value; simp [isReadOnlyContext, sameExpr]
  · intro p Op X; simp [isReadOnlyContext, sameExpr]
  · intro p X Op Y; simp [isReadOnlyContext, sameExpr]
  · intro p Results; simp [isReadOnlyContext, sameExpr]
  · intro p Chan Value; simp [isReadOnlyContext, sameExpr]

/-! ## The candidate test -/

theorem HasPrefix_iff (s pre : String) :
    HasPrefix_ s pre = true ↔ ∃ rest : String, s = pre ++ rest := by
  unfold HasPrefix_
  rw [List.isPrefixOf_iff_prefix]
  constructor
  · rintro ⟨t, ht⟩
    refine ⟨String.mk t, ?_⟩
    apply String.ext
    simpa using ht.symm
  · rintro ⟨rest, rfl⟩
    exact ⟨rest.toList, by simp⟩

/-- C19: `isRacyVarWrite` is true exactly when the identifier's name is
`racyVar` followed by any text, the empty text included; the test is
case-sensitive; and two identifiers with the same name get the same answer,
whatever their address and position. -/
theorem isRacyVarWrite_iff :
    (∀ ident : Ident, isRacyVarWrite ident = true ↔ ∃ rest : String, ident.Name = "racyVar" ++ rest) ∧
      (∀ p q : Nat, isRacyVarWrite ⟨p, q, "racyVar"⟩ = true) ∧
      (∀ p q : Nat, isRacyVarWrite ⟨p, q, "RacyVar0"⟩ = false ∧
        isRacyVarWrite ⟨p, q, "racyvar0"⟩ = false ∧ isRacyVarWrite ⟨p, q, "xracyVar0"⟩ = false) ∧
      ∀ i j : Ident, i.Name = j.Name → isRacyVarWrite i = isRacyVarWrite j := by
  refine ⟨fun ident => HasPrefix_iff _ _, fun p q => ?_, fun p q => ?_, ?_⟩
  · show HasPrefix_ "racyVar" "racyVar" = true
    decide
  · show HasPrefix_ "RacyVar0" "racyVar" = false ∧ HasPrefix_ "racyvar0" "racyVar" = false ∧
      HasPrefix_ "xracyVar0" "racyVar" = false
    decide
  intro i j h
  simp [isRacyVarWrite, h]

/-! ## The walk, with a record of what it does -/

/-- The function `ast.Walk` for any visitor: `visit s node` is the visitor after
its `Visit` method ran on `node`, paired with whether the visitor it returned is
non-nil. -/
def WalkWith {σ : Type} (visit : σ → Option Node → σ × Bool) (s : σ) (node : Node) : σ :=
  let r := visit s (some node)
  if r.2 = false then r.1
  else
    let w := (children node).attach.foldl (fun acc c => WalkWith visit acc c.1) r.1
    (visit w none).1
termination_by 2 * sizeOf node + node.bonus
decreasing_by exact children_rank_lt _ _ c.2

theorem WalkWith_eq {σ : Type} (visit : σ → Option Node → σ × Bool) (s : σ) (node : Node) :
    WalkWith visit s node =
      if (visit s (some node)).2 = false then (visit s (some node)).1
      else (visit ((children node).foldl (WalkWith visit) (visit s (some node)).1) none).1 := by
  rw [WalkWith]
  simp only [List.foldl_attach]

theorem Walk_eq_WalkWith (v : visitor) (node : Node) :
    Walk v node = WalkWith visitor.Visit v node := by
  generalize h : 2 * sizeOf node + node.bonus = k
  induction k using Nat.strong_induction_on generalizing node v with
  | _ k ih =>
    subst h
    have hcs : ∀ (cs : List Node), (∀ c ∈ cs, c ∈ children node) → ∀ w : visitor,
        walkList w cs = cs.foldl (WalkWith visitor.Visit) w := by
      intro cs
      induction cs with
      | nil => intro _ w; rfl
      | cons c cs ihcs =>
        intro hmem w
        have hc := ih _ (children_rank_lt _ _ (hmem c (List.mem_cons_self _ _))) w c rfl
        simp only [walkList, List.foldl_cons] at ihcs ⊢
        rw [hc]
        exact ihcs (fun c' hc' => hmem c' (List.mem_cons_of_mem _ hc')) _
    rw [Walk_eq, WalkWith_eq, hcs _ (fun _ hc => hc)]

/-- The visitor together with a record of the walk: the non-nil nodes `Visit`
was entered with, and the arguments of every call of `isWritten`, both in the
order of the run. -/
structure tracedVisitor where
  v : visitor
  entered : List Node
  calls : List (Ident × List Node)

/-- The method `Visit`, keeping the record: a non-nil node is appended to
`entered` on entry, and the identifier and stack handed to `isWritten` are
appended to `calls` where the code evaluates `isWritten(n, v.stack)`, that is
after `isRacyVarWrite(n)` was true. -/
def tracedVisitor.Visit (t : tracedVisitor) (node : Option Node) : tracedVisitor × Bool :=
  match node with
  | none =>
      if t.v.stack.length > 0 then
        ({ t with v := { t.v with stack := t.v.stack.take (t.v.stack.length - 1) } }, true)
      else (t, true)
  | some node =>
      let v1 := { t.v with stack := t.v.stack ++ [node] }
      let t1 := { t with v := v1, entered := t.entered ++ [node] }
      match node with
      | .expr (.Ident n) =>
          if isRacyVarWrite n then
            let t2 := { t1 with calls := t1.calls ++ [(n, v1.stack)] }
            if isWritten n v1.stack then
              ({ t2 with v := { v1 with hasRacyWrite := true, writePos := v1.fset n.NamePos } },
                true)
            else (t2, true)
          else (t1, true)
      | _ => (t1, true)

/-- The record before the walk. -/
def tracedVisitor.init (fset : FileSet) : tracedVisitor :=
  { v := visitor.init fset, entered := [], calls := [] }

/-- The identifier on top of `stack`, with the stack, when it is a candidate. -/
def callAt (stack : List Node) : Option (Ident × List Node) :=
  match stack.getLast? with
  | some (.expr (.Ident n)) => if isRacyVarWrite n then some (n, stack) else none
  | _ => none

/-- The record after the stacks `ss` were built in order. -/
def tracedVisitor.log (t : tracedVisitor) (ss : List (List Node)) : tracedVisitor :=
  { v := t.v.record (ss.filterMap writeAt),
    entered := t.entered ++ ss.filterMap List.getLast?,
    calls := t.calls ++ ss.filterMap callAt }

/-- The pre-order listing of the nodes of a tree: the node, then the listings
of its children in order. -/
def nodesPreorder (node : Node) : List Node :=
  node :: (children node).attach.flatMap (fun c => nodesPreorder c.1)
termination_by 2 * sizeOf node + node.bonus
decreasing_by exact children_rank_lt _ _ c.2

theorem nodesPreorder_eq (node : Node) :
    nodesPreorder node = node :: (children node).flatMap nodesPreorder := by
  rw [nodesPreorder]
  simp [List.flatMap, List.attach_map_coe]

/-- `stack` is a path of the tree `root`: it starts with `root`, and every
further entry is a child of the entry before it. -/
def isPathFrom (root : Node) (stack : List Node) : Prop :=
  ∃ p, stack = root :: p ∧ List.Chain (fun a b => b ∈ children a) root p

theorem visitor.Visit_snd (v : visitor) (node : Option Node) : (v.Visit node).2 = true := by
  cases node with
  | none =>
    simp only [visitor.Visit]
    split <;> rfl
  | some n => rw [visitor.Visit_some]

theorem tracedVisitor.log_log (t : tracedVisitor) (a b : List (List Node)) :
    (t.log a).log b = t.log (a ++ b) := by
  simp [tracedVisitor.log, visitor.record_record, List.filterMap_append, List.append_assoc]

theorem tracedVisitor.log_stack (t : tracedVisitor) (ss : List (List Node)) :
    (t.log ss).v.stack = t.v.stack := by
  simp [tracedVisitor.log, visitor.record_stack]

theorem writeAt_not_ident (stack : List Node) (node : Node)
    (hid : ¬ ∃ n, node = Node.expr (Expr.Ident n)) : writeAt (stack ++ [node]) = none := by
  unfold writeAt
  rw [List.getLast?_concat]
  split
  · rename_i n heq
    simp only [Option.some.injEq] at heq
    exact absurd ⟨n, heq⟩ hid
  · rfl

theorem callAt_not_ident (stack : List Node) (node : Node)
    (hid : ¬ ∃ n, node = Node.expr (Expr.Ident n)) : callAt (stack ++ [node]) = none := by
  unfold callAt
  rw [List.getLast?_concat]
  split
  · rename_i n heq
    simp only [Option.some.injEq] at heq
    exact absurd ⟨n, heq⟩ hid
  · rfl

theorem traced_Visit_some (t : tracedVisitor) (node : Node) :
    t.Visit (some node) =
      (({ t with v := { t.v with stack := t.v.stack ++ [node] } } : tracedVisitor).log
          [t.v.stack ++ [node]], true) := by
  by_cases hid : ∃ n, node = Node.expr (Expr.Ident n)
  · obtain ⟨n, rfl⟩ := hid
    simp only [tracedVisitor.Visit, tracedVisitor.log, writeAt, callAt, List.filterMap_cons,
      List.filterMap_nil, List.getLast?_concat]
    by_cases h1 : isRacyVarWrite n = true
    · by_cases h2 : isWritten n (t.v.stack ++ [Node.expr (Expr.Ident n)]) = true
      · simp [visitor.record, h1, h2]
      · simp [visitor.record, h1, h2]
    · simp [visitor.record, h1]
  · have hv : t.Visit (some node) =
        ({ t with v := { t.v with stack := t.v.stack ++ [node] },
                  entered := t.entered ++ [node] }, true) := by
      simp only [tracedVisitor.Visit]
      split
      · exact absurd ⟨_, rfl⟩ hid
      · rfl
    rw [hv]
    simp [tracedVisitor.log, writeAt_not_ident _ _ hid, callAt_not_ident _ _ hid,
      visitor.record]

theorem traced_Visit_none (t : tracedVisitor) :
    (t.Visit none).1 = { t with v := (t.v.Visit none).1 } := by
  simp only [tracedVisitor.Visit, visitor.Visit]
  split <;> rfl

theorem traced_Visit_snd (t : tracedVisitor) (node : Option Node) :
    (t.Visit node).2 = true := by
  cases node with
  | none =>
    simp only [tracedVisitor.Visit]
    split <;> rfl
  | some n => rw [traced_Visit_some]

theorem traced_Visit_none_log (t : tracedVisitor) (node : Node)
    (ss : List (List Node)) :
    ((({ t with v := { t.v with stack := t.v.stack ++ [node] } } : tracedVisitor).log
        ss).Visit none).1 = t.log ss := by
  rw [traced_Visit_none]
  simp only [tracedVisitor.log]
  rw [visitor.Visit_none_record]

theorem foldl_WalkWith_log (cs : List Node)
    (ih : ∀ c ∈ cs, ∀ t : tracedVisitor,
      WalkWith tracedVisitor.Visit t c = t.log (preorder t.v.stack c)) (t : tracedVisitor) :
    cs.foldl (WalkWith tracedVisitor.Visit) t = t.log (cs.flatMap (preorder t.v.stack)) := by
  induction cs generalizing t with
  | nil => simp [tracedVisitor.log, visitor.record]
  | cons c cs ihcs =>
    have h1 := ih c (List.mem_cons_self _ _) t
    have h2 := ihcs (fun c' hc' => ih c' (List.mem_cons_of_mem _ hc'))
      (WalkWith tracedVisitor.Visit t c)
    simp only [List.foldl_cons]
    rw [h2, h1, tracedVisitor.log_stack, tracedVisitor.log_log]
    simp

/-- The walk with the record: on return the record holds, appended in
pre-order, what each stack built during the walk contributes. -/
theorem WalkWith_traced (t : tracedVisitor) (node : Node) :
    WalkWith tracedVisitor.Visit t node = t.log (preorder t.v.stack node) := by
  generalize h : 2 * sizeOf node + node.bonus = k
  induction k using Nat.strong_induction_on generalizing node t with
  | _ k ih =>
    subst h
    have hcs := foldl_WalkWith_log (children node)
      (fun c hc t' => ih _ (children_rank_lt _ _ hc) t' c rfl)
    rw [WalkWith_eq, traced_Visit_some]
    simp only [Bool.true_eq_false, if_false, reduceIte]
    rw [hcs, tracedVisitor.log_log, tracedVisitor.log_stack]
    rw [traced_Visit_none_log]
    rw [preorder_eq _ node]
    rfl

/-- Without the record, the walk with the record is the walk. -/
theorem WalkWith_traced_v (t : tracedVisitor) (node : Node) :
    (WalkWith tracedVisitor.Visit t node).v = Walk t.v node := by
  rw [WalkWith_traced, Walk_spec]
  rfl

theorem flatMap_filterMap_congr {α β γ : Type} (cs : List α) (f : α → List β)
    (g : β → Option γ) (h : α → List γ) (hc : ∀ c ∈ cs, (f c).filterMap g = h c) :
    (cs.flatMap f).filterMap g = cs.flatMap h := by
  induction cs with
  | nil => rfl
  | cons c cs ih =>
    simp only [List.flatMap_cons, List.filterMap_append]
    rw [hc c (List.mem_cons_self _ _), ih (fun c' hc' => hc c' (List.mem_cons_of_mem _ hc'))]

theorem preorder_getLast (stack : List Node) (node : Node) :
    (preorder stack node).filterMap List.getLast? = nodesPreorder node := by
  generalize h : 2 * sizeOf node + node.bonus = k
  induction k using Nat.strong_induction_on generalizing node stack with
  | _ k ih =>
    subst h
    rw [preorder_eq, nodesPreorder_eq, List.filterMap_cons]
    simp only [List.getLast?_concat]
    rw [flatMap_filterMap_congr _ _ _ nodesPreorder
      (fun c hc => ih _ (children_rank_lt _ _ hc) _ c rfl)]

theorem preorder_path (stack : List Node) (node : Node) (st : List Node)
    (hst : st ∈ preorder stack node) :
    ∃ p, st = stack ++ node :: p ∧ List.Chain (fun a b => b ∈ children a) node p := by
  generalize h : 2 * sizeOf node + node.bonus = k at hst
  induction k using Nat.strong_induction_on generalizing node stack st with
  | _ k ih =>
    subst h
    rw [preorder_eq] at hst
    rcases List.mem_cons.mp hst with h0 | h1
    · exact ⟨[], by simpa using h0, List.Chain.nil⟩
    · rw [List.mem_flatMap] at h1
      obtain ⟨c, hc, hmem⟩ := h1
      obtain ⟨p, hp, hchain⟩ := ih _ (children_rank_lt _ _ hc) _ c st hmem rfl
      exact ⟨c :: p, by simpa using hp, List.Chain.cons hc hchain⟩

theorem callAt_some (st : List Node) (O : Ident) (stack : List Node)
    (h : callAt st = some (O, stack)) :
    stack = st ∧ st.getLast? = some (Node.expr (Expr.Ident O)) ∧ isRacyVarWrite O = true := by
  unfold callAt at h
  split at h
  · rename_i n hn
    split at h
    · rename_i hr
      simp only [Option.some.injEq, Prod.mk.injEq] at h
      obtain ⟨h1, h2⟩ := h
      subst h1
      exact ⟨h2.symm, hn, hr⟩
    · exact absurd h (by simp)
  · exact absurd h (by simp)

theorem traced_calls (fset : FileSet) (root : Node) :
    (WalkWith tracedVisitor.Visit (tracedVisitor.init fset) root).calls =
      (preorder [] root).filterMap callAt := by
  rw [WalkWith_traced]
  simp [tracedVisitor.log, tracedVisitor.init, visitor.init]

/-- C15: in the walk of any tree `root` from the empty stack, every call of
`isWritten` gets as its stack a path of the tree that starts with `root` and
ends with the identifier of the call: each entry after the first is a child of
the entry before it, so no node of a sibling subtree is on it. -/
theorem isWritten_called_on_path (fset : FileSet) (root : Node) (O : Ident)
    (stack : List Node)
    (h : (O, stack) ∈ (WalkWith tracedVisitor.Visit (tracedVisitor.init fset) root).calls) :
    isPathFrom root stack ∧ stack.getLast? = some (Node.expr (Expr.Ident O)) := by
  rw [traced_calls, List.mem_filterMap] at h
  obtain ⟨st, hst, hcall⟩ := h
  obtain ⟨h1, h2, _⟩ := callAt_some st O stack hcall
  subst h1
  obtain ⟨p, hp, hchain⟩ := preorder_path [] root stack hst
  exact ⟨⟨p, by simpa using hp, hchain⟩, h2⟩

theorem isWritten_called_on_path_witness :
    (⟨3, 5, "racyVar0"⟩,
        [Node.stmt (Stmt.AssignStmt 1 [Expr.Ident ⟨2, 1, "racyVar1"⟩] Token.ASSIGN
            [Expr.Ident ⟨3, 5, "racyVar0"⟩]),
          Node.expr (Expr.Ident ⟨3, 5, "racyVar0"⟩)]) ∈
      (WalkWith tracedVisitor.Visit (tracedVisitor.init twoWritesFset)
        (Node.stmt (Stmt.AssignStmt 1 [Expr.Ident ⟨2, 1, "racyVar1"⟩] Token.ASSIGN
            [Expr.Ident ⟨3, 5, "racyVar0"⟩]))).calls ∧
    isPathFrom
        (Node.stmt (Stmt.AssignStmt 1 [Expr.Ident ⟨2, 1, "racyVar1"⟩] Token.ASSIGN
            [Expr.Ident ⟨3, 5, "racyVar0"⟩]))
        [Node.stmt (Stmt.AssignStmt 1 [Expr.Ident ⟨2, 1, "racyVar1"⟩] Token.ASSIGN
            [Expr.Ident ⟨3, 5, "racyVar0"⟩]),
          Node.expr (Expr.Ident ⟨3, 5, "racyVar0"⟩)] ∧
      List.getLast?
        [Node.stmt (Stmt.AssignStmt 1 [Expr.Ident ⟨2, 1, "racyVar1"⟩] Token.ASSIGN
            [Expr.Ident ⟨3, 5, "racyVar0"⟩]),
          Node.expr (Expr.Ident ⟨3, 5, "racyVar0"⟩)] =
        some (Node.expr (Expr.Ident ⟨3, 5, "racyVar0"⟩)) :=
  have h : (⟨3, 5, "racyVar0"⟩,
        [Node.stmt (Stmt.AssignStmt 1 [Expr.Ident ⟨2, 1, "racyVar1"⟩] Token.ASSIGN
            [Expr.Ident ⟨3, 5, "racyVar0"⟩]),
          Node.expr (Expr.Ident ⟨3, 5, "racyVar0"⟩)]) ∈
      (WalkWith tracedVisitor.Visit (tracedVisitor.init twoWritesFset)
        (Node.stmt (Stmt.AssignStmt 1 [Expr.Ident ⟨2, 1, "racyVar1"⟩] Token.ASSIGN
            [Expr.Ident ⟨3, 5, "racyVar0"⟩]))).calls := by
    rw [traced_calls]
    have hp : HasPrefix_ "racyVar0" "racyVar" = true := by decide
    have hq : HasPrefix_ "racyVar1" "racyVar" = true := by decide
    simp [preorder_eq, children, Stmt.children, Expr.children, callAt, isRacyVarWrite, hp, hq]
  ⟨h, isWritten_called_on_path _ _ _ _ h⟩

/-- C16: in the walk of any tree `root`, the non-nil nodes `Visit` is entered
with are, in order, the pre-order listing of the nodes of `root`; `Visit`
returns a non-nil visitor on every call, whatever it has found; and the
visitor after the walk with the record is the visitor after `Walk`. -/
theorem Walk_enters_preorder (fset : FileSet) (root : Node) :
    (WalkWith tracedVisitor.Visit (tracedVisitor.init fset) root).entered =
        nodesPreorder root ∧
      (∀ (v : visitor) (node : Option Node), (v.Visit node).2 = true) ∧
      (∀ (t : tracedVisitor) (node : Option Node),
        (t.Visit node).2 = true ∧ (t.Visit node).1.v = (t.v.Visit node).1) ∧
      (WalkWith tracedVisitor.Visit (tracedVisitor.init fset) root).v =
        Walk (visitor.init fset) root := by
  refine ⟨?_, visitor.Visit_snd, fun t node => ⟨traced_Visit_snd t node, ?_⟩,
    WalkWith_traced_v _ _⟩
  · rw [WalkWith_traced]
    simp [tracedVisitor.log, tracedVisitor.init, preorder_getLast]
  · cases node with
    | none => rw [traced_Visit_none]
    | some n =>
      rw [traced_Visit_some, visitor.Visit_some]
      cases h : writeAt (t.v.stack ++ [n]) <;> simp [tracedVisitor.log, h]

/-! ## The failures of `AnalyzeFile` -/

/-- C17: when parsing fails with the error `err`, `AnalyzeFile` returns `err`
with a record that has `HasWrite` false, `LineNumber` 0, an empty
`LineContent` and the parse-failure message, whatever the file's content is
and whatever reading it would give. -/
theorem AnalyzeFile_parse_error (ParseFile : String → Except String (FileSet × File))
    (ReadFile : String → Except String String) (filename : String) (err : String)
    (hparse : ParseFile filename = .error err) :
    AnalyzeFile ParseFile ReadFile filename =
      some ({ File := filename, HasWrite := false, LineNumber := 0, LineContent := "",
              Error := "error parsing file: " ++ err }, some err) := by
  simp only [AnalyzeFile, hparse]

theorem AnalyzeFile_parse_error_witness :
    (fun _ => Except.error "expected declaration" :
        String → Except String (FileSet × File)) "w.go" = .error "expected declaration" ∧
    AnalyzeFile (fun _ => .error "expected declaration") (fun _ => .ok twoWritesText) "w.go" =
      some ({ File := "w.go", HasWrite := false, LineNumber := 0, LineContent := "",
              Error := "error parsing file: " ++ "expected declaration" },
            some "expected declaration") :=
  ⟨rfl, AnalyzeFile_parse_error _ _ "w.go" "expected declaration" rfl⟩

/-- C18: when the walk of a successfully parsed file classified a candidate as
written and reading the file back fails with the error `err`, `AnalyzeFile`
returns `err` with a record that has `HasWrite` true, as `LineNumber` the line
of the last write found, an empty `LineContent` and the read-failure
message. -/
theorem AnalyzeFile_read_error (ParseFile : String → Except String (FileSet × File))
    (ReadFile : String → Except String String) (filename : String) (fset : FileSet)
    (file : File) (err : String) (hparse : ParseFile filename = .ok (fset, file))
    (hne : writeOccurrences (Node.File file) ≠ [])
    (hread : ReadFile filename = .error err) :
    ∃ last, (writeOccurrences (Node.File file)).getLast? = some last ∧
      AnalyzeFile ParseFile ReadFile filename =
        some ({ File := filename, HasWrite := true, LineNumber := (fset last.1.NamePos).Line,
                LineContent := "", Error := "error reading file: " ++ err }, some err) := by
  obtain ⟨last, hlast⟩ : ∃ last, (writeOccurrences (Node.File file)).getLast? = some last := by
    cases h : (writeOccurrences (Node.File file)).getLast? with
    | none => exact absurd (List.getLast?_eq_none_iff.mp h) hne
    | some l => exact ⟨l, rfl⟩
  have hrw : (Walk (visitor.init fset) (Node.File file)).hasRacyWrite = true := by
    rw [Walk_init_hasRacyWrite]
    cases h : writeOccurrences (Node.File file) with
    | nil => exact absurd h hne
    | cons a l => rfl
  refine ⟨last, hlast, ?_⟩
  rw [AnalyzeFile_parsed ParseFile ReadFile filename fset file hparse]
  simp only [hrw, if_true, reduceIte, hread, Walk_init_writePos fset _ last hlast]

theorem AnalyzeFile_read_error_witness :
    (fun _ => Except.ok (twoWritesFset, twoWritesFile) :
        String → Except String (FileSet × File)) "w.go" = .ok (twoWritesFset, twoWritesFile) ∧
    writeOccurrences (Node.File twoWritesFile) ≠ [] ∧
    (fun _ => Except.error "permission denied" : String → Except String String) "w.go" =
      .error "permission denied" ∧
    ∃ last, (writeOccurrences (Node.File twoWritesFile)).getLast? = some last ∧
      AnalyzeFile (fun _ => .ok (twoWritesFset, twoWritesFile))
          (fun _ => .error "permission denied") "w.go" =
        some ({ File := "w.go", HasWrite := true,
                LineNumber := (twoWritesFset last.1.NamePos).Line,
                LineContent := "", Error := "error reading file: " ++ "permission denied" },
              some "permission denied") :=
  have hne : writeOccurrences (Node.File twoWritesFile) ≠ [] := by
    intro h
    have h2 := congrArg List.length twoWrites_writeOccurrences
    rw [h] at h2
    simp at h2
  ⟨rfl, hne, rfl,
    AnalyzeFile_read_error _ _ "w.go" twoWritesFset twoWritesFile "permission denied" rfl hne rfl⟩

/-! ## The debug output -/

/-- The function `debug`: what one call prints, by the value of the global
`debugMode`; `text` is the formatted message. -/
def debug (debugMode : Bool) (text : String) : List String :=
  if debugMode then [text] else []

/-- The function `isReadOnlyContext` with its calls of `debug`: the returned
value and what was printed.  `typeName` is the rendering of a node by the verb
`%T`. -/
def isReadOnlyContextDebug (debugMode : Bool) (typeName : Node → String) (node : Node)
    (child : Expr) : Bool × List String :=
  let out := debug debugMode ("Checking read-only context for " ++ typeName node ++ "\n")
  match node with
  | .expr (.SelectorExpr _ X _) => (sameExpr X child, out)
  | .expr (.IndexExpr _ _ Index) => (sameExpr Index child, out)
  | .expr (.SliceExpr _ _ Low High Max) =>
      (sameExprOpt Low child || sameExprOpt High child || sameExprOpt Max child, out)
  | .expr (.CallExpr c) =>
      if c.Args.any (fun arg => sameExpr arg child) then
        (true, out ++ debug debugMode "Found read in CallExpr\n")
      else (false, out)
  | .expr (.KeyValueExpr _ Key Value) => (sameExpr Key child || sameExpr Value child, out)
  | .expr (.TypeAssertExpr _ _ _) => (true, out)
  | .expr (.UnaryExpr _ _ X) => (sameExpr X child, out)
  | .expr (.BinaryExpr _ X _ Y) => (sameExpr X child || sameExpr Y child, out)
  | .stmt (.ReturnStmt _ Results) =>
      if Results.any (fun result => sameExpr result child) then
        (true, out ++ debug debugMode "Found read in ReturnStmt\n")
      else (false, out)
  | .stmt (.SendStmt _ Chan Value) => (sameExpr Chan child || sameExpr Value child, out)
  | .stmt (.CommClause _ _ _) => (true, out)
  | .spec (.TypeSpec _ _ _ _ _ _) => (true, out)
  | .expr (.StructType _ _) => (true, out)
  | .expr (.InterfaceType _ _) => (true, out)
  | .expr (.FuncType _) => (true, out)
  | .expr (.MapType _ _ _) => (true, out)
  | .expr (.ChanType _ _) => (true, out)
  | .expr (.ArrayType _ _ _) => (true, out)
  | .stmt (.BlockStmt _) => (true, out)
  | .stmt (.SwitchStmt _ _ _ _) => (true, out)
  | .stmt (.IfStmt _ _ _ _ _) => (true, out)
  | .stmt (.ForStmt _ _ _ _ _) => (true, out)
  | .stmt (.DeferStmt _ _) => (true, out)
  | .stmt (.GoStmt _ _) => (true, out)
  | .stmt (.SelectStmt _ _) => (true, out)
  | .stmt (.CaseClause _ _ _) => (true, out)
  | _ => (false, out)

/-- The function `isWriteContext` with its calls of `debug`: the returned value
and what was printed.  `tokName` is the rendering of a token by the verb
`%v`. -/
def isWriteContextDebug (debugMode : Bool) (typeName : Node → String)
    (tokName : Token → String) (node : Node) (child : Expr) : Bool × List String :=
  let out := debug debugMode ("Checking write context for " ++ typeName node ++ "\n")
  match node with
  | .stmt (.AssignStmt _ Lhs Tok _) =>
      let out := out ++ debug debugMode ("AssignStmt with token " ++ tokName Tok ++ "\n")
      if Tok ≠ Token.DEFINE then
        if Lhs.any (fun lhs => sameExpr lhs child) then
          (true, out ++ debug debugMode "Found write in AssignStmt\n")
        else (false, out)
      else (false, out)
  | .stmt (.IncDecStmt _ X _) => (sameExpr X child, out ++ debug debugMode "IncDecStmt\n")
  | .stmt (.RangeStmt _ Key Value Tok _ _) =>
      let out := out ++ debug debugMode ("RangeStmt with token " ++ tokName Tok ++ "\n")
      if Tok = Token.DEFINE ∨ Tok = Token.ASSIGN then
        if sameExprOpt Key child || sameExprOpt Value child then
          (true, out ++ debug debugMode "Found write in RangeStmt\n")
        else (false, out)
      else (false, out)
  | .decl (.FuncDecl _ _ _ _ Typ _) =>
      let out := out ++ debug debugMode "FuncDecl\n"
      match Typ.Results with
      | some results =>
          if results.List_.any
              (fun field => field.Names.any (fun name => sameIdent name child)) then
            (true, out ++ debug debugMode "Found write in FuncDecl\n")
          else (false, out)
      | none => (false, out)
  | _ => (false, out)

/-- The loop of `isWritten` with its calls of `debug`, run over the stack
entries from the top down. -/
def isWrittenLoopDebug (debugMode : Bool) (typeName : Node → String)
    (tokName : Token → String) (child : Expr) : List Node → Bool × List String
  | [] => (false, [])
  | parent :: rest =>
      let out := debug debugMode ("Parent type: " ++ typeName parent ++ "\n")
      let r := isReadOnlyContextDebug debugMode typeName parent child
      if r.1 then (false, out ++ r.2 ++ debug debugMode "Found read-only context\n")
      else
        let w := isWriteContextDebug debugMode typeName tokName parent child
        if w.1 then (true, out ++ r.2 ++ w.2 ++ debug debugMode "Found write context\n")
        else
          match parent with
          | .expr e =>
              let t := isWrittenLoopDebug debugMode typeName tokName e rest
              (t.1, out ++ r.2 ++ w.2 ++ t.2)
          | _ => (false, out ++ r.2 ++ w.2)

/-- The function `isWritten` with its calls of `debug`: the verdict and what
was printed. -/
def isWrittenDebug (debugMode : Bool) (typeName : Node → String) (tokName : Token → String)
    (ident : Ident) (stack : List Node) : Bool × List String :=
  let out := debug debugMode ("Checking if " ++ ident.Name ++ " is written\n")
  let r := isWrittenLoopDebug debugMode typeName tokName (Expr.Ident ident) stack.reverse
  (r.1, out ++ r.2)

theorem fst_ite_bool (c : Bool) (a b : List String) :
    (if c = true then (true, a) else (false, b)).1 = c := by
  cases c <;> rfl

theorem isReadOnlyContextDebug_fst (debugMode : Bool) (typeName : Node → String)
    (node : Node) (child : Expr) :
    (isReadOnlyContextDebug debugMode typeName node child).1 = isReadOnlyContext node child := by
  rcases node with e | s | sp | d | _ | _ | _ | _ | _ | _
  · cases e <;> simp only [isReadOnlyContextDebug, isReadOnlyContext, fst_ite_bool]
  · cases s <;> simp only [isReadOnlyContextDebug, isReadOnlyContext, fst_ite_bool]
  · cases sp <;> simp only [isReadOnlyContextDebug, isReadOnlyContext]
  · cases d <;> simp only [isReadOnlyContextDebug, isReadOnlyContext]
  all_goals simp only [isReadOnlyContextDebug, isReadOnlyContext]

theorem isWriteContextDebug_fst (debugMode : Bool) (typeName : Node → String)
    (tokName : Token → String) (node : Node) (child : Expr) :
    (isWriteContextDebug debugMode typeName tokName node child).1 =
      isWriteContext node child := by
  rcases node with e | s | sp | d | _ | _ | _ | _ | _ | _
  · cases e <;> simp only [isWriteContextDebug, isWriteContext]
  · cases s with
    | AssignStmt p Lhs Tok Rhs =>
      simp only [isWriteContextDebug, isWriteContext]
      split
      · exact fst_ite_bool _ _ _
      · rfl
    | RangeStmt p Key Value Tok X Body =>
      simp only [isWriteContextDebug, isWriteContext]
      split
      · exact fst_ite_bool _ _ _
      · rfl
    | _ => simp only [isWriteContextDebug, isWriteContext]
  · cases sp <;> simp only [isWriteContextDebug, isWriteContext]
  · cases d with
    | FuncDecl p Doc Recv Name Typ Body =>
      simp only [isWriteContextDebug, isWriteContext]
      cases Typ.Results with
      | none => rfl
      | some results => exact fst_ite_bool _ _ _
    | _ => simp only [isWriteContextDebug, isWriteContext]
  all_goals simp only [isWriteContextDebug, isWriteContext]

theorem isWrittenLoopDebug_fst (debugMode : Bool) (typeName : Node → String)
    (tokName : Token → String) (parents : List Node) (child : Expr) :
    (isWrittenLoopDebug debugMode typeName tokName child parents).1 =
      isWrittenLoop child parents := by
  induction parents generalizing child with
  | nil => rfl
  | cons parent rest ih =>
    unfold isWrittenLoopDebug isWrittenLoop
    simp only [isReadOnlyContextDebug_fst, isWriteContextDebug_fst]
    by_cases hr : isReadOnlyContext parent child = true
    · simp [hr]
    · by_cases hw : isWriteContext parent child = true
      · simp [hr, hw]
      · simp only [hr, hw, if_false, Bool.false_eq_true]
        cases parent <;> simp [ih]

theorem isReadOnlyContextDebug_snd (typeName : Node → String) (node : Node) (child : Expr) :
    (isReadOnlyContextDebug false typeName node child).2 = [] := by
  rcases node with e | s | sp | d | _ | _ | _ | _ | _ | _
  · cases e <;> simp [isReadOnlyContextDebug, debug, apply_ite Prod.snd]
  · cases s <;> simp [isReadOnlyContextDebug, debug, apply_ite Prod.snd]
  · cases sp <;> simp [isReadOnlyContextDebug, debug]
  · cases d <;> simp [isReadOnlyContextDebug, debug]
  all_goals simp [isReadOnlyContextDebug, debug]

theorem isWriteContextDebug_snd (typeName : Node → String) (tokName : Token → String)
    (node : Node) (child : Expr) :
    (isWriteContextDebug false typeName tokName node child).2 = [] := by
  rcases node with e | s | sp | d | _ | _ | _ | _ | _ | _
  · cases e <;> simp [isWriteContextDebug, debug]
  · cases s <;> simp [isWriteContextDebug, debug, apply_ite Prod.snd]
  · cases sp <;> simp [isWriteContextDebug, debug]
  · cases d with
    | FuncDecl p Doc Recv Name Typ Body =>
      cases h : Typ.Results <;> simp [isWriteContextDebug, debug, h, apply_ite Prod.snd]
    | _ => simp [isWriteContextDebug, debug]
  all_goals simp [isWriteContextDebug, debug]

theorem isWrittenLoopDebug_snd (typeName : Node → String) (tokName : Token → String)
    (parents : List Node) (child : Expr) :
    (isWrittenLoopDebug false typeName tokName child parents).2 = [] := by
  induction parents generalizing child with
  | nil => rfl
  | cons parent rest ih =>
    rw [isWrittenLoopDebug]
    simp only [isReadOnlyContextDebug_snd, isWriteContextDebug_snd, debug,
      Bool.false_eq_true, if_false, List.append_nil, List.nil_append]
    by_cases hr : (isReadOnlyContextDebug false typeName parent child).1 = true
    · simp [hr]
    · by_cases hw : (isWriteContextDebug false typeName tokName parent child).1 = true
      · simp [hr, hw]
      · simp only [hr, hw, if_false]
        cases parent <;> simp [ih]

/-- C20: the verdict of `isWritten` run with its `debug` calls is
`isWritten ident stack` for either value of `debugMode` and any rendering of
the messages, so it is a function of the identifier and the stack alone; with
`debugMode` off nothing is printed; and after the `Visit` that calls it the
visitor's stack is the stack before with the visited node appended. -/
theorem isWritten_pure :
    (∀ (debugMode : Bool) (typeName : Node → String) (tokName : Token → String)
        (ident : Ident) (stack : List Node),
        (isWrittenDebug debugMode typeName tokName ident stack).1 = isWritten ident stack) ∧
      (∀ (typeName : Node → String) (tokName : Token → String) (ident : Ident)
        (stack : List Node), (isWrittenDebug false typeName tokName ident stack).2 = []) ∧
      ∀ (v : visitor) (node : Node), (v.Visit (some node)).1.stack = v.stack ++ [node] := by
  refine ⟨fun debugMode typeName tokName ident stack => ?_,
    fun typeName tokName ident stack => ?_, fun v node => ?_⟩
  · simp [isWrittenDebug, isWritten, isWrittenLoopDebug_fst]
  · simp [isWrittenDebug, isWrittenLoopDebug_snd, debug]
  · rw [visitor.Visit_some, visitor.record_stack]

/-! ## `cmd/analyzer/main.go` -/

/-- What a run of the command leaves behind: the exit status, the result record
written to standard output by the final `fmt.Println` (the lines that the
analysis itself prints in debug mode are not part of it), the messages written
to standard error, and the value of the analyzer's `debugMode` at the end. -/
structure Process where
  exitCode : Nat
  printed : Option String
  stderr : List String
  debugMode : Bool
  deriving DecidableEq, Repr

/-- Go's `strconv.ParseBool`. -/
def ParseBool (str : String) : Option Bool :=
  if str = "1" ∨ str = "t" ∨ str = "T" ∨ str = "TRUE" ∨ str = "true" ∨ str = "True" then
    some true
  else if str = "0" ∨ str = "f" ∨ str = "F" ∨ str = "FALSE" ∨ str = "false" ∨ str = "False" then
    some false
  else none

/-- How `flag.Parse` ends for the command line of `main`: it returns, with the
values of `-debug` and `-i`, or, the error handling of `flag.CommandLine` being
`flag.ExitOnError`, it exits the process with `status` after writing `stderr`. -/
inductive FlagResult where
  | parsed (debug : Bool) (inputFile : String)
  | exit (status : Nat) (stderr : List String)
  deriving DecidableEq, Repr

/-- The name of a flag argument, given from its second character on, and its
value: the text is cut at its first `=`, if it has one (the loop
`for i := 1; i < len(name); i++` of `parseOne`). -/
def cutValue : List Char → List Char × Option (List Char)
  | [] => ([], none)
  | c :: cs =>
      if c = '=' then ([], some cs)
      else ((c :: (cutValue cs).1), (cutValue cs).2)

/-- What `parseOne` makes of the argument at the head of the arguments left:
the parsing is over (the argument is not a flag, or it is `--`), it fails,
with the exit status `Parse` takes and the text written to standard error, or
a flag is seen: `-debug` with its value, `-i` with the value behind `=`, or
`-i` whose value is the next argument. -/
inductive FlagStep where
  | done
  | failed (status : Nat) (stderr : List String)
  | debug (b : Bool)
  | input (v : String)
  | inputNext
  deriving DecidableEq, Repr

/-- The name of the flag argument `s` after its one or two dashes, as a list
of characters; `none` when `s` is not a flag (`len(s) < 2 || s[0] != '-'`) or
is `--`, which ends the flags. -/
def flagName (s : String) : Option (List Char) :=
  match s.toList with
  | [] => none
  | [_] => none
  | c0 :: c1 :: tl =>
      if c0 ≠ '-' then none
      else if c1 = '-' then (if tl = [] then none else some tl)
      else some (c1 :: tl)

/-- The function `parseOne` of `flag.FlagSet` on the argument `s`, for the two
flags that `main` defines, the boolean `debug` and the string `i`.  `usage` is
what `flag.Usage` prints and `quote` is the verb `%q`.  `-h` and `-help` print
the usage and give `flag.ErrHelp`, on which `Parse` exits with status 0; every
other error is printed with the usage and `Parse` exits with status 2. -/
def parseOne (usage : String) (quote : String → String) (s : String) : FlagStep :=
  match flagName s with
  | none => .done
  | some [] => .failed 2 ["bad flag syntax: " ++ s ++ "\n", usage]
  | some (n :: ntl) =>
      if n = '-' ∨ n = '=' then .failed 2 ["bad flag syntax: " ++ s ++ "\n", usage]
      else
        let name := String.mk (n :: (cutValue ntl).1)
        let value := (cutValue ntl).2
        if name = "debug" then
          match value with
          | some v =>
              match ParseBool (String.mk v) with
              | some b => .debug b
              | none =>
                  .failed 2 ["invalid boolean value " ++ quote (String.mk v) ++
                    " for -debug: parse error\n", usage]
          | none => .debug true
        else if name = "i" then
          match value with
          | some v => .input (String.mk v)
          | none => .inputNext
        else if name = "help" ∨ name = "h" then .failed 0 [usage]
        else .failed 2 ["flag provided but not defined: -" ++ name ++ "\n", usage]

/-- The loop of `(*flag.FlagSet).Parse` over the arguments, each round being
`parseOne`; `debug` and `inputFile` are the values of the two flags so far.
`pending` says that the argument before was the flag `-i` without `=`: its
value is the next argument, whatever it is, and the parsing fails when there is
none. -/
def FlagSet.Parse (usage : String) (quote : String → String) :
    List String → Bool → Bool → String → FlagResult
  | [], false, debug, inputFile => .parsed debug inputFile
  | [], true, _, _ => .exit 2 ["flag needs an argument: -i\n", usage]
  | s :: rest, true, debug, _ => FlagSet.Parse usage quote rest false debug s
  | s :: rest, false, debug, inputFile =>
      match parseOne usage quote s with
      | .done => .parsed debug inputFile
      | .failed status stderr => .exit status stderr
      | .debug b => FlagSet.Parse usage quote rest false b inputFile
      | .input v => FlagSet.Parse usage quote rest false debug v
      | .inputNext => FlagSet.Parse usage quote rest true debug inputFile

/-- The call `flag.Parse()` of `main`, after `flag.Bool("debug", false, ...)`
and `flag.String("i", "", ...)`, on the command-line arguments `args`
(`os.Args[1:]`). -/
def flag.Parse (usage : String) (quote : String → String) (args : List String) : FlagResult :=
  FlagSet.Parse usage quote args false false ""

/-- The function `main` on the command-line arguments `args`.  `usage` is what
`flag.Usage` prints, `quote` the verb `%q`, `MarshalIndent` stands for
`json.MarshalIndent(result, "", "  ")`; the result is `none` when `AnalyzeFile`
panics. -/
def main (args : List String) (usage : String) (quote : String → String)
    (ParseFile : String → Except String (FileSet × File))
    (ReadFile : String → Except String String)
    (MarshalIndent : AnalysisResult → Except String String) : Option Process :=
  match flag.Parse usage quote args with
  | .exit status stderr =>
      some { exitCode := status, printed := none, stderr := stderr, debugMode := false }
  | .parsed debug inputFile =>
      if inputFile = "" then
        some { exitCode := 1, printed := none,
               stderr := ["Error: Input file is required\n", usage], debugMode := false }
      else
        match AnalyzeFile ParseFile ReadFile inputFile with
        | none => none
        | some (_, some err) =>
            some { exitCode := 1, printed := none,
                   stderr := ["Error analyzing file: " ++ err ++ "\n"], debugMode := debug }
        | some (result, none) =>
            match MarshalIndent result with
            | .error err =>
                some { exitCode := 1, printed := none,
                       stderr := ["Error marshaling result: " ++ err ++ "\n"],
                       debugMode := debug }
            | .ok jsonData =>
                some { exitCode := 0, printed := some (jsonData ++ "\n"), stderr := [],
                       debugMode := debug }

theorem parseOne_failed (usage : String) (quote : String → String) (s : String)
    (status : Nat) (stderr : List String) (h : parseOne usage quote s = .failed status stderr) :
    status = 0 ∨ status = 2 := by
  unfold parseOne at h
  split at h
  · exact absurd h (by simp)
  · simp only [FlagStep.failed.injEq] at h
    exact Or.inr h.1.symm
  · split at h
    · simp only [FlagStep.failed.injEq] at h
      exact Or.inr h.1.symm
    · simp only at h
      split at h
      · split at h
        · split at h
          · exact absurd h (by simp)
          · simp only [FlagStep.failed.injEq] at h
            exact Or.inr h.1.symm
        · exact absurd h (by simp)
      · split at h
        · split at h <;> exact absurd h (by simp)
        · split at h
          · simp only [FlagStep.failed.injEq] at h
            exact Or.inl h.1.symm
          · simp only [FlagStep.failed.injEq] at h
            exact Or.inr h.1.symm

theorem FlagSet.Parse_exit (usage : String) (quote : String → String) (args : List String)
    (pending debug : Bool) (inputFile : String) (status : Nat) (stderr : List String)
    (h : FlagSet.Parse usage quote args pending debug inputFile = .exit status stderr) :
    status = 0 ∨ status = 2 := by
  induction args generalizing pending debug inputFile with
  | nil =>
    cases pending
    · simp [FlagSet.Parse] at h
    · simp only [FlagSet.Parse, FlagResult.exit.injEq] at h
      exact Or.inr h.1.symm
  | cons s rest ih =>
    cases pending
    · unfold FlagSet.Parse at h
      split at h
      · exact absurd h (by simp)
      · rename_i hstep
        simp only [FlagResult.exit.injEq] at h
        obtain ⟨h1, h2⟩ := h
        subst h1 h2
        exact parseOne_failed usage quote s _ _ hstep
      · exact ih _ _ _ h
      · exact ih _ _ _ h
      · exact ih _ _ _ h
    · unfold FlagSet.Parse at h
      exact ih _ _ _ h

/-- C21, counterexample: with the only argument `-h` the input path is missing,
yet `flag.Parse` prints the usage and exits with status 0; with the only
argument `-i` the input path is missing as well and `flag.Parse` exits with
status 2; in neither case does `main` reach its own test of the input path. -/
theorem main_flag_exit :
    main ["-h"] "usage" (fun s => s) (fun _ => .error "expected declaration")
        (fun _ => .ok twoWritesText) (fun _ => .ok "record") =
      some { exitCode := 0, printed := none, stderr := ["usage"], debugMode := false } ∧
    main ["-i"] "usage" (fun s => s) (fun _ => .error "expected declaration")
        (fun _ => .ok twoWritesText) (fun _ => .ok "record") =
      some { exitCode := 2, printed := none,
             stderr := ["flag needs an argument: -i\n", "usage"], debugMode := false } := by
  refine ⟨by decide, by decide⟩

/-- C21, amended: when `flag.Parse` returns with an empty input path (no `-i`
among the arguments, or an empty value), `main` exits with status 1 and prints
no record, whatever `-debug` is and whatever parsing or reading the file would
give (the analysis is not consulted and `debugMode` is not set); when
`flag.Parse` returns with a non-empty path for which `AnalyzeFile` returns an
error, `main` exits with status 1 and prints no record; and when `flag.Parse`
does not return, `main` exits with its status, 0 after `-h` or `-help` and 2
after an error in the flags, and prints no record. -/
theorem main_exit_status (args : List String) (usage : String) (quote : String → String)
    (ParseFile : String → Except String (FileSet × File))
    (ReadFile : String → Except String String)
    (MarshalIndent : AnalysisResult → Except String String) :
    (∀ debug, flag.Parse usage quote args = .parsed debug "" →
        main args usage quote ParseFile ReadFile MarshalIndent =
          some { exitCode := 1, printed := none,
                 stderr := ["Error: Input file is required\n", usage], debugMode := false }) ∧
      (∀ debug inputFile result err, flag.Parse usage quote args = .parsed debug inputFile →
        inputFile ≠ "" →
        AnalyzeFile ParseFile ReadFile inputFile = some (result, some err) →
        main args usage quote ParseFile ReadFile MarshalIndent =
          some { exitCode := 1, printed := none,
                 stderr := ["Error analyzing file: " ++ err ++ "\n"], debugMode := debug }) ∧
      (∀ status stderr, flag.Parse usage quote args = .exit status stderr →
        (status = 0 ∨ status = 2) ∧
        main args usage quote ParseFile ReadFile MarshalIndent =
          some { exitCode := status, printed := none, stderr := stderr,
                 debugMode := false }) := by
  refine ⟨fun debug h => ?_, fun debug inputFile result err h hin herr => ?_,
    fun status stderr h => ⟨?_, ?_⟩⟩
  · simp [main, h]
  · simp [main, h, hin, herr]
  · exact FlagSet.Parse_exit usage quote args false false "" status stderr h
  · simp [main, h]

theorem main_exit_status_witness :
    flag.Parse "usage" (fun s => s) [] = .parsed false "" ∧
    flag.Parse "usage" (fun s => s) ["-debug"] = .parsed true "" ∧
    flag.Parse "usage" (fun s => s) ["-debug", "-i", ""] = .parsed true "" ∧
    flag.Parse "usage" (fun s => s) ["-debug", "-i", "w.go"] = .parsed true "w.go" ∧
    flag.Parse "usage" (fun s => s) ["--help"] = .exit 0 ["usage"] ∧
    main [] "usage" (fun s => s) (fun _ => .error "expected declaration")
        (fun _ => .ok twoWritesText) (fun _ => .ok "record") =
      some { exitCode := 1, printed := none,
             stderr := ["Error: Input file is required\n", "usage"], debugMode := false } ∧
    main ["-debug"] "usage" (fun s => s) (fun _ => .error "expected declaration")
        (fun _ => .ok twoWritesText) (fun _ => .ok "record") =
      some { exitCode := 1, printed := none,
             stderr := ["Error: Input file is required\n", "usage"], debugMode := false } ∧
    main ["-debug", "-i", ""] "usage" (fun s => s) (fun _ => .error "expected declaration")
        (fun _ => .ok twoWritesText) (fun _ => .ok "record") =
      some { exitCode := 1, printed := none,
             stderr := ["Error: Input file is required\n", "usage"], debugMode := false } ∧
    main ["-debug", "-i", "w.go"] "usage" (fun s => s) (fun _ => .error "expected declaration")
        (fun _ => .ok twoWritesText) (fun _ => .ok "record") =
      some { exitCode := 1, printed := none,
             stderr := ["Error analyzing file: " ++ "expected declaration" ++ "\n"],
             debugMode := true } ∧
    ((0 = 0 ∨ 0 = 2) ∧
      main ["--help"] "usage" (fun s => s) (fun _ => .error "expected declaration")
          (fun _ => .ok twoWritesText) (fun _ => .ok "record") =
        some { exitCode := 0, printed := none, stderr := ["usage"], debugMode := false }) :=
  ⟨by decide, by decide, by decide, by decide, by decide,
    (main_exit_status [] "usage" (fun s => s) (fun _ => .error "expected declaration")
      (fun _ => .ok twoWritesText) (fun _ => .ok "record")).1 false (by decide),
    (main_exit_status ["-debug"] "usage" (fun s => s) (fun _ => .error "expected declaration")
      (fun _ => .ok twoWritesText) (fun _ => .ok "record")).1 true (by decide),
    (main_exit_status ["-debug", "-i", ""] "usage" (fun s => s)
      (fun _ => .error "expected declaration")
      (fun _ => .ok twoWritesText) (fun _ => .ok "record")).1 true (by decide),
    (main_exit_status ["-debug", "-i", "w.go"] "usage" (fun s => s)
      (fun _ => .error "expected declaration")
      (fun _ => .ok twoWritesText) (fun _ => .ok "record")).2.1 true "w.go" _
      "expected declaration" (by decide) (by decide) rfl,
    (main_exit_status ["--help"] "usage" (fun s => s) (fun _ => .error "expected declaration")
      (fun _ => .ok twoWritesText) (fun _ => .ok "record")).2.2 0 ["usage"] (by decide)⟩

/-! ## The three-valued algorithm -/

/-- The classification verdict of the specification. -/
inductive Verdict where
  | Write
  | ReadOnly
  | Indeterminate
  deriving DecidableEq, Repr

/-- Step 2 and step 3 of the specification's algorithm, over the ancestors from
the innermost outward: ReadOnly at the first ancestor where a read-only rule
fires, else Write where a write rule fires, else climb with `child := A`
through an expression ancestor, else Indeterminate; Indeterminate when the
ancestors are exhausted. -/
def classifyFrom (child : Expr) : List Node → Verdict
  | [] => Verdict.Indeterminate
  | A :: outer =>
      if isReadOnlyContext A child then Verdict.ReadOnly
      else if isWriteContext A child then Verdict.Write
      else
        match A with
        | .expr e => classifyFrom e outer
        | _ => Verdict.Indeterminate

/-- The specification's algorithm on a stack whose top entry is the occurrence:
step 1 starts with `child := O` and skips the top entry. -/
def classify (O : Ident) (stack : List Node) : Verdict :=
  classifyFrom (Expr.Ident O) stack.reverse.tail

theorem classifyFrom_write (child : Expr) (ancestors : List Node) :
    isWrittenLoop child ancestors = true ↔ classifyFrom child ancestors = Verdict.Write := by
  induction ancestors generalizing child with
  | nil => simp [isWrittenLoop, classifyFrom]
  | cons A outer ih =>
    unfold isWrittenLoop classifyFrom
    by_cases hr : isReadOnlyContext A child = true
    · simp [hr]
    · by_cases hw : isWriteContext A child = true
      · simp [hr, hw]
      · simp only [hr, hw, if_false, Bool.false_eq_true]
        cases A <;> simp [ih]

/-- C22: for every identifier and stack, `isWritten` is true exactly when the
three-valued algorithm run over all stack entries from the top yields Write,
and false exactly when it yields ReadOnly or Indeterminate; and on a stack
whose top entry is the occurrence, `isWritten` is true exactly when the
algorithm that skips the top entry yields Write. -/
theorem isWritten_refines_classify (O : Ident) (stack : List Node) :
    (isWritten O stack = true ↔ classifyFrom (Expr.Ident O) stack.reverse = Verdict.Write) ∧
      (isWritten O stack = false ↔
        (classifyFrom (Expr.Ident O) stack.reverse = Verdict.ReadOnly ∨
          classifyFrom (Expr.Ident O) stack.reverse = Verdict.Indeterminate)) ∧
      (isWritten O (stack ++ [Node.expr (Expr.Ident O)]) = true ↔
        classify O (stack ++ [Node.expr (Expr.Ident O)]) = Verdict.Write) := by
  have h1 := classifyFrom_write (Expr.Ident O) stack.reverse
  refine ⟨h1, ?_, ?_⟩
  · unfold isWritten
    cases hv : classifyFrom (Expr.Ident O) stack.reverse
    · simp [h1.mpr hv]
    · have : isWrittenLoop (Expr.Ident O) stack.reverse ≠ true := by
        intro h
        rw [h1.mp h] at hv
        exact absurd hv (by decide)
      simpa using this
    · have : isWrittenLoop (Expr.Ident O) stack.reverse ≠ true := by
        intro h
        rw [h1.mp h] at hv
        exact absurd hv (by decide)
      simpa using this
  · rw [isWritten_snoc_ident]
    simpa [classify] using h1

/-- C23: for every identifier `O` and stack `s`, `isWritten` on `s` with the
node `O` pushed on top returns what `isWritten` returns on `s`. -/
theorem isWritten_skips_occurrence (O : Ident) (s : List Node) :
    isWritten O (s ++ [Node.expr (Expr.Ident O)]) = isWritten O s := by
  rw [isWritten_snoc_ident]
  rfl

/-! ## Parentheses -/

/-- The expression `e` wrapped in parentheses, one `ast.ParenExpr` per address
in `ps`, the first address being the innermost parenthesis. -/
def parenOuter : List Nat → Expr → Expr
  | [], e => e
  | p :: ps, e => parenOuter ps (Expr.ParenExpr p e)

/-- The parentheses around `e`, from the innermost to the outermost. -/
def parenNodes : List Nat → Expr → List Node
  | [], _ => []
  | p :: ps, e => Node.expr (Expr.ParenExpr p e) :: parenNodes ps (Expr.ParenExpr p e)

theorem isWrittenLoop_paren (ps : List Nat) (e : Expr) (rest : List Node) :
    isWrittenLoop e (parenNodes ps e ++ rest) = isWrittenLoop (parenOuter ps e) rest := by
  induction ps generalizing e with
  | nil => rfl
  | cons p ps ih =>
    simp only [parenNodes, parenOuter, List.cons_append]
    rw [← ih]
    simp [isWrittenLoop, isReadOnlyContext, isWriteContext]

theorem isReadOnlyContext_ptr (A : Node) (c d : Expr) (h : c.ptr = d.ptr) :
    isReadOnlyContext A c = isReadOnlyContext A d := by
  rcases A with e | s | sp | dd | _ | _ | _ | _ | _ | _
  · cases e <;> simp [isReadOnlyContext, sameExpr, sameExprOpt, h]
  · cases s <;> simp [isReadOnlyContext, sameExpr, sameExprOpt, h]
  · cases sp <;> simp [isReadOnlyContext]
  · cases dd <;> simp [isReadOnlyContext]
  all_goals simp [isReadOnlyContext]

theorem isWriteContext_ptr (A : Node) (c d : Expr) (h : c.ptr = d.ptr) :
    isWriteContext A c = isWriteContext A d := by
  rcases A with e | s | sp | dd | _ | _ | _ | _ | _ | _
  · cases e <;> simp [isWriteContext]
  · cases s <;> simp [isWriteContext, sameExpr, sameExprOpt, h]
  · cases sp <;> simp [isWriteContext]
  · cases dd <;> simp [isWriteContext, sameIdent, h]
  all_goals simp [isWriteContext]

/-- The loop looks at its first `child` only through its address. -/
theorem isWrittenLoop_ptr (c d : Expr) (h : c.ptr = d.ptr) (ancestors : List Node) :
    isWrittenLoop c ancestors = isWrittenLoop d ancestors := by
  cases ancestors with
  | nil => rfl
  | cons A outer =>
    unfold isWrittenLoop
    rw [isReadOnlyContext_ptr A c d h, isWriteContext_ptr A c d h]

/-- C24: an identifier `O` inside any number of nested parentheses gets the
verdict that an identifier standing where the outermost parenthesis stands
(at its address) gets; in particular `((O)) = v` with a token other than `:=`
and `(O)++` give true, and `(O).f = v` gives false. -/
theorem isWritten_paren_transparent (O B : Ident) (ps : List Nat) (pre : List Node)
    (a p q s : Nat) (f : Ident) (Tok Op : Token) (Rhs : List Expr)
    (hB : B.ptr = (parenOuter ps (Expr.Ident O)).ptr) (hTok : Tok ≠ Token.DEFINE) :
    isWritten O (pre ++ (parenNodes ps (Expr.Ident O)).reverse ++ [Node.expr (Expr.Ident O)]) =
        isWritten B (pre ++ [Node.expr (Expr.Ident B)]) ∧
      isWritten O (pre ++ [Node.stmt (Stmt.AssignStmt a
          [parenOuter [p, q] (Expr.Ident O)] Tok Rhs)] ++
        (parenNodes [p, q] (Expr.Ident O)).reverse ++ [Node.expr (Expr.Ident O)]) = true ∧
      isWritten O (pre ++ [Node.stmt (Stmt.IncDecStmt a (parenOuter [p] (Expr.Ident O)) Op)] ++
        (parenNodes [p] (Expr.Ident O)).reverse ++ [Node.expr (Expr.Ident O)]) = true ∧
      isWritten O (pre ++ [Node.stmt (Stmt.AssignStmt a
          [Expr.SelectorExpr s (parenOuter [p] (Expr.Ident O)) f] Tok Rhs),
          Node.expr (Expr.SelectorExpr s (parenOuter [p] (Expr.Ident O)) f)] ++
        (parenNodes [p] (Expr.Ident O)).reverse ++ [Node.expr (Expr.Ident O)]) = false := by
  refine ⟨?_, ?_, ?_, ?_⟩
  · rw [isWritten_snoc_ident, isWritten_snoc_ident]
    simp only [List.reverse_append, List.reverse_reverse]
    rw [isWrittenLoop_paren]
    exact isWrittenLoop_ptr _ (Expr.Ident B) hB.symm _
  · rw [isWritten_snoc_ident]
    simp only [List.reverse_append, List.reverse_reverse]
    rw [isWrittenLoop_paren]
    simp [isWrittenLoop, isReadOnlyContext, isWriteContext, hTok, sameExpr]
  · rw [isWritten_snoc_ident]
    simp only [List.reverse_append, List.reverse_reverse]
    rw [isWrittenLoop_paren]
    simp [isWrittenLoop, isReadOnlyContext, isWriteContext, sameExpr]
  · rw [isWritten_snoc_ident]
    simp only [List.reverse_append, List.reverse_reverse]
    rw [isWrittenLoop_paren]
    simp [isWrittenLoop, isReadOnlyContext, sameExpr]

/-- The identifier `racyVar0` of `((racyVar0))`. -/
def parenIdent : Ident := ⟨1, 12, "racyVar0"⟩

theorem isWritten_paren_transparent_witness :
    (⟨3, 10, "racyVar0"⟩ : Ident).ptr = (parenOuter [2, 3] (Expr.Ident parenIdent)).ptr ∧
    Token.ASSIGN ≠ Token.DEFINE ∧
    isWritten parenIdent ([] ++ (parenNodes [2, 3] (Expr.Ident parenIdent)).reverse ++
        [Node.expr (Expr.Ident parenIdent)]) =
      isWritten ⟨3, 10, "racyVar0"⟩ ([] ++ [Node.expr (Expr.Ident ⟨3, 10, "racyVar0"⟩)]) ∧
    isWritten parenIdent ([] ++ [Node.stmt (Stmt.AssignStmt 7
        [parenOuter [2, 3] (Expr.Ident parenIdent)] Token.ASSIGN
        [Expr.BasicLit ⟨6, Token.INT, "1"⟩])] ++
      (parenNodes [2, 3] (Expr.Ident parenIdent)).reverse ++
        [Node.expr (Expr.Ident parenIdent)]) = true ∧
    isWritten parenIdent ([] ++ [Node.stmt (Stmt.IncDecStmt 7
        (parenOuter [2] (Expr.Ident parenIdent)) Token.INC)] ++
      (parenNodes [2] (Expr.Ident parenIdent)).reverse ++
        [Node.expr (Expr.Ident parenIdent)]) = true ∧
    isWritten parenIdent ([] ++ [Node.stmt (Stmt.AssignStmt 7
        [Expr.SelectorExpr 8 (parenOuter [2] (Expr.Ident parenIdent)) ⟨9, 20, "f"⟩] Token.ASSIGN
        [Expr.BasicLit ⟨6, Token.INT, "1"⟩]),
        Node.expr (Expr.SelectorExpr 8 (parenOuter [2] (Expr.Ident parenIdent)) ⟨9, 20, "f"⟩)] ++
      (parenNodes [2] (Expr.Ident parenIdent)).reverse ++
        [Node.expr (Expr.Ident parenIdent)]) = false :=
  ⟨rfl, by decide,
    isWritten_paren_transparent parenIdent ⟨3, 10, "racyVar0"⟩ [2, 3] [] 7 2 3 8 ⟨9, 20, "f"⟩
      Token.ASSIGN Token.INC [Expr.BasicLit ⟨6, Token.INT, "1"⟩] rfl (by decide)⟩

/-! ## Selectors, index and slice expressions under a write -/

theorem isWriteContext_expr (e c : Expr) : isWriteContext (Node.expr e) c = false := by
  cases e <;> simp [isWriteContext]

/-- The loop climbs through an expression `mid` that has no read-only rule for
`child` and stops with true at an assignment, other than `:=`, that has `mid`
among its targets. -/
theorem isWrittenLoop_climb_assign (child mid : Expr) (a : Nat) (Lhs Rhs : List Expr)
    (Tok : Token) (rest : List Node)
    (hro : isReadOnlyContext (Node.expr mid) child = false) (hTok : Tok ≠ Token.DEFINE)
    (hl : ∃ l ∈ Lhs, l.ptr = mid.ptr) :
    isWrittenLoop child (Node.expr mid :: Node.stmt (Stmt.AssignStmt a Lhs Tok Rhs) :: rest) =
      true := by
  have hw : isWriteContext (Node.stmt (Stmt.AssignStmt a Lhs Tok Rhs)) mid = true := by
    simp only [isWriteContext, hTok, ne_eq, not_false_eq_true, if_true]
    rw [List.any_eq_true]
    obtain ⟨l, hl, hp⟩ := hl
    exact ⟨l, hl, by simp [sameExpr, hp]⟩
  have hr : isReadOnlyContext (Node.stmt (Stmt.AssignStmt a Lhs Tok Rhs)) mid = false := rfl
  simp [isWrittenLoop, hro, isWriteContext_expr, hw, hr]

/-- C25: for every selector `x.O` whose selected name is the node `O` (its base
`X` is another node), `isWritten` on `pre ++ [stmt, selector, O]` is true when
the selector is a target of an assignment with a token other than `:=` and when
it is the operand of an increment or decrement, and `isWritten` on
`pre ++ [binary, selector, O]` is false when the selector is the left or the
right operand of the binary expression. -/
theorem isWritten_selector_member (pre : List Node) (a s b : Nat) (X Y : Expr) (O : Ident)
    (Lhs Rhs : List Expr) (Tok Op BinOp : Token) (hX : X.ptr ≠ O.ptr)
    (hTok : Tok ≠ Token.DEFINE) (hl : ∃ l ∈ Lhs, l.ptr = s) :
    isWritten O (pre ++ [Node.stmt (Stmt.AssignStmt a Lhs Tok Rhs),
        Node.expr (Expr.SelectorExpr s X O), Node.expr (Expr.Ident O)]) = true ∧
      isWritten O (pre ++ [Node.stmt (Stmt.IncDecStmt a (Expr.SelectorExpr s X O) Op),
        Node.expr (Expr.SelectorExpr s X O), Node.expr (Expr.Ident O)]) = true ∧
      isWritten O (pre ++ [Node.expr (Expr.BinaryExpr b (Expr.SelectorExpr s X O) BinOp Y),
        Node.expr (Expr.SelectorExpr s X O), Node.expr (Expr.Ident O)]) = false ∧
      isWritten O (pre ++ [Node.expr (Expr.BinaryExpr b Y BinOp (Expr.SelectorExpr s X O)),
        Node.expr (Expr.SelectorExpr s X O), Node.expr (Expr.Ident O)]) = false := by
  have hro : isReadOnlyContext (Node.expr (Expr.SelectorExpr s X O)) (Expr.Ident O) = false := by
    simp [isReadOnlyContext, sameExpr, ptr_Ident, hX]
  refine ⟨?_, ?_, ?_, ?_⟩
  · rw [isWritten_snoc_snoc_snoc]
    exact isWrittenLoop_climb_assign _ _ a Lhs Rhs Tok _ hro hTok hl
  · rw [isWritten_snoc_snoc_snoc]
    simp [isWrittenLoop, isWriteContext_expr, isReadOnlyContext, isWriteContext, sameExpr,
      ptr_Ident, hX]
  · rw [isWritten_snoc_snoc_snoc]
    simp [isWrittenLoop, isWriteContext_expr, isReadOnlyContext, sameExpr, ptr_Ident, hX]
  · rw [isWritten_snoc_snoc_snoc]
    simp [isWrittenLoop, isWriteContext_expr, isReadOnlyContext, sameExpr, ptr_Ident, hX]

/-- The identifier `racyVar0` of `v0.racyVar0`. -/
def memberIdent : Ident := ⟨1, 13, "racyVar0"⟩

/-- The selector `v0.racyVar0`. -/
def memberSelector : Expr := Expr.SelectorExpr 2 (Expr.Ident ⟨3, 10, "v0"⟩) memberIdent

theorem isWritten_selector_member_witness :
    (Expr.Ident ⟨3, 10, "v0"⟩).ptr ≠ memberIdent.ptr ∧
    Token.ASSIGN ≠ Token.DEFINE ∧
    (∃ l ∈ [memberSelector], l.ptr = 2) ∧
    isWritten memberIdent ([] ++ [Node.stmt (Stmt.AssignStmt 4 [memberSelector] Token.ASSIGN
          [Expr.Ident ⟨6, 24, "nil"⟩]),
        Node.expr memberSelector, Node.expr (Expr.Ident memberIdent)]) = true ∧
    isWritten memberIdent ([] ++ [Node.stmt (Stmt.IncDecStmt 4 memberSelector Token.INC),
        Node.expr memberSelector, Node.expr (Expr.Ident memberIdent)]) = true ∧
    isWritten memberIdent ([] ++ [Node.expr (Expr.BinaryExpr 5 memberSelector Token.NEQ
          (Expr.Ident ⟨6, 24, "nil"⟩)),
        Node.expr memberSelector, Node.expr (Expr.Ident memberIdent)]) = false ∧
    isWritten memberIdent ([] ++ [Node.expr (Expr.BinaryExpr 5 (Expr.Ident ⟨6, 24, "nil"⟩)
          Token.NEQ memberSelector),
        Node.expr memberSelector, Node.expr (Expr.Ident memberIdent)]) = false :=
  ⟨by decide, by decide, ⟨memberSelector, List.mem_cons_self _ _, rfl⟩,
    isWritten_selector_member [] 4 2 5 (Expr.Ident ⟨3, 10, "v0"⟩) (Expr.Ident ⟨6, 24, "nil"⟩)
      memberIdent [memberSelector] [Expr.Ident ⟨6, 24, "nil"⟩] Token.ASSIGN Token.INC Token.NEQ
      (by decide) (by decide) ⟨memberSelector, List.mem_cons_self _ _, rfl⟩⟩

/-- C26: under an assignment with a token other than `:=` that has the index
expression (the slice expression) among its targets, `isWritten` is true for
the node `O` when `O` is not the index (not one of the bounds), that is when it
is the indexed (sliced) operand, and false when `O` is the index (one of the
bounds low, high, max). -/
theorem isWritten_index_slice (pre : List Node) (a x y : Nat) (O : Ident)
    (X Index Y : Expr) (Low High Max : Option Expr) (Lhs Rhs : List Expr) (Tok : Token)
    (hTok : Tok ≠ Token.DEFINE) (hx : ∃ l ∈ Lhs, l.ptr = x) (hy : ∃ l ∈ Lhs, l.ptr = y) :
    (Index.ptr ≠ O.ptr →
        isWritten O (pre ++ [Node.stmt (Stmt.AssignStmt a Lhs Tok Rhs),
          Node.expr (Expr.IndexExpr x X Index), Node.expr (Expr.Ident O)]) = true) ∧
      (Index.ptr = O.ptr →
        isWritten O (pre ++ [Node.stmt (Stmt.AssignStmt a Lhs Tok Rhs),
          Node.expr (Expr.IndexExpr x X Index), Node.expr (Expr.Ident O)]) = false) ∧
      ((∀ e, (Low = some e ∨ High = some e ∨ Max = some e) → e.ptr ≠ O.ptr) →
        isWritten O (pre ++ [Node.stmt (Stmt.AssignStmt a Lhs Tok Rhs),
          Node.expr (Expr.SliceExpr y Y Low High Max), Node.expr (Expr.Ident O)]) = true) ∧
      ((∃ e, (Low = some e ∨ High = some e ∨ Max = some e) ∧ e.ptr = O.ptr) →
        isWritten O (pre ++ [Node.stmt (Stmt.AssignStmt a Lhs Tok Rhs),
          Node.expr (Expr.SliceExpr y Y Low High Max), Node.expr (Expr.Ident O)]) = false) := by
  refine ⟨fun hI => ?_, fun hI => ?_, fun hB => ?_, fun hB => ?_⟩
  · rw [isWritten_snoc_snoc_snoc]
    refine isWrittenLoop_climb_assign _ _ a Lhs Rhs Tok _ ?_ hTok hx
    simp [isReadOnlyContext, sameExpr, ptr_Ident, hI]
  · rw [isWritten_snoc_snoc_snoc]
    simp [isWrittenLoop, isReadOnlyContext, sameExpr, ptr_Ident, hI]
  · rw [isWritten_snoc_snoc_snoc]
    refine isWrittenLoop_climb_assign _ _ a Lhs Rhs Tok _ ?_ hTok hy
    have hL : sameExprOpt Low (Expr.Ident O) = false := by
      cases h : Low with
      | none => rfl
      | some e => simpa [sameExprOpt, sameExpr, ptr_Ident] using hB e (Or.inl h)
    have hH : sameExprOpt High (Expr.Ident O) = false := by
      cases h : High with
      | none => rfl
      | some e => simpa [sameExprOpt, sameExpr, ptr_Ident] using hB e (Or.inr (Or.inl h))
    have hM : sameExprOpt Max (Expr.Ident O) = false := by
      cases h : Max with
      | none => rfl
      | some e => simpa [sameExprOpt, sameExpr, ptr_Ident] using hB e (Or.inr (Or.inr h))
    simp only [isReadOnlyContext, hL, hH, hM, Bool.or_self]
  · rw [isWritten_snoc_snoc_snoc]
    have hro : isReadOnlyContext (Node.expr (Expr.SliceExpr y Y Low High Max))
        (Expr.Ident O) = true := by
      obtain ⟨e, he, hp⟩ := hB
      rcases he with h | h | h <;>
        simp [isReadOnlyContext, sameExpr, sameExprOpt, ptr_Ident, h, hp]
    simp [isWrittenLoop, hro]

/-- The identifier `racyVar0` of `racyVar0[i]` and `racyVar0[i:]`. -/
def indexedIdent : Ident := ⟨1, 10, "racyVar0"⟩

/-- The index expression `racyVar0[i]`. -/
def indexedExpr : Expr := Expr.IndexExpr 2 (Expr.Ident indexedIdent) (Expr.Ident ⟨3, 19, "i"⟩)

/-- The slice expression `racyVar0[i:]`. -/
def slicedExpr : Expr :=
  Expr.SliceExpr 5 (Expr.Ident indexedIdent) (some (Expr.Ident ⟨3, 19, "i"⟩)) none none

theorem isWritten_index_slice_witness :
    Token.ASSIGN ≠ Token.DEFINE ∧
    (∃ l ∈ [indexedExpr, slicedExpr], l.ptr = 2) ∧
    (∃ l ∈ [indexedExpr, slicedExpr], l.ptr = 5) ∧
    isWritten indexedIdent ([] ++ [Node.stmt (Stmt.AssignStmt 4 [indexedExpr, slicedExpr]
          Token.ASSIGN []),
        Node.expr (Expr.IndexExpr 2 (Expr.Ident indexedIdent) (Expr.Ident ⟨3, 19, "i"⟩)),
        Node.expr (Expr.Ident indexedIdent)]) = true ∧
    isWritten indexedIdent ([] ++ [Node.stmt (Stmt.AssignStmt 4 [indexedExpr, slicedExpr]
          Token.ASSIGN []),
        Node.expr (Expr.SliceExpr 5 (Expr.Ident indexedIdent)
          (some (Expr.Ident ⟨3, 19, "i"⟩)) none none),
        Node.expr (Expr.Ident indexedIdent)]) = true :=
  have hx : ∃ l ∈ [indexedExpr, slicedExpr], l.ptr = 2 :=
    ⟨indexedExpr, List.mem_cons_self _ _, rfl⟩
  have hy : ∃ l ∈ [indexedExpr, slicedExpr], l.ptr = 5 :=
    ⟨slicedExpr, List.mem_cons_of_mem _ (List.mem_cons_self _ _), rfl⟩
  have h := isWritten_index_slice [] 4 2 5 indexedIdent (Expr.Ident indexedIdent)
    (Expr.Ident ⟨3, 19, "i"⟩) (Expr.Ident indexedIdent) (some (Expr.Ident ⟨3, 19, "i"⟩))
    none none [indexedExpr, slicedExpr] [] Token.ASSIGN (by decide) hx hy
  ⟨by decide, hx, hy, h.1 (by decide), h.2.2.1 (by
      intro e he
      rcases he with he | he | he
      · cases he
        decide
      · cases he
      · cases he)⟩

/-! ## Locality -/

/-- The type assertion `parent.(ast.Expr)`: whether the node is an
expression. -/
def Node.isExpr : Node → Bool
  | .expr _ => true
  | _ => false

/-- Below a node that is not an expression, the loop does not depend on what
lies beyond it. -/
theorem isWrittenLoop_local (inner : List Node) (h : ∃ n ∈ inner, n.isExpr = false)
    (child : Expr) (r1 r2 : List Node) :
    isWrittenLoop child (inner ++ r1) = isWrittenLoop child (inner ++ r2) := by
  induction inner generalizing child with
  | nil =>
    obtain ⟨n, hn, _⟩ := h
    cases hn
  | cons A rest ih =>
    simp only [List.cons_append]
    unfold isWrittenLoop
    by_cases hr : isReadOnlyContext A child = true
    · simp [hr]
    · by_cases hw : isWriteContext A child = true
      · simp [hr, hw]
      · simp only [hr, hw, if_false, Bool.false_eq_true]
        cases A with
        | expr e =>
          simp only []
          apply ih
          obtain ⟨n, hn, hne⟩ := h
          rcases List.mem_cons.mp hn with h0 | h1
          · subst h0
            simp [Node.isExpr] at hne
          · exact ⟨n, h1, hne⟩
        | _ => rfl

/-- A list with an entry that is not an expression splits at the last such
entry. -/
theorem split_at_last_nonExpr (t : List Node) (h : ∃ n ∈ t, n.isExpr = false) :
    ∃ pre A post, t = pre ++ A :: post ∧ (∀ n ∈ post, n.isExpr = true) ∧
      A.isExpr = false := by
  induction t with
  | nil =>
    obtain ⟨n, hn, _⟩ := h
    cases hn
  | cons x t ih =>
    by_cases ht : ∃ n ∈ t, n.isExpr = false
    · obtain ⟨pre, A, post, hsplit, hpost, hA⟩ := ih ht
      exact ⟨x :: pre, A, post, by simp [hsplit], hpost, hA⟩
    · refine ⟨[], x, t, rfl, ?_, ?_⟩
      · intro n hn
        cases hne : n.isExpr
        · exact absurd ⟨n, hn, hne⟩ ht
        · rfl
      · obtain ⟨n, hn, hne⟩ := h
        rcases List.mem_cons.mp hn with h0 | h1
        · subst h0
          exact hne
        · exact absurd ⟨n, h1, hne⟩ ht

/-- A true verdict is produced at the first entry that is not an expression,
by a write rule. -/
theorem isWrittenLoop_true_at (inner : List Node) (hin : ∀ n ∈ inner, n.isExpr = true)
    (A : Node) (hA : A.isExpr = false) (rest : List Node) (child : Expr)
    (h : isWrittenLoop child (inner ++ A :: rest) = true) : isWriteKind A = true := by
  induction inner generalizing child with
  | nil =>
    simp only [List.nil_append] at h
    unfold isWrittenLoop at h
    by_cases hr : isReadOnlyContext A child = true
    · simp [hr] at h
    · by_cases hw : isWriteContext A child = true
      · cases hk : isWriteKind A
        · rw [isWriteContext_of_not_isWriteKind A child hk] at hw
          exact absurd hw (by decide)
        · rfl
      · simp only [hr, hw, if_false, Bool.false_eq_true] at h
        cases A with
        | expr e => simp [Node.isExpr] at hA
        | _ => simp at h
  | cons B inner ih =>
    simp only [List.cons_append] at h
    unfold isWrittenLoop at h
    have hB := hin B (List.mem_cons_self _ _)
    cases B with
    | expr e =>
      by_cases hr : isReadOnlyContext (Node.expr e) child = true
      · simp [hr] at h
      · simp only [hr, isWriteContext_expr, if_false, Bool.false_eq_true] at h
        exact ih (fun n hn => hin n (List.mem_cons_of_mem _ hn)) e h
    | _ => simp [Node.isExpr] at hB

/-- C27: for every suffix `t` with an entry that is not an expression,
`isWritten` returns the same on `p1 ++ t` and `p2 ++ t`; `t` splits at its
innermost entry `A` that is not an expression, and when the verdict is true `A`
is an assignment, increment/decrement, range statement or function
declaration. -/
theorem isWritten_local (O : Ident) (p1 p2 t : List Node)
    (ht : ∃ n ∈ t, n.isExpr = false) :
    isWritten O (p1 ++ t) = isWritten O (p2 ++ t) ∧
      ∃ pre A post, t = pre ++ A :: post ∧ (∀ n ∈ post, n.isExpr = true) ∧
        A.isExpr = false ∧ (isWritten O (p1 ++ t) = true → isWriteKind A = true) := by
  constructor
  · unfold isWritten
    simp only [List.reverse_append]
    exact isWrittenLoop_local t.reverse (by simpa using ht) _ _ _
  · obtain ⟨pre, A, post, hsplit, hpost, hA⟩ := split_at_last_nonExpr t ht
    refine ⟨pre, A, post, hsplit, hpost, hA, fun h => ?_⟩
    unfold isWritten at h
    rw [hsplit] at h
    simp only [List.reverse_append, List.reverse_cons, List.append_assoc,
      List.singleton_append] at h
    exact isWrittenLoop_true_at post.reverse (by simpa using hpost) A hA _ _ h

theorem isWritten_local_witness :
    (∃ n ∈ [Node.stmt (Stmt.IncDecStmt 2 (Expr.Ident ⟨1, 10, "racyVar0"⟩) Token.INC),
        Node.expr (Expr.Ident ⟨1, 10, "racyVar0"⟩)], n.isExpr = false) ∧
    (isWritten ⟨1, 10, "racyVar0"⟩
        ([] ++ [Node.stmt (Stmt.IncDecStmt 2 (Expr.Ident ⟨1, 10, "racyVar0"⟩) Token.INC),
          Node.expr (Expr.Ident ⟨1, 10, "racyVar0"⟩)]) =
      isWritten ⟨1, 10, "racyVar0"⟩
        ([Node.File emptyFile] ++
          [Node.stmt (Stmt.IncDecStmt 2 (Expr.Ident ⟨1, 10, "racyVar0"⟩) Token.INC),
            Node.expr (Expr.Ident ⟨1, 10, "racyVar0"⟩)]) ∧
      ∃ pre A post,
        [Node.stmt (Stmt.IncDecStmt 2 (Expr.Ident ⟨1, 10, "racyVar0"⟩) Token.INC),
          Node.expr (Expr.Ident ⟨1, 10, "racyVar0"⟩)] = pre ++ A :: post ∧
        (∀ n ∈ post, n.isExpr = true) ∧ A.isExpr = false ∧
        (isWritten ⟨1, 10, "racyVar0"⟩
          ([] ++ [Node.stmt (Stmt.IncDecStmt 2 (Expr.Ident ⟨1, 10, "racyVar0"⟩) Token.INC),
            Node.expr (Expr.Ident ⟨1, 10, "racyVar0"⟩)]) = true → isWriteKind A = true)) :=
  have h : ∃ n ∈ [Node.stmt (Stmt.IncDecStmt 2 (Expr.Ident ⟨1, 10, "racyVar0"⟩) Token.INC),
      Node.expr (Expr.Ident ⟨1, 10, "racyVar0"⟩)], n.isExpr = false :=
    ⟨_, List.mem_cons_self _ _, rfl⟩
  ⟨h, isWritten_local ⟨1, 10, "racyVar0"⟩ [] [Node.File emptyFile] _ h⟩

/-! ## The read-only rules of statements and declarations -/

/-- The function `isReadOnlyContext` without its cases for return, send,
communication clause, type declaration, block, switch, if, for, defer, go,
select and case clause. -/
def isReadOnlyContextExprCases (node : Node) (child : Expr) : Bool :=
  match node with
  | .expr (.SelectorExpr _ X _) => sameExpr X child
  | .expr (.IndexExpr _ _ Index) => sameExpr Index child
  | .expr (.SliceExpr _ _ Low High Max) =>
      sameExprOpt Low child || sameExprOpt High child || sameExprOpt Max child
  | .expr (.CallExpr c) => c.Args.any (fun arg => sameExpr arg child)
  | .expr (.KeyValueExpr _ Key Value) => sameExpr Key child || sameExpr Value child
  | .expr (.TypeAssertExpr _ _ _) => true
  | .expr (.UnaryExpr _ _ X) => sameExpr X child
  | .expr (.BinaryExpr _ X _ Y) => sameExpr X child || sameExpr Y child
  | .expr (.StructType _ _) => true
  | .expr (.InterfaceType _ _) => true
  | .expr (.FuncType _) => true
  | .expr (.MapType _ _ _) => true
  | .expr (.ChanType _ _) => true
  | .expr (.ArrayType _ _ _) => true
  | _ => false

/-- The loop of `isWritten` over the reduced read-only rules. -/
def isWrittenLoopExprCases (child : Expr) : List Node → Bool
  | [] => false
  | parent :: rest =>
      if isReadOnlyContextExprCases parent child then false
      else if isWriteContext parent child then true
      else
        match parent with
        | .expr e => isWrittenLoopExprCases e rest
        | _ => false

/-- The classifier over the reduced read-only rules. -/
def isWrittenExprCases (ident : Ident) (stack : List Node) : Bool :=
  isWrittenLoopExprCases (Expr.Ident ident) stack.reverse

theorem isReadOnlyContextExprCases_expr (e c : Expr) :
    isReadOnlyContextExprCases (Node.expr e) c = isReadOnlyContext (Node.expr e) c := by
  cases e <;> rfl

theorem isReadOnlyContextExprCases_other (A : Node) (c : Expr) (hA : A.isExpr = false) :
    isReadOnlyContextExprCases A c = false := by
  rcases A with e | s | sp | d | _ | _ | _ | _ | _ | _
  · simp [Node.isExpr] at hA
  · cases s <;> rfl
  · cases sp <;> rfl
  · cases d <;> rfl
  all_goals rfl

theorem isWrittenLoopExprCases_eq (parents : List Node) (child : Expr) :
    isWrittenLoopExprCases child parents = isWrittenLoop child parents := by
  induction parents generalizing child with
  | nil => rfl
  | cons parent rest ih =>
    unfold isWrittenLoopExprCases isWrittenLoop
    cases hp : parent.isExpr
    · rw [isReadOnlyContextExprCases_other parent child hp]
      have hd := isReadOnlyContext_isWriteContext parent child
      by_cases hr : isReadOnlyContext parent child = true
      · have hw : isWriteContext parent child = false := by
          cases h : isWriteContext parent child
          · rfl
          · exact absurd ⟨hr, h⟩ hd
        simp only [hr, hw, if_true, if_false, Bool.false_eq_true]
        cases parent with
        | expr e => simp [Node.isExpr] at hp
        | _ => rfl
      · simp only [hr, if_false, Bool.false_eq_true]
        cases parent with
        | expr e => simp [Node.isExpr] at hp
        | _ => rfl
    · cases parent with
      | expr e =>
        rw [isReadOnlyContextExprCases_expr]
        simp only [ih]
      | _ => simp [Node.isExpr] at hp

/-- C28: the classifier whose read-only rules lack the cases for return, send,
communication clause, type declaration, block, switch, if, for, defer, go,
select and case clause returns what `isWritten` returns, for every identifier
and every stack. -/
theorem isWritten_nonExpr_rules_redundant (ident : Ident) (stack : List Node) :
    isWrittenExprCases ident stack = isWritten ident stack :=
  isWrittenLoopExprCases_eq stack.reverse (Expr.Ident ident)

/-! ## Stack balance -/

/-- The visitor together with a count of the walk: the stack found at each exit
event `Visit(nil)`, the number of pushes and the number of pops. -/
structure countingVisitor where
  v : visitor
  exits : List (List Node)
  pushes : Nat
  pops : Nat

/-- The method `Visit`, keeping the count: a non-nil node is appended to the
stack, which counts as a push; at `Visit(nil)` the stack found is recorded, and
a pop is counted when the guard `len(v.stack) > 0` lets it happen. -/
def countingVisitor.Visit (t : countingVisitor) (node : Option Node) :
    countingVisitor × Bool :=
  match node with
  | none =>
      ({ v := (t.v.Visit none).1,
         exits := t.exits ++ [t.v.stack],
         pushes := t.pushes,
         pops := if t.v.stack.length > 0 then t.pops + 1 else t.pops },
        (t.v.Visit none).2)
  | some node =>
      ({ t with v := (t.v.Visit (some node)).1, pushes := t.pushes + 1 },
        (t.v.Visit (some node)).2)

/-- The count before the walk. -/
def countingVisitor.init (fset : FileSet) : countingVisitor :=
  { v := visitor.init fset, exits := [], pushes := 0, pops := 0 }

/-- The count after the stacks `ss` were built and the stacks `ex` were found at
exit events, in order. -/
def countingVisitor.log (t : countingVisitor) (ss ex : List (List Node)) : countingVisitor :=
  { v := t.v.record (ss.filterMap writeAt),
    exits := t.exits ++ ex,
    pushes := t.pushes + ss.length,
    pops := t.pops + ex.length }

/-- The stacks found at the exit events of the walk of `node` started on
`stack`, in the order of the events: after the exits of each child's walk, the
stack with `node` on top. -/
def exitStacks (stack : List Node) (node : Node) : List (List Node) :=
  (children node).attach.flatMap (fun c => exitStacks (stack ++ [node]) c.1) ++
    [stack ++ [node]]
termination_by 2 * sizeOf node + node.bonus
decreasing_by exact children_rank_lt _ _ c.2

theorem exitStacks_eq (stack : List Node) (node : Node) :
    exitStacks stack node =
      (children node).flatMap (exitStacks (stack ++ [node])) ++ [stack ++ [node]] := by
  rw [exitStacks]
  simp [List.flatMap, List.attach_map_coe]

theorem counting_log_log (t : countingVisitor) (a b c d : List (List Node)) :
    (t.log a b).log c d = t.log (a ++ c) (b ++ d) := by
  simp [countingVisitor.log, visitor.record_record, List.filterMap_append, List.append_assoc,
    Nat.add_assoc]

theorem counting_log_stack (t : countingVisitor) (ss ex : List (List Node)) :
    (t.log ss ex).v.stack = t.v.stack := by
  simp [countingVisitor.log, visitor.record_stack]

theorem counting_Visit_some (t : countingVisitor) (node : Node) :
    t.Visit (some node) =
      (({ t with v := { t.v with stack := t.v.stack ++ [node] } } : countingVisitor).log
          [t.v.stack ++ [node]] [], true) := by
  simp only [countingVisitor.Visit, visitor.Visit_some, countingVisitor.log]
  cases h : writeAt (t.v.stack ++ [node]) <;> simp [h]

theorem counting_Visit_none_log (t : countingVisitor) (node : Node)
    (ss ex : List (List Node)) :
    ((({ t with v := { t.v with stack := t.v.stack ++ [node] } } : countingVisitor).log
        ss ex).Visit none).1 = t.log ss (ex ++ [t.v.stack ++ [node]]) := by
  simp only [countingVisitor.Visit, countingVisitor.log]
  rw [visitor.Visit_none_record, visitor.record_stack]
  simp [Nat.add_assoc]

theorem foldl_WalkWith_counting (cs : List Node)
    (ih : ∀ c ∈ cs, ∀ t : countingVisitor,
      WalkWith countingVisitor.Visit t c =
        t.log (preorder t.v.stack c) (exitStacks t.v.stack c)) (t : countingVisitor) :
    cs.foldl (WalkWith countingVisitor.Visit) t =
      t.log (cs.flatMap (preorder t.v.stack)) (cs.flatMap (exitStacks t.v.stack)) := by
  induction cs generalizing t with
  | nil => simp [countingVisitor.log, visitor.record]
  | cons c cs ihcs =>
    have h1 := ih c (List.mem_cons_self _ _) t
    have h2 := ihcs (fun c' hc' => ih c' (List.mem_cons_of_mem _ hc'))
      (WalkWith countingVisitor.Visit t c)
    simp only [List.foldl_cons]
    rw [h2, h1, counting_log_stack, counting_log_log]
    simp

/-- The walk with the count: on return the count holds the stacks built, in
pre-order, and the stacks found at the exit events. -/
theorem WalkWith_counting (t : countingVisitor) (node : Node) :
    WalkWith countingVisitor.Visit t node =
      t.log (preorder t.v.stack node) (exitStacks t.v.stack node) := by
  generalize h : 2 * sizeOf node + node.bonus = k
  induction k using Nat.strong_induction_on generalizing node t with
  | _ k ih =>
    subst h
    have hcs := foldl_WalkWith_counting (children node)
      (fun c hc t' => ih _ (children_rank_lt _ _ hc) t' c rfl)
    rw [WalkWith_eq, counting_Visit_some]
    simp only [Bool.true_eq_false, if_false, reduceIte]
    rw [hcs, counting_log_log, counting_log_stack]
    rw [counting_Visit_none_log]
    rw [preorder_eq _ node, exitStacks_eq _ node]
    rfl

theorem exitStacks_ne_nil (stack : List Node) (node : Node) (st : List Node)
    (hst : st ∈ exitStacks stack node) : st ≠ [] := by
  generalize h : 2 * sizeOf node + node.bonus = k at hst
  induction k using Nat.strong_induction_on generalizing node stack st with
  | _ k ih =>
    subst h
    rw [exitStacks_eq] at hst
    rcases List.mem_append.mp hst with h1 | h0
    · rw [List.mem_flatMap] at h1
      obtain ⟨c, hc, hmem⟩ := h1
      exact ih _ (children_rank_lt _ _ hc) _ c st hmem rfl
    · simp only [List.mem_singleton] at h0
      subst h0
      simp

theorem flatMap_length_congr {α β γ : Type} (cs : List α) (f : α → List β) (g : α → List γ)
    (h : ∀ c ∈ cs, (f c).length = (g c).length) :
    (cs.flatMap f).length = (cs.flatMap g).length := by
  induction cs with
  | nil => rfl
  | cons c cs ih =>
    simp only [List.flatMap_cons, List.length_append]
    rw [h c (List.mem_cons_self _ _), ih (fun c' hc' => h c' (List.mem_cons_of_mem _ hc'))]

theorem exitStacks_length (stack : List Node) (node : Node) :
    (exitStacks stack node).length = (preorder stack node).length := by
  generalize h : 2 * sizeOf node + node.bonus = k
  induction k using Nat.strong_induction_on generalizing node stack with
  | _ k ih =>
    subst h
    rw [exitStacks_eq, preorder_eq]
    simp only [List.length_append, List.length_cons, List.length_nil]
    rw [flatMap_length_congr _ _ (preorder (stack ++ [node]))
      (fun c hc => ih _ (children_rank_lt _ _ hc) _ c rfl)]

/-- C29: in the walk of any tree from the empty stack, the stack found at every
exit event `Visit(nil)` is non-empty, so the number of pops is the number of
exit events; the number of pushes is the number of pops, one per node; the
stack is empty after the walk; and the visitor of the walk with the count is
the visitor after `Walk`. -/
theorem Walk_stack_balanced (fset : FileSet) (root : Node) :
    (∀ st ∈ (WalkWith countingVisitor.Visit (countingVisitor.init fset) root).exits, st ≠ []) ∧
      (WalkWith countingVisitor.Visit (countingVisitor.init fset) root).pops =
        (WalkWith countingVisitor.Visit (countingVisitor.init fset) root).exits.length ∧
      (WalkWith countingVisitor.Visit (countingVisitor.init fset) root).pushes =
        (WalkWith countingVisitor.Visit (countingVisitor.init fset) root).pops ∧
      (WalkWith countingVisitor.Visit (countingVisitor.init fset) root).pushes =
        (preorder [] root).length ∧
      (WalkWith countingVisitor.Visit (countingVisitor.init fset) root).v.stack = [] ∧
      (WalkWith countingVisitor.Visit (countingVisitor.init fset) root).v =
        Walk (visitor.init fset) root := by
  rw [WalkWith_counting]
  refine ⟨?_, ?_, ?_, ?_, ?_, ?_⟩
  · intro st hst
    simp only [countingVisitor.log, countingVisitor.init, List.nil_append] at hst
    exact exitStacks_ne_nil _ _ st hst
  · simp [countingVisitor.log, countingVisitor.init]
  · simp [countingVisitor.log, countingVisitor.init, visitor.init, exitStacks_length]
  · simp [countingVisitor.log, countingVisitor.init, visitor.init]
  · rw [counting_log_stack]
    rfl
  · rw [Walk_spec]
    rfl

/-! ## The aggregator -/

/-- Every state that `visit` reaches from a state with the property `P` has it,
when each call of `visit` keeps it. -/
theorem WalkWith_invariant {σ : Type} (visit : σ → Option Node → σ × Bool) (P : σ → Prop)
    (hP : ∀ s node, P s → P (visit s node).1) (s : σ) (node : Node) (hs : P s) :
    P (WalkWith visit s node) := by
  generalize h : 2 * sizeOf node + node.bonus = k
  induction k using Nat.strong_induction_on generalizing node s with
  | _ k ih =>
    subst h
    have hcs : ∀ (cs : List Node), (∀ c ∈ cs, c ∈ children node) → ∀ w : σ, P w →
        P (cs.foldl (WalkWith visit) w) := by
      intro cs
      induction cs with
      | nil => intro _ w hw; exact hw
      | cons c cs ihcs =>
        intro hmem w hw
        simp only [List.foldl_cons]
        exact ihcs (fun c' hc' => hmem c' (List.mem_cons_of_mem _ hc')) _
          (ih _ (children_rank_lt _ _ (hmem c (List.mem_cons_self _ _))) w c hw rfl)
    rw [WalkWith_eq]
    split
    · exact hP s _ hs
    · exact hP _ _ (hcs _ (fun _ hc => hc) _ (hP s _ hs))

/-- The aggregator invariant of a visitor over the file set `fset`: without a
recorded write the position is the zero position; with one, it is the position
of a candidate identifier that `isWritten` classified as written. -/
def aggregatorInv (fset : FileSet) (v : visitor) : Prop :=
  v.fset = fset ∧
    (v.hasRacyWrite = false → v.writePos = Position.zero) ∧
    (v.hasRacyWrite = true →
      ∃ (n : Ident) (stack : List Node), isRacyVarWrite n = true ∧ isWritten n stack = true ∧
        v.writePos = fset n.NamePos)

theorem visitor.Visit_step (v : visitor) (node : Option Node) :
    (v.Visit node).1.fset = v.fset ∧
      (v.hasRacyWrite = true → (v.Visit node).1.hasRacyWrite = true) ∧
      (((v.Visit node).1.writePos = v.writePos ∧
          (v.Visit node).1.hasRacyWrite = v.hasRacyWrite) ∨
        ((v.Visit node).1.hasRacyWrite = true ∧
          ∃ n, node = some (Node.expr (Expr.Ident n)) ∧ isRacyVarWrite n = true ∧
            isWritten n (v.stack ++ [Node.expr (Expr.Ident n)]) = true ∧
            (v.Visit node).1.writePos = v.fset n.NamePos)) := by
  cases node with
  | none =>
    simp only [visitor.Visit]
    split <;> simp
  | some node =>
    by_cases hid : ∃ n, node = Node.expr (Expr.Ident n)
    · obtain ⟨n, rfl⟩ := hid
      simp only [visitor.Visit]
      by_cases hw : (isRacyVarWrite n && isWritten n (v.stack ++ [Node.expr (Expr.Ident n)]))
          = true
      · have hw2 : isRacyVarWrite n = true ∧
            isWritten n (v.stack ++ [Node.expr (Expr.Ident n)]) = true := by simpa using hw
        simp [hw, hw2]
      · simp [hw]
    · rw [visitor.Visit_some, writeAt_not_ident _ _ hid]
      simp [visitor.record]

theorem aggregatorInv_Visit (fset : FileSet) (v : visitor) (node : Option Node)
    (h : aggregatorInv fset v) : aggregatorInv fset (v.Visit node).1 := by
  obtain ⟨hf, h0, h1⟩ := h
  obtain ⟨sf, _, sw⟩ := visitor.Visit_step v node
  refine ⟨by rw [sf, hf], ?_, ?_⟩
  · intro hfalse
    rcases sw with ⟨hp, hh⟩ | ⟨ht, _⟩
    · rw [hp]
      exact h0 (by rw [← hh]; exact hfalse)
    · rw [ht] at hfalse
      exact absurd hfalse (by decide)
  · intro htrue
    rcases sw with ⟨hp, hh⟩ | ⟨_, n, _, hc, hw, hp⟩
    · rw [hp]
      exact h1 (by rw [← hh]; exact htrue)
    · exact ⟨n, _, hc, hw, by rw [hp, hf]⟩

/-- C30: every call of `Visit` keeps a true `hasRacyWrite` true and either
leaves `writePos` and `hasRacyWrite` as they were or sets `hasRacyWrite` to true
and `writePos` to the position of the visited candidate identifier that
`isWritten` classified as written; the visitor `AnalyzeFile` starts with has the
aggregator invariant, every call of `Visit` keeps it, and the visitor after the
walk has it. -/
theorem Visit_aggregator_invariant (fset : FileSet) (root : Node) :
    (∀ (v : visitor) (node : Option Node),
        (v.hasRacyWrite = true → (v.Visit node).1.hasRacyWrite = true) ∧
        (((v.Visit node).1.writePos = v.writePos ∧
            (v.Visit node).1.hasRacyWrite = v.hasRacyWrite) ∨
          ((v.Visit node).1.hasRacyWrite = true ∧
            ∃ n, node = some (Node.expr (Expr.Ident n)) ∧ isRacyVarWrite n = true ∧
              isWritten n (v.stack ++ [Node.expr (Expr.Ident n)]) = true ∧
              (v.Visit node).1.writePos = v.fset n.NamePos))) ∧
      aggregatorInv fset (visitor.init fset) ∧
      (∀ (v : visitor) (node : Option Node),
        aggregatorInv fset v → aggregatorInv fset (v.Visit node).1) ∧
      aggregatorInv fset (Walk (visitor.init fset) root) := by
  have hinit : aggregatorInv fset (visitor.init fset) :=
    ⟨rfl, fun _ => rfl, fun h => absurd h (by simp [visitor.init])⟩
  refine ⟨fun v node => (visitor.Visit_step v node).2, hinit,
    fun v node h => aggregatorInv_Visit fset v node h, ?_⟩
  rw [Walk_eq_WalkWith]
  exact WalkWith_invariant visitor.Visit (aggregatorInv fset)
    (fun s node h => aggregatorInv_Visit fset s node h) _ _ hinit

/-! ## The returned record -/

/-- A file set whose positions all lie on the line with the least Go `int` as
its number. -/
def leastLineFset : FileSet := fun _ => ⟨"w.go", 0, -9223372036854775808, 1⟩

/-- A file set whose positions are all the zero position, on line 0. -/
def zeroLineFset : FileSet := fun _ => Position.zero

/-- At a write on the line with the least `int` as its number, `Line-1` wraps
around to the greatest `int`, the line lookup is skipped and `AnalyzeFile`
returns the record without a line text. -/
theorem AnalyzeFile_least_line :
    AnalyzeFile (fun _ => .ok (leastLineFset, twoWritesFile)) (fun _ => .ok twoWritesText)
        "w.go" =
      some ({ File := "w.go", HasWrite := true, LineNumber := -9223372036854775808,
              LineContent := "", Error := "" }, none) := by
  obtain ⟨st, hlast⟩ := twoWrites_getLast
  rw [AnalyzeFile_found (fun _ => .ok (leastLineFset, twoWritesFile))
    (fun _ => .ok twoWritesText) "w.go" leastLineFset twoWritesFile twoWritesText _ rfl hlast rfl]
  have hline : (leastLineFset 37).Line = -9223372036854775808 := rfl
  have hwrap : wrapInt (-9223372036854775808 - 1) = 9223372036854775807 := by
    unfold wrapInt
    norm_num
  simp only [hline, hwrap, twoWrites_Split]
  decide

/-- At a write on line 0, the index `Line-1` is -1 and `AnalyzeFile` panics. -/
theorem AnalyzeFile_line_zero :
    AnalyzeFile (fun _ => .ok (zeroLineFset, twoWritesFile)) (fun _ => .ok twoWritesText)
        "w.go" = none := by
  obtain ⟨st, hlast⟩ := twoWrites_getLast
  rw [AnalyzeFile_found (fun _ => .ok (zeroLineFset, twoWritesFile))
    (fun _ => .ok twoWritesText) "w.go" zeroLineFset twoWritesFile twoWritesText _ rfl hlast rfl]
  have hline : (zeroLineFset 37).Line = 0 := rfl
  have hwrap : wrapInt (0 - 1) = -1 := by
    unfold wrapInt
    norm_num
  simp only [hline, hwrap, twoWrites_Split]
  decide

/-- C31: whenever `AnalyzeFile` returns, the returned error is non-nil exactly
when the record's `Error` is non-empty, the record's `File` is the filename
argument, and a non-nil error means that parsing failed or that the walk of
the parsed file found a write and reading the file failed; so for a parsed
file without a write the returned error is nil. -/
theorem AnalyzeFile_error_iff (ParseFile : String → Except String (FileSet × File))
    (ReadFile : String → Except String String) (filename : String) (res : AnalysisResult)
    (err : Option String) (h : AnalyzeFile ParseFile ReadFile filename = some (res, err)) :
    (err ≠ none ↔ res.Error ≠ "") ∧ res.File = filename ∧
      (err ≠ none →
        (∃ e, ParseFile filename = .error e) ∨
        (∃ fset file e, ParseFile filename = .ok (fset, file) ∧
          writeOccurrences (Node.File file) ≠ [] ∧ ReadFile filename = .error e)) ∧
      (∀ fset file, ParseFile filename = .ok (fset, file) →
        writeOccurrences (Node.File file) = [] → err = none) := by
  have hne : ∀ (pre e : String), pre ≠ "" → pre ++ e ≠ "" := by
    intro pre e hpre hcat
    apply hpre
    have h2 := congrArg String.data hcat
    simp only [String.data_append] at h2
    exact String.ext (List.append_eq_nil.mp h2).1
  cases hparse : ParseFile filename with
  | error e =>
    simp only [AnalyzeFile, hparse, Option.some.injEq, Prod.mk.injEq] at h
    obtain ⟨h1, h2⟩ := h
    subst h1 h2
    refine ⟨?_, rfl, fun _ => Or.inl ⟨e, rfl⟩, fun fset file hp => absurd hp (by simp)⟩
    simp only [ne_eq, not_false_eq_true, true_iff, reduceCtorEq]
    exact hne _ _ (by decide)
  | ok pf =>
    obtain ⟨fset, file⟩ := pf
    rw [AnalyzeFile_parsed ParseFile ReadFile filename fset file hparse] at h
    have hrw := Walk_init_hasRacyWrite fset (Node.File file)
    by_cases hw : (Walk (visitor.init fset) (Node.File file)).hasRacyWrite = true
    · have hocc : writeOccurrences (Node.File file) ≠ [] := by
        intro hnil
        rw [hrw, hnil] at hw
        simp at hw
      simp only [hw, if_true, reduceIte] at h
      cases hread : ReadFile filename with
      | error e =>
        simp only [hread, Option.some.injEq, Prod.mk.injEq] at h
        obtain ⟨h1, h2⟩ := h
        subst h1 h2
        refine ⟨?_, rfl, fun _ => Or.inr ⟨fset, file, e, rfl, hocc, rfl⟩, ?_⟩
        · simp only [ne_eq, not_false_eq_true, true_iff, reduceCtorEq]
          exact hne _ _ (by decide)
        · intro fset2 file2 hp hnil
          simp only [Except.ok.injEq, Prod.mk.injEq] at hp
          obtain ⟨_, hfile⟩ := hp
          subst hfile
          exact absurd hnil hocc
      | ok content =>
        simp only [hread] at h
        split at h
        · split at h
          · exact absurd h (by simp)
          · simp only [Option.some.injEq, Prod.mk.injEq] at h
            obtain ⟨h1, h2⟩ := h
            subst h1 h2
            exact ⟨by simp, rfl, fun hc => absurd rfl hc, fun _ _ _ _ => rfl⟩
        · simp only [Option.some.injEq, Prod.mk.injEq] at h
          obtain ⟨h1, h2⟩ := h
          subst h1 h2
          exact ⟨by simp, rfl, fun hc => absurd rfl hc, fun _ _ _ _ => rfl⟩
    · simp only [hw, Bool.false_eq_true, if_false, reduceIte, Option.some.injEq,
        Prod.mk.injEq] at h
      obtain ⟨h1, h2⟩ := h
      subst h1 h2
      exact ⟨by simp, rfl, fun hc => absurd rfl hc, fun _ _ _ _ => rfl⟩

theorem AnalyzeFile_error_iff_witness :
    AnalyzeFile (fun _ => .ok (leastLineFset, twoWritesFile)) (fun _ => .ok twoWritesText)
        "w.go" =
      some ({ File := "w.go", HasWrite := true, LineNumber := -9223372036854775808,
              LineContent := "", Error := "" }, none) ∧
    ((none : Option String) ≠ none ↔
        ({ File := "w.go", HasWrite := true, LineNumber := -9223372036854775808,
           LineContent := "", Error := "" } : AnalysisResult).Error ≠ "") ∧
      ({ File := "w.go", HasWrite := true, LineNumber := -9223372036854775808,
         LineContent := "", Error := "" } : AnalysisResult).File = "w.go" ∧
      ((none : Option String) ≠ none →
        (∃ e, (fun _ => Except.ok (leastLineFset, twoWritesFile) :
            String → Except String (FileSet × File)) "w.go" = .error e) ∨
        (∃ fset file e, (fun _ => Except.ok (leastLineFset, twoWritesFile) :
            String → Except String (FileSet × File)) "w.go" = .ok (fset, file) ∧
          writeOccurrences (Node.File file) ≠ [] ∧
          (fun _ => Except.ok twoWritesText : String → Except String String) "w.go" =
            .error e)) ∧
      (∀ fset file, (fun _ => Except.ok (leastLineFset, twoWritesFile) :
          String → Except String (FileSet × File)) "w.go" = .ok (fset, file) →
        writeOccurrences (Node.File file) = [] →
        (none : Option String) = none) :=
  ⟨AnalyzeFile_least_line,
    AnalyzeFile_error_iff (fun _ => .ok (leastLineFset, twoWritesFile))
      (fun _ => .ok twoWritesText) "w.go" _ _ AnalyzeFile_least_line⟩

/-! ## The line text -/

theorem splitLines_ne_nil (cs : List Char) : splitLines cs ≠ [] := by
  cases cs with
  | nil => simp [splitLines]
  | cons c cs =>
    unfold splitLines
    split
    · simp
    · split <;> simp

/-- The pieces of `splitLines`, joined by newline characters, are the text. -/
theorem splitLines_intercalate (cs : List Char) :
    List.intercalate ['\n'] (splitLines cs) = cs := by
  induction cs with
  | nil => simp [splitLines, List.intercalate]
  | cons c cs ih =>
    unfold splitLines
    split
    · rename_i hc
      cases hs : splitLines cs with
      | nil => exact absurd hs (splitLines_ne_nil cs)
      | cons l ls =>
        rw [hs] at ih
        rw [← ih, hc]
        simp [List.intercalate]
    · split
      · rename_i l ls hs
        rw [hs] at ih
        rw [← ih]
        cases ls <;> simp [List.intercalate]
      · rename_i hs
        exact absurd hs (splitLines_ne_nil cs)

/-- No piece of `splitLines` holds a newline character. -/
theorem splitLines_no_newline (cs : List Char) : ∀ l ∈ splitLines cs, '\n' ∉ l := by
  induction cs with
  | nil => simp [splitLines]
  | cons c cs ih =>
    unfold splitLines
    split
    · intro l hl
      rcases List.mem_cons.mp hl with h | h
      · subst h
        simp
      · exact ih l h
    · rename_i hc
      split
      · rename_i l ls hs
        rw [hs] at ih
        intro l2 hl2
        rcases List.mem_cons.mp hl2 with h | h
        · subst h
          intro hmem
          rcases List.mem_cons.mp hmem with h1 | h1
          · exact hc h1.symm
          · exact ih l (List.mem_cons_self _ _) h1
        · exact ih l2 (List.mem_cons_of_mem _ h)
      · intro l hl
        simp only [List.mem_singleton] at hl
        subst hl
        intro hmem
        simp only [List.mem_singleton] at hmem
        exact hc hmem.symm

theorem head?_dropWhile_false {α : Type} (p : α → Bool) (l : List α) (c : α)
    (h : (l.dropWhile p).head? = some c) : p c = false := by
  have h2 := List.head?_dropWhile_not p l
  rw [h] at h2
  exact h2

/-- What `TrimSpace` returns: the text is the result between a run of white
space before it and a run of white space behind it, and the result neither
begins nor ends with white space. -/
theorem TrimSpace_spec (s : String) :
    ∃ pre suf, s.toList = pre ++ (TrimSpace s).toList ++ suf ∧
      (∀ c ∈ pre, isSpace c = true) ∧ (∀ c ∈ suf, isSpace c = true) ∧
      (∀ c, (TrimSpace s).toList.head? = some c → isSpace c = false) ∧
      (∀ c, (TrimSpace s).toList.getLast? = some c → isSpace c = false) := by
  have ht : (TrimSpace s).toList =
      ((s.toList.dropWhile isSpace).reverse.dropWhile isSpace).reverse := rfl
  have ha : s.toList.dropWhile isSpace =
      ((s.toList.dropWhile isSpace).reverse.dropWhile isSpace).reverse ++
        ((s.toList.dropWhile isSpace).reverse.takeWhile isSpace).reverse := by
    rw [← List.reverse_append, List.takeWhile_append_dropWhile, List.reverse_reverse]
  refine ⟨s.toList.takeWhile isSpace,
    ((s.toList.dropWhile isSpace).reverse.takeWhile isSpace).reverse, ?_, ?_, ?_, ?_, ?_⟩
  · rw [ht, List.append_assoc, ← ha, List.takeWhile_append_dropWhile]
  · intro c hc
    exact List.mem_takeWhile_imp hc
  · intro c hc
    exact List.mem_takeWhile_imp (List.mem_reverse.mp hc)
  · intro c hc
    rw [ht] at hc
    have hne : ((s.toList.dropWhile isSpace).reverse.dropWhile isSpace).reverse ≠ [] := by
      intro h
      rw [h] at hc
      simp at hc
    have h2 : (s.toList.dropWhile isSpace).head? = some c := by
      rw [ha, List.head?_append_of_ne_nil _ hne]
      exact hc
    exact head?_dropWhile_false isSpace _ c h2
  · intro c hc
    rw [ht, List.getLast?_reverse] at hc
    exact head?_dropWhile_false isSpace _ c hc

/-- C32: when the walk of a parsed file found a write, the line `L` of the last
write found is at least 1 (and, a Go `int`, less than `2^63`) and the file is
read, `AnalyzeFile` returns (the index `L - 1` is never out of range) a nil
error and the record with `HasWrite` true and `L` as `LineNumber`; the lines
are the pieces of the content between its newline characters; when the content
has at least `L` lines, `LineContent` is the `L`-th line without its leading
and trailing white space (the line is `LineContent` between two runs of white
space, and `LineContent` neither begins nor ends with white space); otherwise
`LineContent` is empty. -/
theorem AnalyzeFile_lineContent (ParseFile : String → Except String (FileSet × File))
    (ReadFile : String → Except String String) (filename : String) (fset : FileSet)
    (file : File) (content : String) (last : Ident × List Node)
    (hparse : ParseFile filename = .ok (fset, file))
    (hlast : (writeOccurrences (Node.File file)).getLast? = some last)
    (hread : ReadFile filename = .ok content)
    (hL : 1 ≤ (fset last.1.NamePos).Line) (hint : (fset last.1.NamePos).Line < 2 ^ 63) :
    ∃ lineContent,
      AnalyzeFile ParseFile ReadFile filename =
        some ({ File := filename, HasWrite := true,
                LineNumber := (fset last.1.NamePos).Line,
                LineContent := lineContent, Error := "" }, none) ∧
      List.intercalate ['\n'] ((Split content).map String.toList) = content.toList ∧
      (∀ l ∈ Split content, '\n' ∉ l.toList) ∧
      ((fset last.1.NamePos).Line ≤ ((Split content).length : Int) →
        ∃ line, (Split content)[((fset last.1.NamePos).Line - 1).toNat]? = some line ∧
          lineContent = TrimSpace line ∧
          ∃ pre suf, line.toList = pre ++ lineContent.toList ++ suf ∧
            (∀ c ∈ pre, isSpace c = true) ∧ (∀ c ∈ suf, isSpace c = true) ∧
            (∀ c, lineContent.toList.head? = some c → isSpace c = false) ∧
            (∀ c, lineContent.toList.getLast? = some c → isSpace c = false)) ∧
      (((Split content).length : Int) < (fset last.1.NamePos).Line → lineContent = "") := by
  have hwrap : wrapInt ((fset last.1.NamePos).Line - 1) = (fset last.1.NamePos).Line - 1 :=
    wrapInt_of_range _ (by omega) (by omega)
  have hjoin : List.intercalate ['\n'] ((Split content).map String.toList) = content.toList := by
    have : (Split content).map String.toList = splitLines content.toList := by
      simp [Split, List.map_map, Function.comp_def]
    rw [this, splitLines_intercalate]
  have hnl : ∀ l ∈ Split content, '\n' ∉ l.toList := by
    intro l hl
    simp only [Split, List.mem_map] at hl
    obtain ⟨cs, hcs, rfl⟩ := hl
    exact splitLines_no_newline content.toList cs hcs
  rw [AnalyzeFile_found ParseFile ReadFile filename fset file content last hparse hlast hread,
    hwrap]
  by_cases hlen : (fset last.1.NamePos).Line - 1 < ((Split content).length : Int)
  · have hidx : ((fset last.1.NamePos).Line - 1).toNat < (Split content).length := by omega
    rw [if_pos hlen, if_neg (by omega), List.getD_eq_getElem _ _ hidx]
    refine ⟨_, rfl, hjoin, hnl, fun _ => ⟨(Split content)[((fset last.1.NamePos).Line - 1).toNat],
      List.getElem?_eq_getElem hidx, rfl, TrimSpace_spec _⟩, fun h => ?_⟩
    omega
  · rw [if_neg hlen]
    refine ⟨_, rfl, hjoin, hnl, fun h => ?_, fun _ => rfl⟩
    omega

theorem AnalyzeFile_lineContent_witness :
    (fun _ => Except.ok (twoWritesFset, twoWritesFile) :
        String → Except String (FileSet × File)) "w.go" = .ok (twoWritesFset, twoWritesFile) ∧
    (∃ st, (writeOccurrences (Node.File twoWritesFile)).getLast? =
      some ((⟨12, 37, "racyVar1"⟩ : Ident), st)) ∧
    (fun _ => Except.ok twoWritesText : String → Except String String) "w.go" =
      .ok twoWritesText ∧
    (twoWritesFset 37).Line = 4 ∧
    Split twoWritesText =
      ["package p", "func f() \x7b", "\tracyVar0 = 1", "\tracyVar1++", "\x7d"] ∧
    TrimSpace "\tracyVar1++" = "racyVar1++" ∧
    TrimSpace " \t racyVar1++ \r" = "racyVar1++" ∧
    AnalyzeFile (fun _ => .ok (twoWritesFset, twoWritesFile)) (fun _ => .ok twoWritesText)
        "w.go" =
      some ({ File := "w.go", HasWrite := true, LineNumber := 4,
              LineContent := "racyVar1++", Error := "" }, none) ∧
    ∃ lineContent,
      AnalyzeFile (fun _ => .ok (twoWritesFset, twoWritesFile)) (fun _ => .ok twoWritesText)
          "w.go" =
        some ({ File := "w.go", HasWrite := true,
                LineNumber := (twoWritesFset 37).Line,
                LineContent := lineContent, Error := "" }, none) ∧
      List.intercalate ['\n'] ((Split twoWritesText).map String.toList) =
        twoWritesText.toList ∧
      (∀ l ∈ Split twoWritesText, '\n' ∉ l.toList) ∧
      ((twoWritesFset 37).Line ≤ ((Split twoWritesText).length : Int) →
        ∃ line, (Split twoWritesText)[((twoWritesFset 37).Line - 1).toNat]? = some line ∧
          lineContent = TrimSpace line ∧
          ∃ pre suf, line.toList = pre ++ lineContent.toList ++ suf ∧
            (∀ c ∈ pre, isSpace c = true) ∧ (∀ c ∈ suf, isSpace c = true) ∧
            (∀ c, lineContent.toList.head? = some c → isSpace c = false) ∧
            (∀ c, lineContent.toList.getLast? = some c → isSpace c = false)) ∧
      (((Split twoWritesText).length : Int) < (twoWritesFset 37).Line → lineContent = "") :=
  ⟨rfl, twoWrites_getLast, rfl, by decide, twoWrites_Split, by decide, by decide,
    twoWrites_AnalyzeFile,
    twoWrites_getLast.elim fun st hlast =>
      AnalyzeFile_lineContent (fun _ => .ok (twoWritesFset, twoWritesFile))
        (fun _ => .ok twoWritesText) "w.go" twoWritesFset twoWritesFile twoWritesText
        ((⟨12, 37, "racyVar1"⟩ : Ident), st) rfl hlast rfl
        (by show (1 : Int) ≤ (twoWritesFset 37).Line; decide)
        (by show (twoWritesFset 37).Line < 2 ^ 63; decide)⟩

end Drfix
